import Mathlib

/-!
# gdwg::Graph — a directed weighted graph container

Shallow embedding of `src/graph.cpp` and `src/C++/graph.h`.

* A value cell (`std::shared_ptr<N>`) is a heap object with an identity, a `Cell`.  Identities are
  handed out by a counter and never reused, so that a `std::weak_ptr<N>` to a destroyed cell stays
  expired for ever.  A cell is owned by its index entry alone (the key and `Node::value_` are the
  same pointer), so it is alive exactly as long as its record is in the index.
* A node record (`struct Node`) owns its value cell and the list `edges_` of
  `(weak_ptr to destination cell, weight)` pairs.
* The node index `nodes_` is a `std::map` keyed by the value cell and ordered by the *current*
  content of the cells (`NodeCompare`).  It is embedded as a binary search tree with the descents
  of the library (`lower_bound`, `find`, `equal_range`, insertion at the null link reached by the
  descent, unlinking with the in-order successor).  The red-black recolouring and rotations are not
  modelled: they never change the in-order sequence, and on an index whose in-order sequence is
  ascending no lookup depends on the shape of the tree (`mapFind_eq`).  The graphs on which a
  lookup is evaluated after the order was broken have at most three entries, a root and entries
  attached directly below it, for which the library performs no rotation.
* `std::list::sort` and `std::list::merge` follow the algorithms of libstdc++ (bottom-up merge
  sort with a carry list and bins); `std::sort` on a vector of totally ordered values is embedded
  as insertion sort, the result being the same for every sorting algorithm.
* Dereferencing the empty pointer returned by `lock()` on an expired `weak_ptr` is undefined
  behaviour; it is embedded as the fault `null_deref`.
* The type parameters `N` and `E` are linear orders (`<`, `>` and `==` of the source).
* A cursor (`class Iterator`) is a position in the in-order sequence of the index (its length is
  `it_end_`) and a position in the edge list of that entry (the length of the list is `end()`).
  No cursor operation changes the index, and the operations that sort a list set the position in
  it afterwards.  `std::list` is circular, as in the library: stepping forward from `end()` gives
  `begin()` and stepping back from `begin()` gives `end()`.
* The recursion of `operator++` and `operator--` and the loops of `cbegin` and `find` are bounded
  by the number of stored edges; every recursive call follows the removal of a stored edge.
* `operator<<` takes the printing of a node value and of a weight as parameters.
* A graph built by insertions is the result of a sequence of `InsertNode` and `InsertEdge` calls
  on the empty graph (`applyOps`); such a graph is well formed, stores no expired edge and no edge
  twice (`Clean`).
* The constructors from ranges and the copy constructor are the loops of the source over a list;
  a new graph has its own heap, so its cells are counted from 0.  The copy constructor returns
  the source as well, which its traversal sorts and cleans.
* An operation that throws returns a fault and no graph.  For `MergeReplace`, whose loops write
  to the graph before a nested call can throw, the graph left behind is given by
  `MergeReplaceAfter`, which agrees with `MergeReplace` on the outcome
  (`MergeReplaceAfter_agrees`).
* `IsConnected` and `GetWeights` iterate over a local copy of the stored edge list
  (`auto edges = ...->edges_;`); the graph they leave is the graph they were called on
  (`IsConnectedAfter`, `GetWeightsAfter`).
* `operator==` writes its first argument and then its second; when both are the same graph the
  second `operator<<` sees the lists as the first one left them (`graphEqSame`).
-/

set_option linter.unusedSectionVars false

namespace gdwg

/-- Identity of a value cell on the heap. -/
abbrev Cell := Nat

/-- Abnormal outcomes of a member function: the two exception types thrown by the source, the
dereference of an empty `shared_ptr` (obtained from `lock()` on an expired `weak_ptr`), and the
use of an iterator that does not designate an element (dereferencing `end()`, stepping off the
index).  The last constructor is the outcome of a loop whose bound on the number of rounds was too
small; the bounds used in this file are large enough. -/
inductive Fault where
  | runtime_error (msg : String)
  | out_of_range (msg : String)
  | null_deref
  | invalid_iterator
  | out_of_fuel
  deriving DecidableEq, Repr

/-- Node record `struct Node`: `cell` is the identity of `value_` (the same `shared_ptr` is the key
of the index entry), `value` is the current content `*value_`, `edges` is `edges_`. -/
structure Node (N E : Type) where
  cell : Cell
  value : N
  edges : List (Cell × E)
  deriving DecidableEq, Repr

/-- Binary tree underlying `std::map`. -/
inductive Tree (α : Type) where
  | nil : Tree α
  | node (l : Tree α) (x : α) (r : Tree α) : Tree α
  deriving DecidableEq, Repr

/-- In-order sequence: the order in which iteration over the map visits the entries. -/
def Tree.toList {α : Type} : Tree α → List α
  | .nil => []
  | .node l x r => l.toList ++ x :: r.toList

/-- Apply `f` to every element, keeping the shape. -/
def Tree.map {α : Type} (f : α → α) : Tree α → Tree α
  | .nil => .nil
  | .node l x r => .node (l.map f) (f x) (r.map f)

/-- Graph object: the node index `nodes_` and the allocation counter of the heap. -/
structure Graph (N E : Type) where
  nodes : Tree (Node N E)
  fresh : Cell
  deriving DecidableEq, Repr

section Index

variable {N E : Type} [LinearOrder N]

/-- Descent of `std::map::lower_bound` (`_M_lower_bound(x, y, k)`): first entry whose key is not
less than `k`; `y` is the candidate so far (`none` is `end()`). -/
def lowerBound : Tree (Node N E) → N → Option (Node N E) → Option (Node N E)
  | .nil, _, y => y
  | .node l x r, k, y => if x.value < k then lowerBound r k y else lowerBound l k (some x)

/-- Descent of `std::map::upper_bound` (`_M_upper_bound(x, y, k)`). -/
def upperBound : Tree (Node N E) → N → Option (Node N E) → Option (Node N E)
  | .nil, _, y => y
  | .node l x r, k, y => if k < x.value then upperBound l k (some x) else upperBound r k y

/-- Lookup `std::map::find`: `lower_bound`, then the test `k < key` on the candidate. -/
def mapFind (t : Tree (Node N E)) (k : N) : Option (Node N E) :=
  match lowerBound t k none with
  | none => none
  | some x => if k < x.value then none else some x

/-- Member `std::map::count`. -/
def mapCount (t : Tree (Node N E)) (k : N) : Nat :=
  if (mapFind t k).isSome then 1 else 0

/-- Insertion of a new entry by `operator[]` when the key is not found: the entry is attached at
the null link reached by the `lower_bound` descent (the position the hint of `emplace_hint`
designates). -/
def mapAttach : Tree (Node N E) → Node N E → Tree (Node N E)
  | .nil, n => .node .nil n .nil
  | .node l x r, n =>
    if x.value < n.value then .node l x (mapAttach r n) else .node (mapAttach l n) x r

/-- Descent of `std::map::equal_range`: the pair `(lower_bound, upper_bound)`. -/
def equalRange : Tree (Node N E) → N → Option (Node N E) →
    Option (Node N E) × Option (Node N E)
  | .nil, _, y => (y, y)
  | .node l x r, k, y =>
    if x.value < k then equalRange r k y
    else if k < x.value then equalRange l k (some x)
    else (lowerBound l k (some x), upperBound r k y)

end Index

section Unlink

variable {N E : Type}

/-- Leftmost entry of a non-empty tree and the tree without it. -/
def extractMin : Tree (Node N E) → Option (Node N E × Tree (Node N E))
  | .nil => none
  | .node l x r =>
    match extractMin l with
    | none => some (x, r)
    | some (m, l') => some (m, .node l' x r)

/-- Unlinking of the entry of cell `c` (`_Rb_tree_rebalance_for_erase` without the rebalancing):
an entry with at most one child is replaced by that child, an entry with two children by its
in-order successor. -/
def eraseCell : Tree (Node N E) → Cell → Tree (Node N E)
  | .nil, _ => .nil
  | .node l x r, c =>
    if x.cell = c then
      match l, extractMin r with
      | .nil, _ => r
      | _, none => l
      | _, some (m, r') => .node l m r'
    else .node (eraseCell l c) x (eraseCell r c)

/-- Cells of the in-order positions from `lb` up to, not including, `ub` (`none` is `end()`). -/
def rangeCells (cs : List Cell) (lb ub : Option Cell) : List Cell :=
  match lb with
  | none => []
  | some b =>
    (cs.dropWhile (fun c => decide (c ≠ b))).takeWhile (fun c => decide (some c ≠ ub))

end Unlink

section Erase

variable {N E : Type} [LinearOrder N]

/-- Member `std::map::erase(key)`: the entries of `equal_range(key)` are unlinked one by one. -/
def mapErase (t : Tree (Node N E)) (k : N) : Tree (Node N E) :=
  let p := equalRange t k none
  (rangeCells (t.toList.map Node.cell) (p.1.map Node.cell) (p.2.map Node.cell)).foldl eraseCell t

end Erase

section Pointers

variable {N E : Type}

/-- Node record owning the cell `c`, if the cell is alive. -/
def nodeAt (g : Graph N E) (c : Cell) : Option (Node N E) :=
  g.nodes.toList.find? (fun n => decide (n.cell = c))

/-- Value seen through `lock()` on a `weak_ptr` to the cell `c`: `none` when it has expired. -/
def deref (g : Graph N E) (c : Cell) : Option N :=
  (nodeAt g c).map Node.value

/-- Member `weak_ptr::expired`. -/
def expired (g : Graph N E) (c : Cell) : Bool :=
  (deref g c).isNone

/-- In-place update of the node record that owns the cell `c`. -/
def modifyNode (g : Graph N E) (c : Cell) (f : Node N E → Node N E) : Graph N E :=
  { g with nodes := g.nodes.map (fun n => if n.cell = c then f n else n) }

end Pointers

section Lists

variable {α : Type}

/-- Inner loop of `std::list::merge` once the head `x` of the receiving list is fixed: elements of
the argument list are taken while `comp y x` holds. -/
def mergeAux (comp : α → α → Bool) (x : α) (xs : List α) (cont : List α → List α) :
    List α → List α
  | [] => x :: xs
  | y :: ys => if comp y x then y :: mergeAux comp x xs cont ys else x :: cont (y :: ys)

/-- Member `std::list::merge(other, comp)`: the first argument is the receiving list; an element
of `other` is taken only when it compares before the current element of the receiver. -/
def listMerge (comp : α → α → Bool) : List α → List α → List α
  | [] => fun ys => ys
  | x :: xs => mergeAux comp x xs (listMerge comp xs)

/-- One round of the carry loop of `std::list::sort`: the carry is merged into the successive
non-empty bins, which are emptied, and stored in the first empty bin (or in a new one). -/
def carryInto (comp : α → α → Bool) : List α → List (List α) → List (List α)
  | carry, [] => [carry]
  | carry, b :: bs =>
    if b.isEmpty then carry :: bs else [] :: carryInto comp (listMerge comp b carry) bs

/-- Main loop of `std::list::sort`: the elements are taken from the front one at a time. -/
def sortBins (comp : α → α → Bool) : List α → List (List α) → List (List α)
  | [], bins => bins
  | x :: xs, bins => sortBins comp xs (carryInto comp [x] bins)

/-- Final loop of `std::list::sort`: every bin receives the merge of the bins below it. -/
def collapseBins (comp : α → α → Bool) : List α → List (List α) → List α
  | acc, [] => acc
  | acc, b :: bs => collapseBins comp (listMerge comp b acc) bs

/-- Member `std::list::sort(comp)` (the bottom-up merge sort of libstdc++). -/
def listSort (comp : α → α → Bool) (l : List α) : List α :=
  match l with
  | [] => []
  | [a] => [a]
  | _ =>
    match sortBins comp l [] with
    | [] => []
    | b :: bs => collapseBins comp b bs

/-- Loop of `std::list::unique(pred)` with `first` the retained element of the current group. -/
def uniqueFrom (pred : α → α → Bool) (first : α) : List α → List α
  | [] => [first]
  | b :: l => if pred first b then uniqueFrom pred first l else first :: uniqueFrom pred b l

/-- Member `std::list::unique(pred)`. -/
def listUnique (pred : α → α → Bool) : List α → List α
  | [] => []
  | a :: l => uniqueFrom pred a l

/-- Algorithm `std::unique` on a vector whose returned iterator is discarded: the distinct run is
compacted to the front and the positions behind it keep what they held. -/
def uniqueInPlace [DecidableEq α] (l : List α) : List α :=
  let u := listUnique (fun a b => decide (a = b)) l
  u ++ l.drop u.length

end Lists

section Operations

variable {N E : Type} [LinearOrder N] [LinearOrder E]

/-- Comparator `Edge::edgeComparator`. -/
def edgeComparator (g : Graph N E) (a b : Cell × E) : Bool :=
  match deref g a.1, deref g b.1 with
  | some va, some vb =>
    if va < vb then true
    else if va > vb then false
    else if a.2 < b.2 then true
    else false
  | _, _ => true

/-- Predicate `Edge::edgeEquals`. -/
def edgeEquals (g : Graph N E) (a b : Cell × E) : Bool :=
  match deref g a.1, deref g b.1 with
  | some va, some vb => decide (va = vb ∧ a.2 = b.2)
  | _, _ => true

/-- Member `Graph::IsNode`. -/
def IsNode (g : Graph N E) (val : N) : Bool :=
  if mapCount g.nodes val > 0 then true else false

/-- Member `Graph::InsertNode`: a new cell and a new record with no edges; the guard is the lookup
that `operator[]` repeats, so `operator[]` always creates the entry. -/
def InsertNode (g : Graph N E) (val : N) : Graph N E × Bool :=
  if !IsNode g val then
    ({ nodes := mapAttach g.nodes { cell := g.fresh, value := val, edges := [] },
       fresh := g.fresh + 1 }, true)
  else (g, false)

/-- Scan of `InsertEdge` over the edge list of the source: every entry is dereferenced, also an
expired one. -/
def edgeScan (g : Graph N E) (dst : N) (w : E) : List (Cell × E) → Except Fault Bool
  | [] => .ok false
  | e :: es =>
    match deref g e.1 with
    | none => .error .null_deref
    | some v => if v = dst ∧ e.2 = w then .ok true else edgeScan g dst w es

/-- Message of the exception of `InsertEdge`. -/
def msgInsertEdge : String :=
  "Cannot call Graph::InsertEdge when either src or dst node does not exist"

/-- Member `Graph::InsertEdge`.  The two `find` calls repeat the lookups of the guard, so that the
last branch (dereferencing `end()`) is never taken. -/
def InsertEdge (g : Graph N E) (src dst : N) (w : E) : Except Fault (Graph N E × Bool) :=
  if !IsNode g src || !IsNode g dst then .error (.runtime_error msgInsertEdge)
  else
    match mapFind g.nodes dst, mapFind g.nodes src with
    | some d, some s =>
      match edgeScan g dst w s.edges with
      | .error f => .error f
      | .ok true => .ok (g, false)
      | .ok false =>
        .ok (modifyNode g s.cell (fun n => { n with edges := n.edges ++ [(d.cell, w)] }), true)
    | _, _ => .error .null_deref

/-- Member `Graph::DeleteNode`; `std::map::erase` does not throw, so the handler is dead. -/
def DeleteNode (g : Graph N E) (val : N) : Graph N E × Bool :=
  if !IsNode g val then (g, false)
  else ({ g with nodes := mapErase g.nodes val }, true)

/-- Message of the exception of `Replace`. -/
def msgReplace : String :=
  "Cannot call Graph::Replace on a node that doesn\x27t exist"

/-- Member `Graph::Replace`: the content of the value cell is overwritten in place; the index is
not touched.  The `find` call repeats the lookup of the guard, so that the last branch is never
taken. -/
def Replace (g : Graph N E) (oldData newData : N) : Except Fault (Graph N E × Bool) :=
  if !IsNode g oldData then .error (.runtime_error msgReplace)
  else if IsNode g newData then .ok (g, false)
  else
    match mapFind g.nodes oldData with
    | some o => .ok (modifyNode g o.cell (fun n => { n with value := newData }), true)
    | none => .error .null_deref

/-- Message of the exception of `MergeReplace`. -/
def msgMergeReplace : String :=
  "Cannot call Graph::MergeReplace on old or new data if they don\x27t exist in the graph"

/-- Body of the inner loop of `MergeReplace` for one entry `e` of the copied edge list of the node
whose value is `src`: an expired entry is dropped from the copy, an entry to `oldData` is
re-inserted as an edge to `newData` into the stored list. -/
def redirectEdge (oldData newData src : N) (g : Graph N E) (e : Cell × E) :
    Except Fault (Graph N E) :=
  match deref g e.1 with
  | none => .ok g
  | some v =>
    if v = oldData then
      match InsertEdge g src newData e.2 with
      | .error f => .error f
      | .ok r => .ok r.1
    else .ok g

/-- Inner loop of `MergeReplace` over the copy of the edge list. -/
def redirectEdges (oldData newData src : N) : Graph N E → List (Cell × E) →
    Except Fault (Graph N E)
  | g, [] => .ok g
  | g, e :: es =>
    match redirectEdge oldData newData src g e with
    | .error f => .error f
    | .ok g1 => redirectEdges oldData newData src g1 es

/-- Sorting of the stored edge list of the record of cell `c`. -/
def sortEdges (g : Graph N E) (c : Cell) : Graph N E :=
  modifyNode g c (fun n => { n with edges := listSort (edgeComparator g) n.edges })

/-- Body of the outer loop of `MergeReplace` for the index entry of cell `c`. -/
def mergeVisit (oldData newData : N) (g : Graph N E) (c : Cell) : Except Fault (Graph N E) :=
  match nodeAt g c with
  | none => .ok g
  | some n =>
    match redirectEdges oldData newData n.value g n.edges with
    | .error f => .error f
    | .ok g1 =>
      .ok (modifyNode g1 c (fun m =>
        { m with edges := listUnique (edgeEquals g1) (listSort (edgeComparator g1) m.edges) }))

/-- Outer loop of `MergeReplace` over the index entries. -/
def mergeLoop (oldData newData : N) : Graph N E → List Cell → Except Fault (Graph N E)
  | g, [] => .ok g
  | g, c :: cs =>
    match mergeVisit oldData newData g c with
    | .error f => .error f
    | .ok g1 => mergeLoop oldData newData g1 cs

/-- The call `newNode->edges_.merge(oldNode->edges_, comp)`: nothing happens when both are the
same list, otherwise the edges of the old node are moved into the list of the new node. -/
def spliceEdges (g : Graph N E) (oldCell newCell : Cell) (oldEdges : List (Cell × E)) :
    Graph N E :=
  if oldCell = newCell then g
  else
    modifyNode
      (modifyNode g newCell (fun n =>
        { n with edges := listMerge (edgeComparator g) n.edges oldEdges }))
      oldCell (fun n => { n with edges := [] })

/-- Member `Graph::MergeReplace`.  The exception of an `InsertEdge` call inside the loop leaves
the function; the `find` calls repeat the lookups of the guard. -/
def MergeReplace (g : Graph N E) (oldData newData : N) : Except Fault (Graph N E) :=
  if !IsNode g oldData || !IsNode g newData then .error (.runtime_error msgMergeReplace)
  else
    match mapFind g.nodes oldData, mapFind g.nodes newData with
    | some o, some n =>
      let g1 := sortEdges g n.cell
      let g2 := sortEdges g1 o.cell
      let oldEdges := match nodeAt g2 o.cell with
        | some m => m.edges
        | none => []
      let g3 := spliceEdges g2 o.cell n.cell oldEdges
      match mergeLoop oldData newData g3 (g3.nodes.toList.map Node.cell) with
      | .error f => .error f
      | .ok g4 => .ok (DeleteNode g4 oldData).1
    | _, _ => .error .null_deref

/-- Member `Graph::Clear`. -/
def Clear (g : Graph N E) : Graph N E :=
  { g with nodes := .nil }

/-- Message of the exception of `IsConnected`. -/
def msgIsConnected : String :=
  "Cannot call Graph::IsConnected if src or dst node don\x27t exist in the graph"

/-- Loop of `IsConnected` over a copy of the edge list. -/
def connectedScan (g : Graph N E) (dst : N) : List (Cell × E) → Bool
  | [] => false
  | e :: es =>
    match deref g e.1 with
    | none => connectedScan g dst es
    | some v => if v = dst then true else connectedScan g dst es

/-- Member `Graph::IsConnected`. -/
def IsConnected (g : Graph N E) (src dst : N) : Except Fault Bool :=
  if !IsNode g src || !IsNode g dst then .error (.runtime_error msgIsConnected)
  else
    match mapFind g.nodes src with
    | some s => .ok (connectedScan g dst s.edges)
    | none => .error .null_deref

/-- Member `Graph::GetNodes`. -/
def GetNodes (g : Graph N E) : List N :=
  (g.nodes.toList.map Node.value).insertionSort (fun a b => a ≤ b)

/-- Message of the exception of `GetConnected`. -/
def msgGetConnected : String :=
  "Cannot call Graph::GetConnected if src doesn\x27t exist in the graph"

/-- Loop of `GetConnected`: every entry is dereferenced, also an expired one. -/
def connectedCollect (g : Graph N E) : List (Cell × E) → List N → Except Fault (List N)
  | [], vec => .ok vec
  | e :: es, vec =>
    match deref g e.1 with
    | none => .error .null_deref
    | some v => connectedCollect g es (if vec.count v < 1 then vec ++ [v] else vec)

/-- Member `Graph::GetConnected`. -/
def GetConnected (g : Graph N E) (src : N) : Except Fault (List N) :=
  if !IsNode g src then .error (.out_of_range msgGetConnected)
  else
    match mapFind g.nodes src with
    | some s =>
      match connectedCollect g s.edges [] with
      | .error f => .error f
      | .ok vec => .ok (uniqueInPlace (vec.insertionSort (fun a b => a ≤ b)))
    | none => .error .null_deref

/-- Message of the exception of `GetWeights`. -/
def msgGetWeights : String :=
  "Cannot call Graph::GetWeights if src or dst node don\x27t exist in the graph"

/-- Loop of `GetWeights` over a copy of the edge list. -/
def weightScan (g : Graph N E) (dst : N) : List (Cell × E) → List E
  | [] => []
  | e :: es =>
    match deref g e.1 with
    | none => weightScan g dst es
    | some v => if v = dst then e.2 :: weightScan g dst es else weightScan g dst es

/-- Member `Graph::GetWeights`. -/
def GetWeights (g : Graph N E) (src dst : N) : Except Fault (List E) :=
  if !IsNode g src || !IsNode g dst then .error (.out_of_range msgGetWeights)
  else
    match mapFind g.nodes src with
    | some s => .ok ((weightScan g dst s.edges).insertionSort (fun a b => a ≤ b))
    | none => .error .null_deref

/-- The default constructor: no node, nothing allocated. -/
def emptyGraph : Graph N E :=
  { nodes := .nil, fresh := 0 }

end Operations

/-! ## Cursors -/

/-- Cursor `class Iterator`: `node` is `curr_node_` as a position in the in-order sequence of the
index, `edge` is `edge_it_` as a position in the edge list of that entry. -/
structure Cursor where
  node : Nat
  edge : Nat
  deriving DecidableEq, Repr

section Cursors

variable {N E : Type} [LinearOrder N] [LinearOrder E]

/-- Number of stored edges. -/
def edgeCount (g : Graph N E) : Nat :=
  (g.nodes.toList.map (fun n => n.edges.length)).sum

/-- Step `++it` of a `std::list` iterator in a list of length `len`. -/
def listInc (len p : Nat) : Nat :=
  if p < len then p + 1 else 0

/-- Step `--it` of a `std::list` iterator in a list of length `len`. -/
def listDec (len p : Nat) : Nat :=
  if p = 0 then len else p - 1

/-- Forward scan for an entry with a non-empty edge list; `i` is the position of the head. -/
def skipEmpty : List (Node N E) → Nat → Nat
  | [], i => i
  | n :: ns, i => if n.edges.isEmpty then skipEmpty ns (i + 1) else i

/-- Position of the first entry at or after position `i` whose edge list is not empty, the length
of the sequence when there is none. -/
def firstNonEmpty (L : List (Node N E)) (i : Nat) : Nat :=
  skipEmpty (L.drop i) i

/-- Position of the last entry before position `i` whose edge list is not empty: the loop
`--curr_node_; while (empty) --curr_node_`.  Stepping back from the first entry has no result. -/
def lastNonEmpty (L : List (Node N E)) : Nat → Option Nat
  | 0 => none
  | i + 1 =>
    match L[i]? with
    | some n => if n.edges.isEmpty then lastNonEmpty L i else some i
    | none => none

/-- Member `Graph::cend`. -/
def cend (g : Graph N E) : Cursor :=
  { node := g.nodes.toList.length, edge := 0 }

/-- Friend `operator==` of `Iterator`. -/
def cursorEq (g : Graph N E) (lhs rhs : Cursor) : Bool :=
  if lhs.node = rhs.node ∧
      (lhs.node = g.nodes.toList.length ∨ rhs.node = g.nodes.toList.length) then true
  else if lhs.node = rhs.node ∧ lhs.edge = rhs.edge then true
  else false

/-- Member `Iterator::operator*`. -/
def cursorDeref (g : Graph N E) (it : Cursor) : Except Fault (N × N × E) :=
  match g.nodes.toList[it.node]? with
  | none => .error .invalid_iterator
  | some n =>
    match n.edges[it.edge]? with
    | none => .error .invalid_iterator
    | some e =>
      match deref g e.1 with
      | none => .error .null_deref
      | some d => .ok (n.value, d, e.2)

/-- Tail of `operator++`: an expired edge under the cursor is erased, the list iterator is
stepped back and `operator++` is called again (third component true). -/
def incClean (g : Graph N E) (it : Cursor) : Except Fault (Graph N E × Cursor × Bool) :=
  match g.nodes.toList[it.node]? with
  | none => .error .invalid_iterator
  | some n =>
    match n.edges[it.edge]? with
    | none => .error .invalid_iterator
    | some e =>
      if expired g e.1 then
        .ok (modifyNode g n.cell (fun m => { m with edges := m.edges.eraseIdx it.edge }),
          { node := it.node, edge := listDec (n.edges.length - 1) it.edge }, true)
      else .ok (g, it, false)

/-- One call of `operator++` up to its recursive call. -/
def incStep (g : Graph N E) (it : Cursor) : Except Fault (Graph N E × Cursor × Bool) :=
  match g.nodes.toList[it.node]? with
  | none => .error .invalid_iterator
  | some n =>
    if listInc n.edges.length it.edge = n.edges.length then
      match g.nodes.toList[firstNonEmpty g.nodes.toList (it.node + 1)]? with
      | none =>
        .ok (g, { node := g.nodes.toList.length, edge := listInc n.edges.length it.edge }, false)
      | some m =>
        incClean (sortEdges g m.cell)
          { node := firstNonEmpty g.nodes.toList (it.node + 1), edge := 0 }
    else incClean g { node := it.node, edge := listInc n.edges.length it.edge }

/-- Recursion of `operator++`, at most `fuel` calls. -/
def incLoop : Nat → Graph N E → Cursor → Except Fault (Graph N E × Cursor)
  | 0, _, _ => .error .out_of_fuel
  | fuel + 1, g, it =>
    match incStep g it with
    | .error f => .error f
    | .ok (g1, it1, false) => .ok (g1, it1)
    | .ok (g1, it1, true) => incLoop fuel g1 it1

/-- Member `Iterator::operator++`. -/
def increment (g : Graph N E) (it : Cursor) : Except Fault (Graph N E × Cursor) :=
  incLoop (edgeCount g + 1) g it

/-- One call of `operator--` up to its recursive call. -/
def decStep (g : Graph N E) (it : Cursor) : Except Fault (Graph N E × Cursor × Bool) :=
  let L := g.nodes.toList
  let atEnd : Option Cursor :=
    if it.node = L.length then
      match lastNonEmpty L L.length with
      | none => none
      | some j =>
        match L[j]? with
        | some n => some { node := j, edge := n.edges.length }
        | none => none
    else some it
  match atEnd with
  | none => .error .invalid_iterator
  | some it1 =>
    let atBegin : Option (Graph N E × Cursor) :=
      if it1.edge = 0 then
        match lastNonEmpty L it1.node with
        | none => none
        | some j =>
          match L[j]? with
          | some n => some (sortEdges g n.cell, { node := j, edge := n.edges.length })
          | none => none
      else some (g, it1)
    match atBegin with
    | none => .error .invalid_iterator
    | some (g2, it2) =>
      match g2.nodes.toList[it2.node]? with
      | none => .error .invalid_iterator
      | some n =>
        match n.edges[it2.edge - 1]? with
        | none => .error .invalid_iterator
        | some e =>
          if expired g2 e.1 then
            .ok (modifyNode g2 n.cell (fun m =>
                { m with edges := m.edges.eraseIdx (it2.edge - 1) }),
              { node := it2.node, edge := it2.edge - 1 }, true)
          else .ok (g2, { node := it2.node, edge := it2.edge - 1 }, false)

/-- Recursion of `operator--`, at most `fuel` calls. -/
def decLoop : Nat → Graph N E → Cursor → Except Fault (Graph N E × Cursor)
  | 0, _, _ => .error .out_of_fuel
  | fuel + 1, g, it =>
    match decStep g it with
    | .error f => .error f
    | .ok (g1, it1, false) => .ok (g1, it1)
    | .ok (g1, it1, true) => decLoop fuel g1 it1

/-- Member `Iterator::operator--`. -/
def decrement (g : Graph N E) (it : Cursor) : Except Fault (Graph N E × Cursor) :=
  decLoop (edgeCount g + 1) g it

/-- Loop `while ((*it.edge_it_).first.expired()) it++` of `cbegin`. -/
def cbeginLoop : Nat → Graph N E → Cursor → Except Fault (Graph N E × Cursor)
  | 0, _, _ => .error .out_of_fuel
  | fuel + 1, g, it =>
    match g.nodes.toList[it.node]? with
    | none => .error .invalid_iterator
    | some n =>
      match n.edges[it.edge]? with
      | none => .error .invalid_iterator
      | some e =>
        if expired g e.1 then
          match increment g it with
          | .error f => .error f
          | .ok (g1, it1) => cbeginLoop fuel g1 it1
        else .ok (g, it)

/-- Member `Graph::cbegin`. -/
def cbegin (g : Graph N E) : Except Fault (Graph N E × Cursor) :=
  match g.nodes.toList[firstNonEmpty g.nodes.toList 0]? with
  | none => .ok (g, cend g)
  | some n =>
    cbeginLoop (edgeCount g + 2) (sortEdges g n.cell)
      { node := firstNonEmpty g.nodes.toList 0, edge := 0 }

/-- Loop of `Graph::find`. -/
def findLoop (src dst : N) (w : E) : Nat → Graph N E → Cursor →
    Except Fault (Graph N E × Cursor)
  | 0, _, _ => .error .out_of_fuel
  | fuel + 1, g, it =>
    if cursorEq g it (cend g) then .ok (g, cend g)
    else
      match g.nodes.toList[it.node]? with
      | none => .error .invalid_iterator
      | some n =>
        match n.edges[it.edge]? with
        | none => .error .invalid_iterator
        | some e =>
          if n.value = src ∧ e.2 = w then
            match deref g e.1 with
            | none => .ok (g, cend g)
            | some d =>
              if d = dst then .ok (g, it)
              else
                match increment g it with
                | .error f => .error f
                | .ok (g1, it1) => findLoop src dst w fuel g1 it1
          else
            match increment g it with
            | .error f => .error f
            | .ok (g1, it1) => findLoop src dst w fuel g1 it1

/-- Member `Graph::find`. -/
def find (g : Graph N E) (src dst : N) (w : E) : Except Fault (Graph N E × Cursor) :=
  if IsNode g src && IsNode g dst then
    match cbegin g with
    | .error f => .error f
    | .ok (g1, it) => findLoop src dst w (edgeCount g1 + 1) g1 it
  else .ok (g, cend g)

/-- Loop of `Graph::erase(src, dst, w)` over the stored list: the resulting list and the result
of the call.  Expired entries met before the match are erased. -/
def eraseScan (g : Graph N E) (dst : N) (w : E) : List (Cell × E) → List (Cell × E) × Bool
  | [] => ([], false)
  | e :: es =>
    match deref g e.1 with
    | none => eraseScan g dst w es
    | some v =>
      if v = dst ∧ e.2 = w then (es, true)
      else ((e :: (eraseScan g dst w es).1), (eraseScan g dst w es).2)

/-- Member `Graph::erase(src, dst, w)`. -/
def erase (g : Graph N E) (src dst : N) (w : E) : Graph N E × Bool :=
  if !IsNode g src || !IsNode g dst then (g, false)
  else
    match mapFind g.nodes src with
    | none => (g, false)
    | some s =>
      (modifyNode g s.cell (fun n => { n with edges := (eraseScan g dst w n.edges).1 }),
        (eraseScan g dst w s.edges).2)

/-- Member `Graph::erase(const_iterator)`. -/
def eraseAt (g : Graph N E) (it : Cursor) : Except Fault (Graph N E × Cursor) :=
  if cursorEq g it (cend g) then .ok (g, cend g)
  else
    match g.nodes.toList[it.node]? with
    | none => .error .invalid_iterator
    | some n =>
      if it.edge < n.edges.length then
        if it.edge = n.edges.length - 1 then
          increment (modifyNode g n.cell (fun m => { m with edges := m.edges.eraseIdx it.edge }))
            { node := it.node, edge := listDec (n.edges.length - 1) it.edge }
        else
          .ok (modifyNode g n.cell (fun m => { m with edges := m.edges.eraseIdx it.edge }), it)
      else .error .invalid_iterator

/-- The client loop `for (it = g.cbegin(); it != g.cend(); ++it)` collecting `*it`. -/
def collectLoop : Nat → Graph N E → Cursor → Except Fault (Graph N E × List (N × N × E))
  | 0, _, _ => .error .out_of_fuel
  | fuel + 1, g, it =>
    if cursorEq g it (cend g) then .ok (g, [])
    else
      match cursorDeref g it with
      | .error f => .error f
      | .ok t =>
        match increment g it with
        | .error f => .error f
        | .ok (g1, it1) =>
          match collectLoop fuel g1 it1 with
          | .error f => .error f
          | .ok (g2, ts) => .ok (g2, t :: ts)

/-- Full forward traversal: the triples yielded from `cbegin()` until the cursor equals
`cend()`. -/
def forwardRange (g : Graph N E) : Except Fault (Graph N E × List (N × N × E)) :=
  match cbegin g with
  | .error f => .error f
  | .ok (g1, it) => collectLoop (edgeCount g1 + 1) g1 it

end Cursors

section Rendering

variable {N E : Type} [LinearOrder N] [LinearOrder E]

/-- Inner loop of `operator<<` over the sorted edge list: an expired entry is erased, the others
are printed. -/
def renderEdges (showN : N → String) (showE : E → String) (g : Graph N E) :
    List (Cell × E) → String
  | [] => ""
  | e :: es =>
    match deref g e.1 with
    | none => renderEdges showN showE g es
    | some d => "  " ++ showN d ++ " | " ++ showE e.2 ++ "\n" ++ renderEdges showN showE g es

/-- Body of the outer loop of `operator<<` for the index entry of cell `c`: the stored list is
sorted and loses its expired entries, the block of the node is printed. -/
def renderNode (showN : N → String) (showE : E → String) (g : Graph N E) (c : Cell) :
    Graph N E × String :=
  match nodeAt g c with
  | none => (g, "")
  | some n =>
    (modifyNode g c (fun m =>
        { m with edges :=
            List.filter (fun e => !expired g e.1) (listSort (edgeComparator g) m.edges) }),
      showN n.value ++ " (\n"
        ++ renderEdges showN showE g (listSort (edgeComparator g) n.edges) ++ ")\n")

/-- Outer loop of `operator<<`. -/
def renderLoop (showN : N → String) (showE : E → String) :
    Graph N E → List Cell → Graph N E × String
  | g, [] => (g, "")
  | g, c :: cs =>
    ((renderLoop showN showE (renderNode showN showE g c).1 cs).1,
      (renderNode showN showE g c).2 ++ (renderLoop showN showE (renderNode showN showE g c).1 cs).2)

/-- Friend `operator<<`: the graph afterwards and the text written. -/
def render (showN : N → String) (showE : E → String) (g : Graph N E) : Graph N E × String :=
  renderLoop showN showE g (g.nodes.toList.map Node.cell)

/-- Friend `operator==`: both graphs are written to a stream and the texts are compared. -/
def graphEq (showN : N → String) (showE : E → String) (g1 g2 : Graph N E) : Bool :=
  decide ((render showN showE g1).2 = (render showN showE g2).2)

/-- Friend `operator!=`. -/
def graphNe (showN : N → String) (showE : E → String) (g1 g2 : Graph N E) : Bool :=
  !graphEq showN showE g1 g2

end Rendering

/-! ## Constructors -/

section Constructors

variable {N E : Type} [LinearOrder N] [LinearOrder E]

/-- Loop of the constructor `Graph(vector<N>::const_iterator, vector<N>::const_iterator)` (and of
the constructor from an initializer list): `InsertNode` for every value of the range. -/
def insertRange : Graph N E → List N → Graph N E
  | g, [] => g
  | g, v :: vs => insertRange (InsertNode g v).1 vs

/-- Constructor from a range of node values. -/
def Graph.ofNodes (ns : List N) : Graph N E :=
  insertRange emptyGraph ns

/-- Guarded call `if (!IsNode(v)) InsertNode(v)` of the constructor from a range of tuples. -/
def insertMissing (g : Graph N E) (v : N) : Graph N E :=
  if !IsNode g v then (InsertNode g v).1 else g

/-- Body of the loop of the constructor from a range of tuples: the two endpoints are inserted
when they are not nodes, then the edge is inserted. -/
def tupleStep (g : Graph N E) (t : N × N × E) : Except Fault (Graph N E) :=
  match InsertEdge (insertMissing (insertMissing g t.1) t.2.1) t.1 t.2.1 t.2.2 with
  | .ok r => .ok r.1
  | .error f => .error f

/-- Loop of the constructor from a range of tuples. -/
def tupleLoop : Graph N E → List (N × N × E) → Except Fault (Graph N E)
  | g, [] => .ok g
  | g, t :: ts =>
    match tupleStep g t with
    | .ok g1 => tupleLoop g1 ts
    | .error f => .error f

/-- Constructor from a range of (source, destination, weight) tuples. -/
def Graph.ofTuples (ts : List (N × N × E)) : Except Fault (Graph N E) :=
  tupleLoop emptyGraph ts

/-- Second loop of the copy constructor: the cursor runs over `g` from `cbegin()` to `cend()` and
every triple it yields is inserted into the new graph `c`.  The result is the source graph, as
the traversal leaves it, and the new graph. -/
def copyLoop : Nat → Graph N E → Cursor → Graph N E → Except Fault (Graph N E × Graph N E)
  | 0, _, _, _ => .error .out_of_fuel
  | fuel + 1, g, it, c =>
    if cursorEq g it (cend g) then .ok (g, c)
    else
      match cursorDeref g it with
      | .error f => .error f
      | .ok t =>
        match InsertEdge c t.1 t.2.1 t.2.2 with
        | .error f => .error f
        | .ok r =>
          match increment g it with
          | .error f => .error f
          | .ok (g1, it1) => copyLoop fuel g1 it1 r.1

/-- Copy constructor `Graph(const Graph&)`: the node values of `g` are inserted in index order,
then the edges met by the traversal of `g`. -/
def Graph.copy (g : Graph N E) : Except Fault (Graph N E × Graph N E) :=
  match cbegin g with
  | .error f => .error f
  | .ok (g1, it) =>
    copyLoop (edgeCount g1 + 1) g1 it (insertRange emptyGraph (g.nodes.toList.map Node.value))

end Constructors

/-! ## `MergeReplace` with the graph it leaves behind

`MergeReplace` is not a transaction: an exception that leaves it from the `InsertEdge` call of
its loop finds the graph as the loop has left it.  The definitions below follow the loops of
`MergeReplace` once more and return that graph together with the fault, if any. -/

section Aftermath

variable {N E : Type} [LinearOrder N] [LinearOrder E]

/-- Inner loop of `MergeReplace`: the graph when the loop is left, and the fault that left it. -/
def redirectEdgesAfter (oldData newData src : N) : Graph N E → List (Cell × E) →
    Graph N E × Option Fault
  | g, [] => (g, none)
  | g, e :: es =>
    match redirectEdge oldData newData src g e with
    | .error f => (g, some f)
    | .ok g1 => redirectEdgesAfter oldData newData src g1 es

/-- Body of the outer loop of `MergeReplace`, with the graph it leaves. -/
def mergeVisitAfter (oldData newData : N) (g : Graph N E) (c : Cell) : Graph N E × Option Fault :=
  match nodeAt g c with
  | none => (g, none)
  | some n =>
    match redirectEdgesAfter oldData newData n.value g n.edges with
    | (g1, some f) => (g1, some f)
    | (g1, none) =>
      (modifyNode g1 c (fun m =>
        { m with edges := listUnique (edgeEquals g1) (listSort (edgeComparator g1) m.edges) }),
        none)

/-- Outer loop of `MergeReplace`, with the graph it leaves. -/
def mergeLoopAfter (oldData newData : N) : Graph N E → List Cell → Graph N E × Option Fault
  | g, [] => (g, none)
  | g, c :: cs =>
    match mergeVisitAfter oldData newData g c with
    | (g1, some f) => (g1, some f)
    | (g1, none) => mergeLoopAfter oldData newData g1 cs

/-- Member `Graph::MergeReplace`, with the graph it leaves: the graph of the call when the guard
throws, the graph reached by the loops when an `InsertEdge` call throws. -/
def MergeReplaceAfter (g : Graph N E) (oldData newData : N) : Graph N E × Option Fault :=
  if !IsNode g oldData || !IsNode g newData then (g, some (.runtime_error msgMergeReplace))
  else
    match mapFind g.nodes oldData, mapFind g.nodes newData with
    | some o, some n =>
      match mergeLoopAfter oldData newData
          (spliceEdges (sortEdges (sortEdges g n.cell) o.cell) o.cell n.cell
            (match nodeAt (sortEdges (sortEdges g n.cell) o.cell) o.cell with
              | some m => m.edges
              | none => []))
          ((spliceEdges (sortEdges (sortEdges g n.cell) o.cell) o.cell n.cell
            (match nodeAt (sortEdges (sortEdges g n.cell) o.cell) o.cell with
              | some m => m.edges
              | none => [])).nodes.toList.map Node.cell) with
      | (g4, some f) => (g4, some f)
      | (g4, none) => ((DeleteNode g4 oldData).1, none)
    | _, _ => (g, some .null_deref)

/-- Member `Graph::IsConnected` with the graph it leaves: the loop runs over the local variable
`edges`, a copy of the stored list, and its `erase` calls act on that copy, which is dropped on
return; nothing is written to the graph. -/
def IsConnectedAfter (g : Graph N E) (src dst : N) : Graph N E × Except Fault Bool :=
  (g, IsConnected g src dst)

/-- Member `Graph::GetWeights` with the graph it leaves: as for `IsConnected`, the expired
entries are erased from the local copy `edges` only. -/
def GetWeightsAfter (g : Graph N E) (src dst : N) : Graph N E × Except Fault (List E) :=
  (g, GetWeights g src dst)

/-- Friend `operator==` when both arguments refer to the same graph: the first `operator<<` sorts
and prunes the edge lists of the graph, the second one writes the graph it finds. -/
def graphEqSame (showN : N → String) (showE : E → String) (g : Graph N E) : Bool :=
  decide ((render showN showE g).2 = (render showN showE (render showN showE g).1).2)

/-- Outcome of a call for its caller: the graph when the call returned, the fault otherwise. -/
def settle (p : Graph N E × Option Fault) : Except Fault (Graph N E) :=
  match p.2 with
  | none => .ok p.1
  | some f => .error f

end Aftermath

/-! ## Well-formed graphs and observations -/

section Observations

variable {N E : Type} [LinearOrder N] [LinearOrder E]

/-- Index invariant of `std::map`: the in-order sequence of the keys is strictly ascending. -/
def Ascending (t : Tree (Node N E)) : Prop :=
  (t.toList.map Node.value).Pairwise (fun a b => a < b)

instance (t : Tree (Node N E)) : Decidable (Ascending t) := by
  unfold Ascending; infer_instance

/-- Heap discipline: every value cell belongs to one record, and every identity that occurs (as
a record or as the target of a stored edge) was handed out by the allocation counter. -/
def HeapOk (g : Graph N E) : Prop :=
  (g.nodes.toList.map Node.cell).Nodup ∧
  (∀ n ∈ g.nodes.toList, n.cell < g.fresh) ∧
  (∀ n ∈ g.nodes.toList, ∀ e ∈ n.edges, e.1 < g.fresh)

instance (g : Graph N E) : Decidable (HeapOk g) := by
  unfold HeapOk; infer_instance

/-- Well-formed graph: the invariant of the index and the heap discipline. -/
def WF (g : Graph N E) : Prop :=
  Ascending g.nodes ∧ HeapOk g

instance (g : Graph N E) : Decidable (WF g) := by
  unfold WF; infer_instance

/-- No stored edge refers to a destroyed cell. -/
def NoStale (g : Graph N E) : Prop :=
  ∀ n ∈ g.nodes.toList, ∀ e ∈ n.edges, (deref g e.1).isSome = true

instance (g : Graph N E) : Decidable (NoStale g) := by
  unfold NoStale; infer_instance

/-- Visible edges of a stored edge list: the entries whose destination is alive, as
(destination value, weight). -/
def visible (g : Graph N E) (es : List (Cell × E)) : List (N × E) :=
  es.filterMap (fun e => (deref g e.1).map (fun v => (v, e.2)))

/-- Visible edges leaving the node of value `src` (none when `src` is not found). -/
def edgesFrom (g : Graph N E) (src : N) : List (N × E) :=
  match mapFind g.nodes src with
  | some s => visible g s.edges
  | none => []

/-- All visible edges as (source, destination, weight), in index order. -/
def allEdges (g : Graph N E) : List (N × N × E) :=
  g.nodes.toList.flatMap (fun n => (visible g n.edges).map (fun p => (n.value, p.1, p.2)))

/-- The record created by `InsertNode g v`. -/
def newNode (g : Graph N E) (v : N) : Node N E :=
  { cell := g.fresh, value := v, edges := [] }

/-- Update of the records of a graph by `F`. -/
def mapNodes (g : Graph N E) (F : Node N E → Node N E) : Graph N E :=
  { g with nodes := g.nodes.map F }

/-- Updates that touch the edge lists only. -/
def KeepsKeys (F : Node N E → Node N E) : Prop :=
  ∀ n, (F n).cell = n.cell ∧ (F n).value = n.value

/-- Replacement of the stored edge list of the record of cell `c`. -/
def setEdges (g : Graph N E) (c : Cell) (es : List (Cell × E)) : Graph N E :=
  modifyNode g c (fun n => { n with edges := es })

/-- Renaming of `oldData` to `newData` in an edge (source, destination, weight). -/
def renameEdge (oldData newData : N) (t : N × N × E) : N × N × E :=
  (if t.1 = oldData then newData else t.1, if t.2.1 = oldData then newData else t.2.1, t.2.2)

/-- Stored edge list of the node of value `v`, if `v` is found. -/
def storedEdges (g : Graph N E) (v : N) : Option (List (Cell × E)) :=
  (mapFind g.nodes v).map Node.edges

end Observations

/-! ## Vocabulary of the proofs -/

section Vocabulary

variable {α K : Type} [LinearOrder K] (key : α → K) (P : α → Prop)

/-- Sortedness with respect to a key. -/
def SortedBy (l : List α) : Prop :=
  l.Pairwise (fun a b => key a ≤ key b)

/-- Invariant of the bins of `std::list::sort`. -/
def BinsOk (bins : List (List α)) : Prop :=
  ∀ b ∈ bins, (∀ a ∈ b, P a) ∧ SortedBy key b

end Vocabulary

section EdgeVocabulary

variable {N E : Type} [LinearOrder N] [LinearOrder E]

/-- Sorting key of a stored edge: the destination value seen through the pointer (bottom when
it has expired), then the weight. -/
def ekey (g : Graph N E) (e : Cell × E) : WithBot N ×ₗ E :=
  toLex ((deref g e.1 : WithBot N), e.2)

/-- The destination of the stored edge is alive. -/
def Live (g : Graph N E) (e : Cell × E) : Prop :=
  (deref g e.1).isSome = true

/-- Effect of the inner loop of `MergeReplace` on the stored list `cur` when it runs over the
copy: for every copied edge to `oldData`, the edge to the cell `cn` of `newData` with the same
weight is appended unless an edge to `newData` with that weight is visible. -/
def redirectList (g : Graph N E) (oldData newData : N) (cn : Cell) :
    List (Cell × E) → List (Cell × E) → List (Cell × E)
  | cur, [] => cur
  | cur, e :: es =>
    if deref g e.1 = some oldData then
      if (newData, e.2) ∈ visible g cur then redirectList g oldData newData cn cur es
      else redirectList g oldData newData cn (cur ++ [(cn, e.2)]) es
    else redirectList g oldData newData cn cur es

/-- Effect of one round of the outer loop of `MergeReplace` on a stored edge list. -/
def processEdges (g : Graph N E) (oldData newData : N) (cn : Cell) (es : List (Cell × E)) :
    List (Cell × E) :=
  listUnique (edgeEquals g) (listSort (edgeComparator g) (redirectList g oldData newData cn es es))

/-- Edge list of a record after the three list operations at the head of `MergeReplace`: the
list of the new node receives the edges of the old node, the list of the old node is emptied. -/
def preludeEdges (g : Graph N E) (xo xn x : Node N E) : List (Cell × E) :=
  if x.cell = xo.cell then []
  else if x.cell = xn.cell then
    listMerge (edgeComparator g) (listSort (edgeComparator g) xn.edges)
      (listSort (edgeComparator g) xo.edges)
  else x.edges

/-- Record after the loops of `MergeReplace oldData xn.value`. -/
def mergedNode (g : Graph N E) (oldData : N) (xo xn x : Node N E) : Node N E :=
  { x with edges := processEdges g oldData xn.value xn.cell (preludeEdges g xo xn x) }

end EdgeVocabulary

/-! ## Building sequences and the rendering of the specification -/

/-- A call of a building sequence: `InsertNode v` or `InsertEdge src dst w`. -/
inductive BuildOp (N E : Type) where
  | node (v : N)
  | edge (src dst : N) (w : E)
  deriving DecidableEq, Repr

section Builders

variable {N E : Type} [LinearOrder N] [LinearOrder E]

/-- One call of a building sequence; an exception of `InsertEdge` ends the sequence. -/
def applyOp (g : Graph N E) : BuildOp N E → Except Fault (Graph N E)
  | .node v => .ok (InsertNode g v).1
  | .edge s d w =>
    match InsertEdge g s d w with
    | .ok r => .ok r.1
    | .error f => .error f

/-- The calls of a building sequence, one after the other. -/
def applyOps : Graph N E → List (BuildOp N E) → Except Fault (Graph N E)
  | g, [] => .ok g
  | g, op :: ops =>
    match applyOp g op with
    | .ok g1 => applyOps g1 ops
    | .error f => .error f

/-- Graph obtained from the empty graph by inserting the node values `ns` and then the edges
`es`, each in the order of the list. -/
def build (ns : List N) (es : List (N × N × E)) : Except Fault (Graph N E) :=
  applyOps emptyGraph
    (ns.map (fun v => BuildOp.node v) ++ es.map (fun t => BuildOp.edge t.1 t.2.1 t.2.2))

/-- Calls made by the constructor from a range of tuples for the tuple `t`; an `InsertNode`
call of a value that is a node changes nothing, as the guarded call of the constructor. -/
def tupleOps (t : N × N × E) : List (BuildOp N E) :=
  [.node t.1, .node t.2.1, .edge t.1 t.2.1 t.2.2]

/-- Invariant of the graphs built by insertions: well formed, no stored edge to a destroyed
cell, and no edge stored twice in a list. -/
def Clean (g : Graph N E) : Prop :=
  WF g ∧ NoStale g ∧ ∀ n ∈ g.nodes.toList, (visible g n.edges).Nodup

instance (g : Graph N E) : Decidable (Clean g) := by
  unfold Clean; infer_instance

/-- Order of the edges of one node in the specification: ascending (destination, weight). -/
def lexLE (a b : N × E) : Prop :=
  a.1 < b.1 ∨ (a.1 = b.1 ∧ a.2 ≤ b.2)

instance (a b : N × E) : Decidable (lexLE a b) := by
  unfold lexLE; infer_instance

/-- Strict lexicographic order of the triples (source, destination, weight). -/
def tripleLt (a b : N × N × E) : Prop :=
  a.1 < b.1 ∨ (a.1 = b.1 ∧ (a.2.1 < b.2.1 ∨ (a.2.1 = b.2.1 ∧ a.2.2 < b.2.2)))

instance (a b : N × N × E) : Decidable (tripleLt a b) := by
  unfold tripleLt; infer_instance

/-- Concatenation of a list of texts. -/
def concatAll : List String → String
  | [] => ""
  | s :: ss => s ++ concatAll ss

/-- Line of an edge in the rendering of the specification. -/
def edgeLine (showN : N → String) (showE : E → String) (p : N × E) : String :=
  "  " ++ showN p.1 ++ " | " ++ showE p.2 ++ "\n"

/-- Edges of the node `v` in ascending (destination, weight) order. -/
def sortedEdgesFrom (g : Graph N E) (v : N) : List (N × E) :=
  (edgesFrom g v).insertionSort lexLE

/-- Block of the node `v` in the rendering of the specification. -/
def nodeBlock (showN : N → String) (showE : E → String) (g : Graph N E) (v : N) : String :=
  showN v ++ " (\n" ++ concatAll ((sortedEdgesFrom g v).map (edgeLine showN showE)) ++ ")\n"

/-- Rendering as the specification words it: the blocks of the nodes in ascending value order,
each with the lines of its edges in ascending (destination, weight) order. -/
def canonical (showN : N → String) (showE : E → String) (g : Graph N E) : String :=
  concatAll ((GetNodes g).map (nodeBlock showN showE g))

/-- Block written by `operator<<` for the record `n`. -/
def printedBlock (showN : N → String) (showE : E → String) (g : Graph N E) (n : Node N E) :
    String :=
  showN n.value ++ " (\n" ++ renderEdges showN showE g (listSort (edgeComparator g) n.edges)
    ++ ")\n"

/-- Triples yielded by the traversal while it is in the record `n`. -/
def yieldOf (g : Graph N E) (n : Node N E) (es : List (Cell × E)) : List (N × N × E) :=
  (visible g es).map (fun p => (n.value, p.1, p.2))

/-- Triples yielded by the traversal in the record `m`, whose edge list is sorted on entry. -/
def sortedYield (g : Graph N E) (m : Node N E) : List (N × N × E) :=
  yieldOf g m (listSort (edgeComparator g) m.edges)

/-- Number of edges stored in a sequence of records. -/
def edgeSum (L : List (Node N E)) : Nat :=
  (L.map (fun n => n.edges.length)).sum

/-- Position of a cursor of the traversal: at the end, or on an edge of a record whose edge
list is sorted. -/
def CursorOk (g : Graph N E) (it : Cursor) : Prop :=
  it.node = g.nodes.toList.length ∨
    ∃ A n B, g.nodes.toList = A ++ n :: B ∧ it.node = A.length ∧ it.edge < n.edges.length ∧
      SortedBy (ekey g) n.edges

/-- States of a cursor obtained from `cbegin()` of the graph `g0` by advancing. -/
inductive Reached (g0 : Graph N E) : Graph N E → Cursor → Prop where
  | start (g : Graph N E) (it : Cursor) : cbegin g0 = .ok (g, it) → Reached g0 g it
  | step (g g1 : Graph N E) (it it1 : Cursor) :
      Reached g0 g it → increment g it = .ok (g1, it1) → Reached g0 g1 it1

end Builders

/-! ## Concrete graphs -/

/-- Nodes 1 and 2, inserted in this order, no edge. -/
def twoNodes : Graph Nat Nat :=
  (InsertNode (InsertNode emptyGraph 1).1 2).1

/-- Nodes 1 and 2 and the edge 2 -> 1 of weight 5. -/
def edgeToOne : Graph Nat Nat :=
  { nodes := .node .nil ⟨0, 1, []⟩ (.node .nil ⟨1, 2, [(0, 5)]⟩ .nil), fresh := 2 }

/-- Graph `edgeToOne` after `DeleteNode 1`: node 2 still stores the edge to the destroyed cell. -/
def staleToOne : Graph Nat Nat :=
  { nodes := .node .nil ⟨1, 2, [(0, 5)]⟩ .nil, fresh := 2 }

/-- Nodes 1 and 2 and the edge 1 -> 2 of weight 0. -/
def edgeToTwo : Graph Nat Nat :=
  { nodes := .node .nil ⟨0, 1, [(1, 0)]⟩ (.node .nil ⟨1, 2, []⟩ .nil), fresh := 2 }

/-- Graph `edgeToTwo` after `Replace 1 3`: the root of the index now holds 3, its right child 2. -/
def renamedToThree : Graph Nat Nat :=
  { nodes := .node .nil ⟨0, 3, [(1, 0)]⟩ (.node .nil ⟨1, 2, []⟩ .nil), fresh := 2 }

/-- The graph of the repository test of `MergeReplace`, with 1, 2, 3 for "first", "second", "last":
edges 1 -> 2 (0), 3 -> 2 (0), 3 -> 1 (2). -/
def mergeSample : Graph Nat Nat :=
  { nodes := .node (.node .nil ⟨0, 1, [(1, 0)]⟩ .nil) ⟨1, 2, []⟩
      (.node .nil ⟨2, 3, [(1, 0), (0, 2)]⟩ .nil),
    fresh := 3 }

/-- Graph `twoNodes` after `Replace 1 3`: the root of the index holds 3, its right child 2. -/
def renamedNoEdge : Graph Nat Nat :=
  { nodes := .node .nil ⟨0, 3, []⟩ (.node .nil ⟨1, 2, []⟩ .nil), fresh := 2 }

/-- Graph `renamedNoEdge` after `InsertNode 2`: the value 2 is stored twice. -/
def twiceTwo : Graph Nat Nat :=
  { nodes := .node (.node .nil ⟨2, 2, []⟩ .nil) ⟨0, 3, []⟩ (.node .nil ⟨1, 2, []⟩ .nil),
    fresh := 3 }

/-- Nodes 1 and 2 with the edges 1 -> 1 (0), 2 -> 1 (5), 2 -> 1 (3), inserted in this order: the
edge list of node 2 is stored in insertion order. -/
def unsortedLast : Graph Nat Nat :=
  { nodes := .node .nil ⟨0, 1, [(0, 0)]⟩ (.node .nil ⟨1, 2, [(0, 5), (0, 3)]⟩ .nil), fresh := 2 }

/-- Graph `unsortedLast` after a forward traversal: the edge list of node 2 is sorted. -/
def sortedLast : Graph Nat Nat :=
  { nodes := .node .nil ⟨0, 1, [(0, 0)]⟩ (.node .nil ⟨1, 2, [(0, 3), (0, 5)]⟩ .nil), fresh := 2 }

/-- Nodes 1, 2, 3, in this order, and the edge 1 -> 3 (5). -/
def edgeToThree : Graph Nat Nat :=
  { nodes := .node .nil ⟨0, 1, [(2, 5)]⟩
      (.node .nil ⟨1, 2, []⟩ (.node .nil ⟨2, 3, []⟩ .nil)), fresh := 3 }

/-- Graph `edgeToThree` after `DeleteNode 3`: the only stored edge is expired. -/
def onlyStale : Graph Nat Nat :=
  { nodes := .node .nil ⟨0, 1, [(2, 5)]⟩ (.node .nil ⟨1, 2, []⟩ .nil), fresh := 3 }

/-- Nodes 1, 2, 3 with the edges 1 -> 3 (5) and 1 -> 2 (7), inserted in this order. -/
def edgesToThreeTwo : Graph Nat Nat :=
  { nodes := .node .nil ⟨0, 1, [(2, 5), (1, 7)]⟩
      (.node .nil ⟨1, 2, []⟩ (.node .nil ⟨2, 3, []⟩ .nil)), fresh := 3 }

/-- Graph `edgesToThreeTwo` after `DeleteNode 3`: node 1 stores the expired edge before the edge
to node 2. -/
def staleThenLive : Graph Nat Nat :=
  { nodes := .node .nil ⟨0, 1, [(2, 5), (1, 7)]⟩ (.node .nil ⟨1, 2, []⟩ .nil), fresh := 3 }

/-- Graph `staleThenLive` after `cbegin`: the list of node 1 was sorted, the expired edge comes
last. -/
def liveThenStale : Graph Nat Nat :=
  { nodes := .node .nil ⟨0, 1, [(1, 7), (2, 5)]⟩ (.node .nil ⟨1, 2, []⟩ .nil), fresh := 3 }

/-- The graph of the repository tests of the iterator, with 1, 2, 3, 4, 5 for "aaa", "bbb",
"first", "second", "third": edges 1 -> 2 (100), 3 -> 4 (0), 4 -> 3 (9), 3 -> 4 (1), 3 -> 5 (0),
inserted in this order. -/
def iterSample : Graph Nat Nat :=
  { nodes := .node (.node .nil ⟨2, 1, [(3, 100)]⟩ (.node .nil ⟨3, 2, []⟩ .nil))
      ⟨0, 3, [(1, 0), (1, 1), (4, 0)]⟩
      (.node .nil ⟨1, 4, [(0, 9)]⟩ (.node .nil ⟨4, 5, []⟩ .nil)),
    fresh := 5 }

/-- Nodes 2, 1, 3, inserted in this order (the index is the root 2 with the children 1 and 3,
also in the library, which does not rotate here), with the edges 1 -> 2 (7) and 3 -> 1 (5). -/
def threeNodes : Graph Nat Nat :=
  { nodes := .node (.node .nil ⟨1, 1, [(0, 7)]⟩ .nil) ⟨0, 2, []⟩
      (.node .nil ⟨2, 3, [(1, 5)]⟩ .nil),
    fresh := 3 }

/-- Building sequence of `threeNodes`. -/
def threeNodesOps : List (BuildOp Nat Nat) :=
  [.node 2, .node 1, .node 3, .edge 1 2 7, .edge 3 1 5]

/-- Graph `threeNodes` after `Replace 3 0`: the right child of the root now holds 0. -/
def renamedZero : Graph Nat Nat :=
  { nodes := .node (.node .nil ⟨1, 1, [(0, 7)]⟩ .nil) ⟨0, 2, []⟩
      (.node .nil ⟨2, 0, [(1, 5)]⟩ .nil),
    fresh := 3 }

/-- Graph left by `MergeReplace 1 2` on `renamedZero` when the exception leaves it: the edge
of node 1 has moved to node 2. -/
def halfMerged : Graph Nat Nat :=
  { nodes := .node (.node .nil ⟨1, 1, []⟩ .nil) ⟨0, 2, [(0, 7)]⟩
      (.node .nil ⟨2, 0, [(1, 5)]⟩ .nil),
    fresh := 3 }

/-- Nodes A = 1 and B = 2 with the edges A -> B (0) and B -> A (2). -/
def mergePair : Graph Nat Int :=
  { nodes := .node .nil ⟨0, 1, [(1, 0)]⟩ (.node .nil ⟨1, 2, [(0, 2)]⟩ .nil), fresh := 2 }

/-- Building sequence of `mergePair`. -/
def mergePairOps : List (BuildOp Nat Int) :=
  [.node 1, .node 2, .edge 1 2 0, .edge 2 1 2]

/-- Graph `mergePair` after `MergeReplace 1 2`; the first stored edge is expired. -/
def mergedPair : Graph Nat Int :=
  { nodes := .node .nil ⟨1, 2, [(0, 2), (1, 0), (1, 2)]⟩ .nil, fresh := 2 }

/-- Nodes A = 2 and B = 1 with the edges A -> B (0) and B -> A (2). -/
def mergePairRev : Graph Nat Int :=
  { nodes := .node (.node .nil ⟨1, 1, [(0, 2)]⟩ .nil) ⟨0, 2, [(1, 0)]⟩ .nil, fresh := 2 }

/-- Building sequence of `mergePairRev`. -/
def mergePairRevOps : List (BuildOp Nat Int) :=
  [.node 2, .node 1, .edge 2 1 0, .edge 1 2 2]

/-- Graph `mergePairRev` after `MergeReplace 2 1`; the last stored edge is expired. -/
def mergedPairRev : Graph Nat Int :=
  { nodes := .node .nil ⟨1, 1, [(1, 0), (1, 2), (0, 2)]⟩ .nil, fresh := 2 }

/-- One node whose value is the text that `operator<<` writes for the two nodes A and B, less
its last four characters. -/
def oddName : Graph String Int :=
  { nodes := .node .nil ⟨0, "A (\n)\nB", []⟩ .nil, fresh := 1 }

/-- The nodes A and B, inserted in this order, no edge. -/
def plainAB : Graph String Int :=
  { nodes := .node .nil ⟨0, "A", []⟩ (.node .nil ⟨1, "B", []⟩ .nil), fresh := 2 }

/-- Building sequence of `sortedLast`. -/
def sortedOps : List (BuildOp Nat Nat) :=
  [.node 2, .node 1, .edge 2 1 3, .edge 1 1 0, .edge 2 1 5]

/-- The graph built by `sortedOps`: the same nodes and edges as `unsortedLast`. -/
def sortedFirst : Graph Nat Nat :=
  { nodes := .node (.node .nil ⟨1, 1, [(1, 0)]⟩ .nil) ⟨0, 2, [(1, 3), (1, 5)]⟩ .nil, fresh := 2 }

/-- Nodes 1 ("first") and 2 ("second") and the edge 2 -> 1 of weight 1. -/
def edgeToFirst : Graph Nat Nat :=
  { nodes := .node .nil ⟨0, 1, []⟩ (.node .nil ⟨1, 2, [(0, 1)]⟩ .nil), fresh := 2 }

/-- Graph `edgeToFirst` after `DeleteNode 1`. -/
def staleToFirst : Graph Nat Nat :=
  { nodes := .node .nil ⟨1, 2, [(0, 1)]⟩ .nil, fresh := 2 }

/-- Graph `staleToFirst` after `InsertNode 1`: the node 1 has a new cell, the stored edge of
node 2 still refers to the destroyed one. -/
def firstAgain : Graph Nat Nat :=
  { nodes := .node (.node .nil ⟨2, 1, []⟩ .nil) ⟨1, 2, [(0, 1)]⟩ .nil, fresh := 3 }

/-- Graph `edgeToTwo` after `DeleteNode 2`: node 1 (A) stores the edge to the deleted node 2
(B). -/
def staleToTwo : Graph Nat Nat :=
  { nodes := .node .nil ⟨0, 1, [(1, 0)]⟩ .nil, fresh := 2 }

/-- Building sequence of `fourNodes`. -/
def fourNodesOps : List (BuildOp Nat Nat) :=
  [.node 1, .node 2, .node 3, .node 4, .edge 1 2 0, .edge 1 4 0, .edge 1 3 0]

/-- Nodes 1, 2, 3, 4 with the edges 1 -> 2 (0), 1 -> 4 (0), 1 -> 3 (0), inserted in this
order. -/
def fourNodes : Graph Nat Nat :=
  { nodes := .node .nil ⟨0, 1, [(1, 0), (3, 0), (2, 0)]⟩
      (.node .nil ⟨1, 2, []⟩ (.node .nil ⟨2, 3, []⟩ (.node .nil ⟨3, 4, []⟩ .nil))),
    fresh := 4 }

/-- Graph `fourNodes` after `DeleteNode 4`: the expired edge is stored between the edges to 2
and to 3. -/
def staleMiddle : Graph Nat Nat :=
  { nodes := .node .nil ⟨0, 1, [(1, 0), (3, 0), (2, 0)]⟩
      (.node .nil ⟨1, 2, []⟩ (.node .nil ⟨2, 3, []⟩ .nil)),
    fresh := 4 }

/-- Graph `staleMiddle` after `operator<<`: the expired edge is gone, the edge to 3 is stored
before the edge to 2. -/
def staleMiddlePrinted : Graph Nat Nat :=
  { nodes := .node .nil ⟨0, 1, [(2, 0), (1, 0)]⟩
      (.node .nil ⟨1, 2, []⟩ (.node .nil ⟨2, 3, []⟩ .nil)),
    fresh := 4 }

/-- Building sequence of `loopAndFour`. -/
def loopAndFourOps : List (BuildOp Nat Nat) :=
  [.node 1, .node 2, .node 3, .node 4, .edge 3 3 7, .edge 3 4 9]

/-- Nodes 1, 2, 3, 4 with the edges 3 -> 3 (7) and 3 -> 4 (9). -/
def loopAndFour : Graph Nat Nat :=
  { nodes := .node .nil ⟨0, 1, []⟩
      (.node .nil ⟨1, 2, []⟩ (.node .nil ⟨2, 3, [(2, 7), (3, 9)]⟩ (.node .nil ⟨3, 4, []⟩ .nil))),
    fresh := 4 }

/-- Graph `loopAndFour` after `DeleteNode 4`: node 3 stores its loop and an expired edge. -/
def loopAndStale : Graph Nat Nat :=
  { nodes := .node .nil ⟨0, 1, []⟩
      (.node .nil ⟨1, 2, []⟩ (.node .nil ⟨2, 3, [(2, 7), (3, 9)]⟩ .nil)),
    fresh := 4 }

/-- Graph `loopAndStale` after `MergeReplace 1 2`: the list of node 3 holds the expired edge
only. -/
def loopLost : Graph Nat Nat :=
  { nodes := .node .nil ⟨1, 2, []⟩ (.node .nil ⟨2, 3, [(3, 9)]⟩ .nil), fresh := 4 }

/-- Graph `twoNodes` after `Replace 2 0`: the root of the index holds 1, its right child 0. -/
def renamedTwoZero : Graph Nat Nat :=
  { nodes := .node .nil ⟨0, 1, []⟩ (.node .nil ⟨1, 0, []⟩ .nil), fresh := 2 }

/-- Graph `renamedTwoZero` after `InsertNode 0`: the value 0 is stored twice. -/
def twiceZero : Graph Nat Nat :=
  { nodes := .node (.node .nil ⟨2, 0, []⟩ .nil) ⟨0, 1, []⟩ (.node .nil ⟨1, 0, []⟩ .nil),
    fresh := 3 }

/-- Graph `renamedTwoZero` after `DeleteNode 1`: the index is empty. -/
def clearedByDelete : Graph Nat Nat :=
  { nodes := .nil, fresh := 2 }

/-- Graph `renamedToThree` after `InsertNode 2`: a second node of value 2, found by the lookups,
left of the root; the edge of node 3 leads to the first one. -/
def secondTwo : Graph Nat Nat :=
  { nodes := .node (.node .nil ⟨2, 2, []⟩ .nil) ⟨0, 3, [(1, 0)]⟩ (.node .nil ⟨1, 2, []⟩ .nil),
    fresh := 3 }

/-- Graph `secondTwo` after `DeleteNode 2`: the second node of value 2 is gone, the first one
stays. -/
def secondTwoDeleted : Graph Nat Nat :=
  { nodes := .node .nil ⟨0, 3, [(1, 0)]⟩ (.node .nil ⟨1, 2, []⟩ .nil), fresh := 3 }

/-- Graph `secondTwoDeleted` after `InsertNode 2`. -/
def secondTwoAgain : Graph Nat Nat :=
  { nodes := .node (.node .nil ⟨3, 2, []⟩ .nil) ⟨0, 3, [(1, 0)]⟩ (.node .nil ⟨1, 2, []⟩ .nil),
    fresh := 4 }

/-- Building sequence of `fiveNodes`. -/
def fiveNodesOps : List (BuildOp Nat Nat) :=
  [.node 1, .node 2, .node 3, .node 4, .node 5, .edge 1 3 0, .edge 2 3 0, .edge 2 4 0,
    .edge 2 5 0]

/-- Nodes 1 to 5 with the edges 1 -> 3 (0), 2 -> 3 (0), 2 -> 4 (0), 2 -> 5 (0). -/
def fiveNodes : Graph Nat Nat :=
  { nodes := .node .nil ⟨0, 1, [(2, 0)]⟩
      (.node .nil ⟨1, 2, [(2, 0), (3, 0), (4, 0)]⟩
        (.node .nil ⟨2, 3, []⟩ (.node .nil ⟨3, 4, []⟩ (.node .nil ⟨4, 5, []⟩ .nil)))),
    fresh := 5 }

/-- Graph `fiveNodes` after `DeleteNode 5`: the last stored edge of node 2 is expired. -/
def fiveStale : Graph Nat Nat :=
  { nodes := .node .nil ⟨0, 1, [(2, 0)]⟩
      (.node .nil ⟨1, 2, [(2, 0), (3, 0), (4, 0)]⟩
        (.node .nil ⟨2, 3, []⟩ (.node .nil ⟨3, 4, []⟩ .nil))),
    fresh := 5 }

/-- Graph `fiveStale` after `MergeReplace 1 2`: node 2 stores the edge to 3 of weight 0 twice. -/
def mergedTwice : Graph Nat Nat :=
  { nodes := .node .nil ⟨1, 2, [(2, 0), (3, 0), (2, 0)]⟩
      (.node .nil ⟨2, 3, []⟩ (.node .nil ⟨3, 4, []⟩ .nil)),
    fresh := 5 }

/-- Graph `mergedTwice` after `erase 2 3 0`: the second edge to 3 of weight 0 is still stored. -/
def erasedOnce : Graph Nat Nat :=
  { nodes := .node .nil ⟨1, 2, [(3, 0), (2, 0)]⟩
      (.node .nil ⟨2, 3, []⟩ (.node .nil ⟨3, 4, []⟩ .nil)),
    fresh := 5 }

/-- Nodes 2 and 1, inserted in this order (the root 2 with the left child 1), and the edge
1 -> 1 of weight 7. -/
def loopOnOne : Graph Nat Nat :=
  { nodes := .node (.node .nil ⟨1, 1, [(1, 7)]⟩ .nil) ⟨0, 2, []⟩ .nil, fresh := 2 }

/-- Graph `loopOnOne` after `Replace 1 9`: the left child of the root 2 holds 9. -/
def loopOnNine : Graph Nat Nat :=
  { nodes := .node (.node .nil ⟨1, 9, [(1, 7)]⟩ .nil) ⟨0, 2, []⟩ .nil, fresh := 2 }

/-- Graph `loopOnNine` after `InsertNode 9`: a second node of value 9, right of the root. -/
def nineTwice : Graph Nat Nat :=
  { nodes := .node (.node .nil ⟨1, 9, [(1, 7)]⟩ .nil) ⟨0, 2, []⟩
      (.node .nil ⟨2, 9, []⟩ .nil),
    fresh := 3 }

/-- Graph `nineTwice` after `InsertEdge 9 9 7`: both nodes of value 9 have a loop of weight 7. -/
def twoLoops : Graph Nat Nat :=
  { nodes := .node (.node .nil ⟨1, 9, [(1, 7)]⟩ .nil) ⟨0, 2, []⟩
      (.node .nil ⟨2, 9, [(2, 7)]⟩ .nil),
    fresh := 3 }

/-- Graph `twoLoops` after `erase(find(9, 9, 7))`: the loop of the first node of value 9 is
gone. -/
def firstLoopErased : Graph Nat Nat :=
  { nodes := .node (.node .nil ⟨1, 9, []⟩ .nil) ⟨0, 2, []⟩
      (.node .nil ⟨2, 9, [(2, 7)]⟩ .nil),
    fresh := 3 }

/-- Graph `twoLoops` after `erase(9, 9, 7)`: the loop of the second node of value 9 is gone. -/
def secondLoopErased : Graph Nat Nat :=
  { nodes := .node (.node .nil ⟨1, 9, [(1, 7)]⟩ .nil) ⟨0, 2, []⟩
      (.node .nil ⟨2, 9, []⟩ .nil),
    fresh := 3 }

/-- Building sequence of `unsortedLast`. -/
def unsortedOps : List (BuildOp Nat Nat) :=
  [.node 1, .node 2, .edge 1 1 0, .edge 2 1 5, .edge 2 1 3]

/-- Building sequence of `renderSample`: the nodes 2 and 1, then the edges 1 -> 2 (5),
1 -> 2 (-3), 2 -> 1 (1), 1 -> 1 (7). -/
def renderOps : List (BuildOp Nat Int) :=
  [.node 2, .node 1, .edge 1 2 5, .edge 1 2 (-3), .edge 2 1 1, .edge 1 1 7]

/-- The graph built by `renderOps`. -/
def renderSample : Graph Nat Int :=
  { nodes := .node (.node .nil ⟨1, 1, [(0, 5), (0, -3), (1, 7)]⟩ .nil) ⟨0, 2, [(1, 1)]⟩ .nil,
    fresh := 2 }

/-- Nodes 1, 2, 4 with edges 1 -> 2 (0), 4 -> 2 (0), 4 -> 1 (2), 2 -> 1 (9), and an edge of node 2
to a destroyed cell. -/
def sampleGraph : Graph Nat Nat :=
  { nodes := .node (.node .nil ⟨3, 1, [(0, 0)]⟩ .nil) ⟨0, 2, [(3, 9), (2, 6)]⟩
      (.node .nil ⟨1, 4, [(0, 0), (3, 2)]⟩ .nil),
    fresh := 4 }

/-! ## The index: lookups on an ascending tree do not depend on its shape -/

section IndexLemmas

variable {N E : Type} [LinearOrder N]

theorem toList_map {α : Type} (f : α → α) (t : Tree α) : (t.map f).toList = t.toList.map f := by
  induction t with
  | nil => rfl
  | node l x r ihl ihr => simp [Tree.map, Tree.toList, ihl, ihr]

theorem lowerBound_eq (t : Tree (Node N E)) (k : N) (y : Option (Node N E))
    (h : (t.toList.map Node.value).Pairwise (fun a b => a < b)) :
    lowerBound t k y = (t.toList.find? (fun n => decide (k ≤ n.value))).or y := by
  induction t generalizing y with
  | nil => simp [lowerBound, Tree.toList]
  | node l x r ihl ihr =>
    simp only [Tree.toList, List.map_append, List.map_cons, List.pairwise_append,
      List.pairwise_cons] at h
    obtain ⟨hl, ⟨hxr, hr⟩, hlx⟩ := h
    simp only [lowerBound, Tree.toList]
    by_cases hx : x.value < k
    · have hnone : l.toList.find? (fun n => decide (k ≤ n.value)) = none := by
        rw [List.find?_eq_none]
        intro n hn
        have := hlx n.value (List.mem_map_of_mem _ hn) x.value (by simp)
        simp [lt_trans this hx]
      have hx2 : ¬ k ≤ x.value := not_le.mpr hx
      simp [hx, hx2, ihr y hr, List.find?_append, hnone]
    · have hx2 : k ≤ x.value := not_lt.mp hx
      simp only [hx, if_false, ihl (some x) hl, List.find?_append, List.find?_cons, hx2,
        decide_True]
      cases l.toList.find? (fun n => decide (k ≤ n.value)) <;> simp

theorem upperBound_eq (t : Tree (Node N E)) (k : N) (y : Option (Node N E))
    (h : (t.toList.map Node.value).Pairwise (fun a b => a < b)) :
    upperBound t k y = (t.toList.find? (fun n => decide (k < n.value))).or y := by
  induction t generalizing y with
  | nil => simp [upperBound, Tree.toList]
  | node l x r ihl ihr =>
    simp only [Tree.toList, List.map_append, List.map_cons, List.pairwise_append,
      List.pairwise_cons] at h
    obtain ⟨hl, ⟨hxr, hr⟩, hlx⟩ := h
    simp only [upperBound, Tree.toList]
    by_cases hx : k < x.value
    · simp only [hx, if_true, ihl (some x) hl, List.find?_append, List.find?_cons,
        decide_True]
      cases l.toList.find? (fun n => decide (k < n.value)) <;> simp
    · have hnone : l.toList.find? (fun n => decide (k < n.value)) = none := by
        rw [List.find?_eq_none]
        intro n hn
        have := hlx n.value (List.mem_map_of_mem _ hn) x.value (by simp)
        have h2 : ¬ k < n.value := fun h3 => hx (lt_trans h3 this)
        simp [h2]
      simp [hx, ihr y hr, List.find?_append, hnone]

theorem equalRange_eq (t : Tree (Node N E)) (k : N) (y : Option (Node N E)) :
    equalRange t k y = (lowerBound t k y, upperBound t k y) := by
  induction t generalizing y with
  | nil => rfl
  | node l x r ihl ihr =>
    simp only [equalRange, lowerBound, upperBound]
    by_cases h1 : x.value < k
    · have h2 : ¬ k < x.value := not_lt_of_lt h1
      simp [h1, h2, ihr]
    · by_cases h2 : k < x.value
      · simp [h1, h2, ihl]
      · simp [h1, h2]

theorem find?_key_iff {α β : Type} [DecidableEq β] (f : α → β) (L : List α) (c : β) (x : α)
    (h : (L.map f).Nodup) :
    L.find? (fun n => decide (f n = c)) = some x ↔ x ∈ L ∧ f x = c := by
  induction L with
  | nil => simp
  | cons a L ih =>
    simp only [List.map_cons, List.nodup_cons] at h
    by_cases ha : f a = c
    · simp only [List.find?_cons, ha, decide_True, Option.some.injEq, List.mem_cons]
      constructor
      · rintro rfl; exact ⟨Or.inl rfl, ha⟩
      · rintro ⟨h1 | h1, h2⟩
        · exact h1.symm
        · exact absurd (List.mem_map_of_mem f h1) (by rw [h2, ← ha]; exact h.1)
    · simp only [List.find?_cons, ha, decide_False, List.mem_cons, ih h.2]
      constructor
      · rintro ⟨h1, h2⟩; exact ⟨Or.inr h1, h2⟩
      · rintro ⟨h1 | h1, h2⟩
        · exact absurd (h1 ▸ h2) ha
        · exact ⟨h1, h2⟩

theorem find?_key_none {α β : Type} [DecidableEq β] (f : α → β) (L : List α) (c : β) :
    L.find? (fun n => decide (f n = c)) = none ↔ c ∉ L.map f := by
  simp only [List.find?_eq_none, decide_eq_true_eq, List.mem_map, not_exists, not_and]

theorem pairwise_lt_nodup (l : List N) (h : l.Pairwise (fun a b => a < b)) : l.Nodup :=
  h.imp (fun hab => ne_of_lt hab)

theorem findKey_sorted (L : List (Node N E)) (k : N)
    (h : (L.map Node.value).Pairwise (fun a b => a < b)) :
    (match L.find? (fun n => decide (k ≤ n.value)) with
      | none => none
      | some x => if k < x.value then none else some x)
      = L.find? (fun n => decide (n.value = k)) := by
  induction L with
  | nil => rfl
  | cons a L ih =>
    simp only [List.map_cons, List.pairwise_cons] at h
    by_cases h1 : k ≤ a.value
    · by_cases h2 : k < a.value
      · have hne : ¬ a.value = k := fun e => absurd h2 (by rw [e]; exact lt_irrefl k)
        have hnone : L.find? (fun n => decide (n.value = k)) = none := by
          rw [List.find?_eq_none]
          intro n hn
          have := h.1 n.value (List.mem_map_of_mem _ hn)
          have : k < n.value := lt_trans h2 this
          simp [ne_of_gt this]
        simp [List.find?_cons, h1, h2, hne, hnone]
      · have he : a.value = k := le_antisymm (not_lt.mp h2) h1
        simp [List.find?_cons, h1, he]
    · have hne : ¬ a.value = k := fun e => h1 (by rw [e])
      simp only [List.find?_cons, h1, hne, decide_False]
      exact ih h.2

theorem mapFind_eq (t : Tree (Node N E)) (k : N) (h : Ascending t) :
    mapFind t k = t.toList.find? (fun n => decide (n.value = k)) := by
  unfold mapFind
  rw [lowerBound_eq t k none h, Option.or_none]
  exact findKey_sorted t.toList k h

theorem mapFind_some_iff (t : Tree (Node N E)) (k : N) (x : Node N E) (h : Ascending t) :
    mapFind t k = some x ↔ x ∈ t.toList ∧ x.value = k := by
  rw [mapFind_eq t k h]
  exact find?_key_iff Node.value t.toList k x (pairwise_lt_nodup _ h)

theorem mapFind_none_iff (t : Tree (Node N E)) (k : N) (h : Ascending t) :
    mapFind t k = none ↔ k ∉ t.toList.map Node.value := by
  rw [mapFind_eq t k h]
  exact find?_key_none Node.value t.toList k

theorem find?_key_perm {α β : Type} [DecidableEq β] (f : α → β) (L L' : List α) (c : β)
    (hp : L.Perm L') (h : (L.map f).Nodup) :
    L.find? (fun n => decide (f n = c)) = L'.find? (fun n => decide (f n = c)) := by
  have h' : (L'.map f).Nodup := (hp.map f).nodup_iff.mp h
  apply Option.ext
  intro x
  simp only [Option.mem_def]
  rw [find?_key_iff f L c x h, find?_key_iff f L' c x h', hp.mem_iff]

theorem find?_key_filter {α β : Type} [DecidableEq β] (f : α → β) (L : List α) (c d : β) :
    (L.filter (fun n => decide (f n ≠ d))).find? (fun n => decide (f n = c))
      = if c = d then none else L.find? (fun n => decide (f n = c)) := by
  rw [List.find?_filter]
  by_cases h2 : c = d
  · subst h2
    rw [if_pos rfl, List.find?_eq_none]
    intro a _
    by_cases h3 : f a = c <;> simp [h3]
  · rw [if_neg h2]
    congr 1
    funext a
    by_cases h3 : f a = c
    · have : f a ≠ d := fun e => h2 (by rw [← h3, e])
      simp [h3, this]
      exact fun e => h2 e
    · simp [h3]

theorem mapAttach_perm (t : Tree (Node N E)) (n : Node N E) :
    (mapAttach t n).toList.Perm (n :: t.toList) := by
  induction t with
  | nil => simp [mapAttach, Tree.toList]
  | node l x r ihl ihr =>
    simp only [mapAttach]
    split
    · simp only [Tree.toList]
      have h1 : (l.toList ++ x :: (mapAttach r n).toList).Perm
          (l.toList ++ x :: n :: r.toList) :=
        List.Perm.append_left _ (List.Perm.cons _ ihr)
      have h2 : (l.toList ++ x :: n :: r.toList).Perm (l.toList ++ n :: x :: r.toList) :=
        List.Perm.append_left _ (List.Perm.swap _ _ _)
      exact (h1.trans h2).trans List.perm_middle
    · simp only [Tree.toList]
      have h1 : ((mapAttach l n).toList ++ x :: r.toList).Perm
          ((n :: l.toList) ++ x :: r.toList) := List.Perm.append_right _ ihl
      exact h1

theorem mapAttach_mem (t : Tree (Node N E)) (n x : Node N E) :
    x ∈ (mapAttach t n).toList ↔ x = n ∨ x ∈ t.toList := by
  rw [(mapAttach_perm t n).mem_iff, List.mem_cons]

theorem mapAttach_ascending (t : Tree (Node N E)) (n : Node N E) (h : Ascending t)
    (hn : n.value ∉ t.toList.map Node.value) : Ascending (mapAttach t n) := by
  unfold Ascending at *
  induction t with
  | nil => simp [mapAttach, Tree.toList]
  | node l x r ihl ihr =>
    simp only [Tree.toList, List.map_append, List.map_cons, List.pairwise_append,
      List.pairwise_cons, List.mem_append, List.mem_cons, not_or] at h hn
    obtain ⟨hl, ⟨hxr, hr⟩, hlx⟩ := h
    obtain ⟨hnl, hnx, hnr⟩ := hn
    simp only [mapAttach]
    split
    · rename_i hlt
      simp only [Tree.toList, List.map_append, List.map_cons, List.pairwise_append,
        List.pairwise_cons, List.mem_cons]
      have hmem : ∀ b, b ∈ (mapAttach r n).toList.map Node.value →
          b = n.value ∨ b ∈ r.toList.map Node.value := by
        intro b hb
        obtain ⟨y, hy, rfl⟩ := List.mem_map.mp hb
        rcases (mapAttach_mem r n y).mp hy with rfl | hy2
        · exact Or.inl rfl
        · exact Or.inr (List.mem_map_of_mem _ hy2)
      refine ⟨hl, ⟨?_, ihr hr hnr⟩, ?_⟩
      · intro b hb
        rcases hmem b hb with rfl | hb2
        · exact hlt
        · exact hxr b hb2
      · intro a ha b hb
        have hax : a < x.value := hlx a ha x.value (Or.inl rfl)
        rcases hb with rfl | hb
        · exact hax
        · rcases hmem b hb with rfl | hb2
          · exact lt_trans hax hlt
          · exact hlx a ha b (Or.inr hb2)
    · rename_i hnlt
      have hlt : n.value < x.value := lt_of_le_of_ne (not_lt.mp hnlt) hnx
      simp only [Tree.toList, List.map_append, List.map_cons, List.pairwise_append,
        List.pairwise_cons, List.mem_cons]
      have hmem : ∀ b, b ∈ (mapAttach l n).toList.map Node.value →
          b = n.value ∨ b ∈ l.toList.map Node.value := by
        intro b hb
        obtain ⟨y, hy, rfl⟩ := List.mem_map.mp hb
        rcases (mapAttach_mem l n y).mp hy with rfl | hy2
        · exact Or.inl rfl
        · exact Or.inr (List.mem_map_of_mem _ hy2)
      refine ⟨ihl hl hnl, ⟨hxr, hr⟩, ?_⟩
      intro a ha b hb
      rcases hmem a ha with rfl | ha2
      · rcases hb with rfl | hb
        · exact hlt
        · exact lt_trans hlt (hxr b hb)
      · exact hlx a ha2 b hb

omit [LinearOrder N] in
theorem extractMin_none (r : Tree (Node N E)) (h : extractMin r = none) : r = .nil := by
  cases r with
  | nil => rfl
  | node l x r =>
    simp only [extractMin] at h
    split at h <;> simp at h

omit [LinearOrder N] in
theorem extractMin_toList (r : Tree (Node N E)) (m : Node N E) (r' : Tree (Node N E))
    (h : extractMin r = some (m, r')) : r.toList = m :: r'.toList := by
  induction r generalizing m r' with
  | nil => simp [extractMin] at h
  | node l x r ihl _ =>
    simp only [extractMin] at h
    split at h
    · rename_i hl
      have := extractMin_none l hl
      simp only [Option.some.injEq, Prod.mk.injEq] at h
      obtain ⟨rfl, rfl⟩ := h
      simp [this, Tree.toList]
    · rename_i m1 l1 hl
      simp only [Option.some.injEq, Prod.mk.injEq] at h
      obtain ⟨rfl, rfl⟩ := h
      simp [Tree.toList, ihl m1 l1 hl]

omit [LinearOrder N] in
theorem eraseCell_toList (t : Tree (Node N E)) (c : Cell)
    (h : (t.toList.map Node.cell).Nodup) :
    (eraseCell t c).toList = t.toList.filter (fun n => decide (n.cell ≠ c)) := by
  induction t with
  | nil => rfl
  | node l x r ihl ihr =>
    simp only [Tree.toList, List.map_append, List.map_cons] at h
    have hl : (l.toList.map Node.cell).Nodup := (List.nodup_append.mp h).1
    have hxr := (List.nodup_append.mp h).2.1
    have hdis := (List.nodup_append.mp h).2.2
    have hr : (r.toList.map Node.cell).Nodup := (List.nodup_cons.mp hxr).2
    have hxnr : x.cell ∉ r.toList.map Node.cell := (List.nodup_cons.mp hxr).1
    have hxnl : x.cell ∉ l.toList.map Node.cell := fun hm => hdis hm (by simp)
    simp only [eraseCell]
    by_cases hx : x.cell = c
    · have hfl : l.toList.filter (fun n => decide (n.cell ≠ c)) = l.toList := by
        rw [List.filter_eq_self]
        intro a ha
        have : a.cell ≠ c := fun e => hxnl (by rw [hx, ← e]; exact List.mem_map_of_mem _ ha)
        simp [this]
      have hfr : r.toList.filter (fun n => decide (n.cell ≠ c)) = r.toList := by
        rw [List.filter_eq_self]
        intro a ha
        have : a.cell ≠ c := fun e => hxnr (by rw [hx, ← e]; exact List.mem_map_of_mem _ ha)
        simp [this]
      have hgoal : (l.toList ++ x :: r.toList).filter (fun n => decide (n.cell ≠ c))
          = l.toList ++ r.toList := by
        rw [List.filter_append, List.filter_cons, hfl, hfr]
        simp [hx]
      have hunf : (Tree.node l x r).toList = l.toList ++ x :: r.toList := rfl
      rw [if_pos hx, hunf, hgoal]
      split
      · simp [Tree.toList]
      · rename_i hnone
        simp [extractMin_none r hnone, Tree.toList]
      · rename_i m r' _ hsome
        simp [Tree.toList, extractMin_toList r m r' hsome]
    · rw [if_neg hx]
      simp only [Tree.toList, ihl hl, ihr hr, List.filter_append, List.filter_cons]
      simp [hx]

theorem rangeCells_single (L1 L2 : List Cell) (b : Cell) (ub : Option Cell)
    (h1 : ∀ c ∈ L1, c ≠ b) (h2 : ub = L2.head?) (h3 : b ∉ L2) :
    rangeCells (L1 ++ b :: L2) (some b) ub = [b] := by
  unfold rangeCells
  induction L1 with
  | nil =>
    subst h2
    cases L2 with
    | nil => simp [List.dropWhile, List.takeWhile]
    | cons a L2 =>
      have : b ≠ a := fun e => h3 (by simp [e])
      simp [List.dropWhile, List.takeWhile, this]
  | cons a L1 ih =>
    have ha : a ≠ b := h1 a (by simp)
    simp only [List.cons_append, List.dropWhile_cons, ha, ne_eq, not_false_eq_true,
      decide_True, if_true]
    exact ih (fun c hc => h1 c (by simp [hc]))

theorem mapErase_toList (t : Tree (Node N E)) (k : N) (x : Node N E) (h : Ascending t)
    (hc : (t.toList.map Node.cell).Nodup) (hx : x ∈ t.toList) (hk : x.value = k) :
    (mapErase t k).toList = t.toList.filter (fun n => decide (n.cell ≠ x.cell)) := by
  unfold mapErase
  obtain ⟨L1, L2, hL⟩ := List.append_of_mem hx
  have hs := h
  unfold Ascending at hs
  rw [hL] at hs hc
  simp only [List.map_append, List.map_cons, List.pairwise_append, List.pairwise_cons] at hs
  obtain ⟨hs1, ⟨hs2, hs3⟩, hs4⟩ := hs
  have hlt1 : ∀ n ∈ L1, n.value < k := fun n hn =>
    hk ▸ hs4 n.value (List.mem_map_of_mem _ hn) x.value (by simp)
  have hlt2 : ∀ n ∈ L2, k < n.value := fun n hn =>
    hk ▸ hs2 n.value (List.mem_map_of_mem _ hn)
  have hlb : lowerBound t k none = some x := by
    rw [lowerBound_eq t k none h, hL, List.find?_append]
    have : L1.find? (fun n => decide (k ≤ n.value)) = none := by
      rw [List.find?_eq_none]; intro n hn; simp [hlt1 n hn]
    simp [this, hk]
  have hub : upperBound t k none = L2.head? := by
    rw [upperBound_eq t k none h, hL, List.find?_append]
    have : L1.find? (fun n => decide (k < n.value)) = none := by
      rw [List.find?_eq_none]; intro n hn; simp [le_of_lt (hlt1 n hn)]
    rw [this]
    cases L2 with
    | nil => simp [hk]
    | cons a L2 => simp [hk, hlt2 a (by simp)]
  simp only [List.map_append, List.map_cons] at hc
  have hd := List.nodup_append.mp hc
  have hr : rangeCells (t.toList.map Node.cell) (some x.cell) (L2.head?.map Node.cell)
      = [x.cell] := by
    rw [hL, List.map_append, List.map_cons]
    apply rangeCells_single
    · intro c hc1 e
      exact hd.2.2 hc1 (by simp [e])
    · cases L2 <;> simp
    · exact (List.nodup_cons.mp hd.2.1).1
  rw [equalRange_eq, hlb, hub]
  simp only [Option.map_some']
  rw [hr]
  simp only [List.foldl_cons, List.foldl_nil]
  exact eraseCell_toList t x.cell (by rw [hL]; simpa using hc)

end IndexLemmas

/-! ## Nodes: `IsNode`, `InsertNode`, `DeleteNode` -/

section NodeLemmas

variable {N E : Type} [LinearOrder N] [LinearOrder E]

theorem IsNode_eq (g : Graph N E) (v : N) : IsNode g v = (mapFind g.nodes v).isSome := by
  unfold IsNode mapCount
  cases mapFind g.nodes v <;> simp

theorem IsNode_iff (g : Graph N E) (v : N) (h : Ascending g.nodes) :
    IsNode g v = true ↔ v ∈ g.nodes.toList.map Node.value := by
  rw [IsNode_eq]
  constructor
  · intro hs
    by_contra hn
    rw [(mapFind_none_iff g.nodes v h).mpr hn] at hs
    simp at hs
  · intro hm
    cases hf : mapFind g.nodes v with
    | none => exact absurd hm ((mapFind_none_iff g.nodes v h).mp hf)
    | some x => rfl

theorem IsNode_false_iff (g : Graph N E) (v : N) (h : Ascending g.nodes) :
    IsNode g v = false ↔ v ∉ g.nodes.toList.map Node.value := by
  rw [← IsNode_iff g v h]; simp

theorem nodeAt_some_iff (g : Graph N E) (c : Cell) (x : Node N E)
    (h : (g.nodes.toList.map Node.cell).Nodup) :
    nodeAt g c = some x ↔ x ∈ g.nodes.toList ∧ x.cell = c :=
  find?_key_iff Node.cell g.nodes.toList c x h

theorem deref_of_mem (g : Graph N E) (x : Node N E)
    (h : (g.nodes.toList.map Node.cell).Nodup) (hx : x ∈ g.nodes.toList) :
    deref g x.cell = some x.value := by
  unfold deref
  rw [(nodeAt_some_iff g x.cell x h).mpr ⟨hx, rfl⟩]
  rfl

theorem deref_some_iff (g : Graph N E) (c : Cell) (v : N)
    (h : (g.nodes.toList.map Node.cell).Nodup) :
    deref g c = some v ↔ ∃ x ∈ g.nodes.toList, x.cell = c ∧ x.value = v := by
  unfold deref
  constructor
  · intro hd
    cases hn : nodeAt g c with
    | none => rw [hn] at hd; simp at hd
    | some x =>
      rw [hn] at hd
      simp only [Option.map_some', Option.some.injEq] at hd
      have := (nodeAt_some_iff g c x h).mp hn
      exact ⟨x, this.1, this.2, hd⟩
  · rintro ⟨x, hx, rfl, rfl⟩
    rw [(nodeAt_some_iff g x.cell x h).mpr ⟨hx, rfl⟩]
    rfl

theorem deref_none_of_fresh (g : Graph N E) (c : Cell) (h : HeapOk g) (hc : g.fresh ≤ c) :
    deref g c = none := by
  unfold deref nodeAt
  rw [Option.map_eq_none', List.find?_eq_none]
  intro x hx
  have hlt : x.cell < g.fresh := h.2.1 x hx
  have : x.cell ≠ c := fun e => absurd (e ▸ hlt) (Nat.not_lt.mpr hc)
  simp [this]

theorem GetNodes_eq (g : Graph N E) (h : Ascending g.nodes) :
    GetNodes g = g.nodes.toList.map Node.value := by
  unfold GetNodes
  apply List.Sorted.insertionSort_eq
  exact List.Pairwise.imp (fun hab => le_of_lt hab) h

theorem InsertNode_old (g : Graph N E) (v : N) (h : IsNode g v = true) :
    InsertNode g v = (g, false) := by
  simp [InsertNode, h]

theorem InsertNode_new (g : Graph N E) (v : N) (h : IsNode g v = false) :
    InsertNode g v = ({ nodes := mapAttach g.nodes (newNode g v), fresh := g.fresh + 1 }, true) := by
  simp [InsertNode, h, newNode]

theorem InsertNode_mem (g : Graph N E) (v : N) (h : IsNode g v = false) (x : Node N E) :
    x ∈ (InsertNode g v).1.nodes.toList ↔ x = newNode g v ∨ x ∈ g.nodes.toList := by
  rw [InsertNode_new g v h]
  exact mapAttach_mem g.nodes (newNode g v) x

theorem InsertNode_WF (g : Graph N E) (v : N) (h : WF g) : WF (InsertNode g v).1 := by
  cases hv : IsNode g v with
  | true => rw [InsertNode_old g v hv]; exact h
  | false =>
    have hmem := InsertNode_mem g v hv
    rw [InsertNode_new g v hv] at hmem ⊢
    obtain ⟨hasc, hnd, hcell, hedge⟩ := h
    refine ⟨mapAttach_ascending g.nodes _ hasc ((IsNode_false_iff g v hasc).mp hv), ?_, ?_, ?_⟩
    · have hp := (mapAttach_perm g.nodes (newNode g v)).map Node.cell
      refine (hp.nodup_iff).mpr ?_
      simp only [List.map_cons, List.nodup_cons]
      refine ⟨?_, hnd⟩
      intro hm
      obtain ⟨y, hy, he⟩ := List.mem_map.mp hm
      have hlt : y.cell < g.fresh := hcell y hy
      simp only [newNode] at he
      exact absurd (he ▸ hlt) (Nat.lt_irrefl _)
    · intro n hn
      rcases (hmem n).mp hn with rfl | hn
      · simp [newNode]
      · exact Nat.lt_succ_of_lt (hcell n hn)
    · intro n hn e he
      rcases (hmem n).mp hn with rfl | hn
      · simp [newNode] at he
      · exact Nat.lt_succ_of_lt (hedge n hn e he)

theorem InsertNode_deref (g : Graph N E) (v : N) (h : WF g) (hv : IsNode g v = false)
    (c : Cell) :
    deref (InsertNode g v).1 c = if c = g.fresh then some v else deref g c := by
  have hwf := InsertNode_WF g v h
  have hmem := InsertNode_mem g v hv
  by_cases hc : c = g.fresh
  · rw [if_pos hc]
    rw [deref_some_iff _ _ _ hwf.2.1]
    exact ⟨newNode g v, (hmem _).mpr (Or.inl rfl), by simp [newNode, hc], rfl⟩
  · rw [if_neg hc]
    apply Option.ext
    intro w
    simp only [Option.mem_def]
    rw [deref_some_iff _ _ _ hwf.2.1, deref_some_iff _ _ _ h.2.1]
    constructor
    · rintro ⟨x, hx, hxc, hxv⟩
      rcases (hmem x).mp hx with rfl | hx
      · exact absurd hxc.symm hc
      · exact ⟨x, hx, hxc, hxv⟩
    · rintro ⟨x, hx, hxc, hxv⟩
      exact ⟨x, (hmem x).mpr (Or.inr hx), hxc, hxv⟩

theorem visible_congr (g g' : Graph N E) (es : List (Cell × E))
    (h : ∀ e ∈ es, deref g' e.1 = deref g e.1) : visible g' es = visible g es := by
  unfold visible
  induction es with
  | nil => rfl
  | cons e es ih =>
    simp only [List.filterMap_cons, h e (by simp)]
    rw [ih (fun e he => h e (by simp [he]))]

theorem DeleteNode_absent (g : Graph N E) (v : N) (h : IsNode g v = false) :
    DeleteNode g v = (g, false) := by
  simp [DeleteNode, h]

theorem DeleteNode_present (g : Graph N E) (v : N) (h : IsNode g v = true) :
    DeleteNode g v = ({ g with nodes := mapErase g.nodes v }, true) := by
  simp [DeleteNode, h]

theorem DeleteNode_toList (g : Graph N E) (v : N) (x : Node N E) (h : WF g)
    (hx : x ∈ g.nodes.toList) (hv : x.value = v) :
    (DeleteNode g v).1.nodes.toList
      = g.nodes.toList.filter (fun n => decide (n.cell ≠ x.cell)) := by
  have hn : IsNode g v = true := (IsNode_iff g v h.1).mpr (hv ▸ List.mem_map_of_mem _ hx)
  rw [DeleteNode_present g v hn]
  exact mapErase_toList g.nodes v x h.1 h.2.1 hx hv

theorem cell_eq_iff_value_eq (g : Graph N E) (h : WF g) (x y : Node N E)
    (hx : x ∈ g.nodes.toList) (hy : y ∈ g.nodes.toList) : x.cell = y.cell ↔ x.value = y.value := by
  constructor
  · intro e
    have h1 := (nodeAt_some_iff g y.cell x h.2.1).mpr ⟨hx, e⟩
    have h2 := (nodeAt_some_iff g y.cell y h.2.1).mpr ⟨hy, rfl⟩
    rw [h1] at h2
    rw [Option.some.inj h2]
  · intro e
    have h1 := (mapFind_some_iff g.nodes y.value x h.1).mpr ⟨hx, e⟩
    have h2 := (mapFind_some_iff g.nodes y.value y h.1).mpr ⟨hy, rfl⟩
    rw [h1] at h2
    rw [Option.some.inj h2]

theorem DeleteNode_mem (g : Graph N E) (v : N) (h : WF g) (hn : IsNode g v = true)
    (y : Node N E) :
    y ∈ (DeleteNode g v).1.nodes.toList ↔ y ∈ g.nodes.toList ∧ y.value ≠ v := by
  obtain ⟨x, hx, hv⟩ := List.mem_map.mp ((IsNode_iff g v h.1).mp hn)
  rw [DeleteNode_toList g v x h hx hv, List.mem_filter]
  constructor
  · rintro ⟨hy, hc⟩
    refine ⟨hy, fun e => ?_⟩
    have := (cell_eq_iff_value_eq g h y x hy hx).mpr (e.trans hv.symm)
    simp [this] at hc
  · rintro ⟨hy, hc⟩
    refine ⟨hy, ?_⟩
    have : y.cell ≠ x.cell := fun e =>
      hc (((cell_eq_iff_value_eq g h y x hy hx).mp e).trans hv)
    simp [this]

theorem DeleteNode_WF (g : Graph N E) (v : N) (h : WF g) : WF (DeleteNode g v).1 := by
  cases hn : IsNode g v with
  | false => rw [DeleteNode_absent g v hn]; exact h
  | true =>
    obtain ⟨x, hx, hv⟩ := List.mem_map.mp ((IsNode_iff g v h.1).mp hn)
    have hl := DeleteNode_toList g v x h hx hv
    have hfresh : (DeleteNode g v).1.fresh = g.fresh := by rw [DeleteNode_present g v hn]
    obtain ⟨hasc, hnd, hcell, hedge⟩ := h
    have hsub : ((DeleteNode g v).1.nodes.toList).Sublist g.nodes.toList := by
      rw [hl]; exact List.filter_sublist _
    refine ⟨?_, ?_, ?_, ?_⟩
    · exact List.Pairwise.sublist (hsub.map Node.value) hasc
    · exact List.Nodup.sublist (hsub.map Node.cell) hnd
    · intro n hn2
      rw [hfresh]
      exact hcell n (hsub.subset hn2)
    · intro n hn2 e he
      rw [hfresh]
      exact hedge n (hsub.subset hn2) e he

theorem DeleteNode_deref (g : Graph N E) (v : N) (x : Node N E) (h : WF g)
    (hx : x ∈ g.nodes.toList) (hv : x.value = v) (c : Cell) :
    deref (DeleteNode g v).1 c = if c = x.cell then none else deref g c := by
  unfold deref nodeAt
  rw [DeleteNode_toList g v x h hx hv, find?_key_filter Node.cell]
  split <;> rfl

theorem InsertNode_mapFind_new (g : Graph N E) (v : N) (h : WF g) (hv : IsNode g v = false) :
    mapFind (InsertNode g v).1.nodes v = some (newNode g v) :=
  (mapFind_some_iff _ v _ (InsertNode_WF g v h).1).mpr
    ⟨(InsertNode_mem g v hv _).mpr (Or.inl rfl), rfl⟩

theorem InsertNode_mapFind_other (g : Graph N E) (v : N) (h : WF g) (hv : IsNode g v = false)
    (u : N) (hu : u ≠ v) : mapFind (InsertNode g v).1.nodes u = mapFind g.nodes u := by
  apply Option.ext
  intro x
  simp only [Option.mem_def]
  rw [mapFind_some_iff _ u x (InsertNode_WF g v h).1, mapFind_some_iff _ u x h.1,
    InsertNode_mem g v hv x]
  constructor
  · rintro ⟨rfl | hx, hxv⟩
    · exact absurd hxv.symm hu
    · exact ⟨hx, hxv⟩
  · rintro ⟨hx, hxv⟩
    exact ⟨Or.inr hx, hxv⟩

theorem DeleteNode_mapFind_other (g : Graph N E) (v : N) (h : WF g) (hn : IsNode g v = true)
    (u : N) (hu : u ≠ v) : mapFind (DeleteNode g v).1.nodes u = mapFind g.nodes u := by
  apply Option.ext
  intro x
  simp only [Option.mem_def]
  rw [mapFind_some_iff _ u x (DeleteNode_WF g v h).1, mapFind_some_iff _ u x h.1,
    DeleteNode_mem g v h hn x]
  constructor
  · rintro ⟨⟨hx, _⟩, hxv⟩
    exact ⟨hx, hxv⟩
  · rintro ⟨hx, hxv⟩
    exact ⟨⟨hx, by rw [hxv]; exact hu⟩, hxv⟩

theorem DeleteNode_not_node (g : Graph N E) (v : N) (h : WF g) (hn : IsNode g v = true) :
    IsNode (DeleteNode g v).1 v = false := by
  rw [IsNode_false_iff _ v (DeleteNode_WF g v h).1]
  intro hm
  obtain ⟨y, hy, hyv⟩ := List.mem_map.mp hm
  exact ((DeleteNode_mem g v h hn y).mp hy).2 hyv

end NodeLemmas

/-! ## Edge lists: updates that keep the cell and the value of every record -/

section EdgeLemmas

variable {N E : Type} [LinearOrder N] [LinearOrder E]

theorem modifyNode_eq (g : Graph N E) (c : Cell) (f : Node N E → Node N E) :
    modifyNode g c f = mapNodes g (fun n => if n.cell = c then f n else n) := rfl

theorem keepsKeys_edges (c : Cell) (h : List (Cell × E) → List (Cell × E)) :
    KeepsKeys (fun n : Node N E => if n.cell = c then { n with edges := h n.edges } else n) := by
  intro n
  by_cases hc : n.cell = c <;> simp [hc]

theorem mapNodes_toList (g : Graph N E) (F : Node N E → Node N E) :
    (mapNodes g F).nodes.toList = g.nodes.toList.map F :=
  toList_map F g.nodes

theorem mapNodes_cells (g : Graph N E) (F : Node N E → Node N E) (hF : KeepsKeys F) :
    (mapNodes g F).nodes.toList.map Node.cell = g.nodes.toList.map Node.cell := by
  rw [mapNodes_toList, List.map_map]
  apply List.map_congr_left
  intro n _
  exact (hF n).1

theorem mapNodes_values (g : Graph N E) (F : Node N E → Node N E) (hF : KeepsKeys F) :
    (mapNodes g F).nodes.toList.map Node.value = g.nodes.toList.map Node.value := by
  rw [mapNodes_toList, List.map_map]
  apply List.map_congr_left
  intro n _
  exact (hF n).2

theorem lowerBound_map (t : Tree (Node N E)) (F : Node N E → Node N E) (hF : KeepsKeys F)
    (k : N) (y : Option (Node N E)) :
    lowerBound (t.map F) k (y.map F) = (lowerBound t k y).map F := by
  induction t generalizing y with
  | nil => rfl
  | node l x r ihl ihr =>
    simp only [Tree.map, lowerBound, (hF x).2]
    split
    · exact ihr y
    · exact ihl (some x)

theorem mapFind_map (t : Tree (Node N E)) (F : Node N E → Node N E) (hF : KeepsKeys F)
    (k : N) : mapFind (t.map F) k = (mapFind t k).map F := by
  unfold mapFind
  have := lowerBound_map t F hF k none
  simp only [Option.map_none'] at this
  rw [this]
  cases lowerBound t k none with
  | none => rfl
  | some x =>
    simp only [Option.map_some', (hF x).2]
    split <;> rfl

theorem mapNodes_IsNode (g : Graph N E) (F : Node N E → Node N E) (hF : KeepsKeys F) (v : N) :
    IsNode (mapNodes g F) v = IsNode g v := by
  rw [IsNode_eq, IsNode_eq]
  show (mapFind (g.nodes.map F) v).isSome = _
  rw [mapFind_map g.nodes F hF v]
  cases mapFind g.nodes v <;> rfl

theorem mapNodes_nodeAt (g : Graph N E) (F : Node N E → Node N E) (hF : KeepsKeys F)
    (c : Cell) : nodeAt (mapNodes g F) c = (nodeAt g c).map F := by
  unfold nodeAt
  rw [mapNodes_toList, List.find?_map]
  congr 2
  funext n
  simp [(hF n).1]

theorem mapNodes_deref (g : Graph N E) (F : Node N E → Node N E) (hF : KeepsKeys F)
    (c : Cell) : deref (mapNodes g F) c = deref g c := by
  unfold deref
  rw [mapNodes_nodeAt g F hF c]
  cases nodeAt g c with
  | none => rfl
  | some x => simp [(hF x).2]

theorem mapNodes_WF (g : Graph N E) (F : Node N E → Node N E) (hF : KeepsKeys F) (h : WF g)
    (he : ∀ n ∈ g.nodes.toList, ∀ e ∈ (F n).edges, e.1 < g.fresh) : WF (mapNodes g F) := by
  obtain ⟨hasc, hnd, hcell, _⟩ := h
  refine ⟨?_, ?_, ?_, ?_⟩
  · unfold Ascending; rw [mapNodes_values g F hF]; exact hasc
  · rw [mapNodes_cells g F hF]; exact hnd
  · intro n hn
    rw [mapNodes_toList] at hn
    obtain ⟨m, hm, rfl⟩ := List.mem_map.mp hn
    rw [(hF m).1]
    exact hcell m hm
  · intro n hn e hen
    rw [mapNodes_toList] at hn
    obtain ⟨m, hm, rfl⟩ := List.mem_map.mp hn
    exact he m hm e hen

theorem tree_map_congr {α : Type} (f f' : α → α) (t : Tree α)
    (h : ∀ x ∈ t.toList, f x = f' x) : t.map f = t.map f' := by
  induction t with
  | nil => rfl
  | node l x r ihl ihr =>
    simp only [Tree.toList, List.mem_append, List.mem_cons] at h
    simp only [Tree.map]
    rw [ihl (fun y hy => h y (Or.inl hy)), ihr (fun y hy => h y (Or.inr (Or.inr hy))),
      h x (Or.inr (Or.inl rfl))]

theorem tree_map_map {α : Type} (f f' : α → α) (t : Tree α) :
    (t.map f).map f' = t.map (fun x => f' (f x)) := by
  induction t with
  | nil => rfl
  | node l x r ihl ihr => simp only [Tree.map, ihl, ihr]

theorem tree_map_id {α : Type} (f : α → α) (t : Tree α)
    (h : ∀ x ∈ t.toList, f x = x) : t.map f = t := by
  induction t with
  | nil => rfl
  | node l x r ihl ihr =>
    simp only [Tree.toList, List.mem_append, List.mem_cons] at h
    simp only [Tree.map]
    rw [ihl (fun y hy => h y (Or.inl hy)), ihr (fun y hy => h y (Or.inr (Or.inr hy))),
      h x (Or.inr (Or.inl rfl))]

theorem node_eq_of_cell (g : Graph N E) (x y : Node N E)
    (h : (g.nodes.toList.map Node.cell).Nodup)
    (hx : x ∈ g.nodes.toList) (hy : y ∈ g.nodes.toList) (e : x.cell = y.cell) : x = y := by
  have h1 := (nodeAt_some_iff g y.cell x h).mpr ⟨hx, e⟩
  have h2 := (nodeAt_some_iff g y.cell y h).mpr ⟨hy, rfl⟩
  rw [h1] at h2
  exact Option.some.inj h2

theorem modifyNode_setEdges (g : Graph N E) (s : Node N E) (f : List (Cell × E) → List (Cell × E))
    (h : (g.nodes.toList.map Node.cell).Nodup) (hs : s ∈ g.nodes.toList) :
    modifyNode g s.cell (fun n => { n with edges := f n.edges })
      = setEdges g s.cell (f s.edges) := by
  unfold setEdges modifyNode
  congr 1
  apply tree_map_congr
  intro x hx
  by_cases hc : x.cell = s.cell
  · rw [node_eq_of_cell g x s h hx hs hc]
  · simp [hc]

theorem modifyNode_append (g : Graph N E) (s : Node N E) (e : Cell × E)
    (h : (g.nodes.toList.map Node.cell).Nodup) (hs : s ∈ g.nodes.toList) :
    modifyNode g s.cell (fun n => { n with edges := n.edges ++ [e] })
      = modifyNode g s.cell (fun n => { n with edges := s.edges ++ [e] }) :=
  modifyNode_setEdges g s (fun es => es ++ [e]) h hs

theorem edgeScan_live (g : Graph N E) (dst : N) (w : E) (es : List (Cell × E))
    (h : ∀ e ∈ es, (deref g e.1).isSome = true) :
    edgeScan g dst w es = .ok (decide ((dst, w) ∈ visible g es)) := by
  induction es with
  | nil => simp [edgeScan, visible]
  | cons e es ih =>
    have he := h e (by simp)
    have ih2 := ih (fun e he => h e (by simp [he]))
    cases hd : deref g e.1 with
    | none => rw [hd] at he; simp at he
    | some v =>
      unfold visible at ih2 ⊢
      simp only [edgeScan, hd, List.filterMap_cons, Option.map_some', List.mem_cons,
        Prod.mk.injEq]
      by_cases hm : v = dst ∧ e.2 = w
      · obtain ⟨rfl, rfl⟩ := hm
        simp
      · have : ¬ (dst = v ∧ w = e.2) := fun h2 => hm ⟨h2.1.symm, h2.2.symm⟩
        rw [if_neg hm, ih2]
        simp [this]

theorem InsertEdge_eq (g : Graph N E) (s d : Node N E) (w : E) (h : WF g)
    (hs : s ∈ g.nodes.toList) (hd : d ∈ g.nodes.toList)
    (hlive : ∀ e ∈ s.edges, (deref g e.1).isSome = true) :
    InsertEdge g s.value d.value w
      = .ok (if (d.value, w) ∈ visible g s.edges then (g, false)
             else (setEdges g s.cell (s.edges ++ [(d.cell, w)]), true)) := by
  have hfs := (mapFind_some_iff g.nodes s.value s h.1).mpr ⟨hs, rfl⟩
  have hfd := (mapFind_some_iff g.nodes d.value d h.1).mpr ⟨hd, rfl⟩
  unfold InsertEdge
  simp only [IsNode_eq, hfs, hfd, Option.isSome_some, Bool.not_true, Bool.or_self,
    Bool.false_eq_true, if_false, edgeScan_live g d.value w s.edges hlive]
  by_cases hm : (d.value, w) ∈ visible g s.edges
  · simp [hm]
  · simp only [hm, decide_False, if_false, setEdges]
    rw [modifyNode_append g s (d.cell, w) h.2.1 hs]

end EdgeLemmas

/-! ## The list algorithms: `merge`, `sort` and `unique` -/

section ListLemmas

variable {α K : Type} [LinearOrder K] (comp : α → α → Bool) (key : α → K) (P : α → Prop)

theorem listMerge_nil_left (ys : List α) : listMerge comp [] ys = ys := rfl

theorem listMerge_nil_right (xs : List α) : listMerge comp xs [] = xs := by
  cases xs <;> rfl

theorem listMerge_cons_cons (x y : α) (xs ys : List α) :
    listMerge comp (x :: xs) (y :: ys)
      = if comp y x then y :: listMerge comp (x :: xs) ys
        else x :: listMerge comp xs (y :: ys) := rfl

theorem listMerge_perm (xs ys : List α) : (listMerge comp xs ys).Perm (xs ++ ys) := by
  induction xs generalizing ys with
  | nil => simp [listMerge_nil_left]
  | cons x xs ihx =>
    induction ys with
    | nil => simp [listMerge_nil_right]
    | cons y ys ihy =>
      rw [listMerge_cons_cons]
      split
      · have hmid : ((x :: xs) ++ y :: ys).Perm (y :: ((x :: xs) ++ ys)) := List.perm_middle
        exact (List.Perm.cons y ihy).trans hmid.symm
      · exact List.Perm.cons x (ihx (y :: ys))

theorem listMerge_sorted (hc : ∀ a b, P a → P b → (comp a b = true ↔ key a < key b))
    (xs ys : List α) (hx : ∀ a ∈ xs, P a) (hy : ∀ a ∈ ys, P a)
    (sx : SortedBy key xs) (sy : SortedBy key ys) : SortedBy key (listMerge comp xs ys) := by
  unfold SortedBy at *
  induction xs generalizing ys with
  | nil => simpa [listMerge_nil_left] using sy
  | cons x xs ihx =>
    induction ys with
    | nil => simpa [listMerge_nil_right] using sx
    | cons y ys ihy =>
      rw [listMerge_cons_cons]
      have px : P x := hx x (by simp)
      have py : P y := hy y (by simp)
      rw [List.pairwise_cons] at sx sy
      split
      · rename_i hlt
        have hlt2 : key y < key x := (hc y x py px).mp hlt
        rw [List.pairwise_cons]
        refine ⟨?_, ihy (fun a ha => hy a (by simp [ha])) sy.2⟩
        intro z hz
        rcases List.mem_append.mp ((listMerge_perm comp (x :: xs) ys).mem_iff.mp hz) with h1 | h1
        · rcases List.mem_cons.mp h1 with rfl | h2
          · exact le_of_lt hlt2
          · exact le_trans (le_of_lt hlt2) (sx.1 z h2)
        · exact sy.1 z h1
      · rename_i hnlt
        have hle : key x ≤ key y := not_lt.mp (fun h => hnlt ((hc y x py px).mpr h))
        rw [List.pairwise_cons]
        refine ⟨?_, ihx (y :: ys) (fun a ha => hx a (by simp [ha])) hy sx.2
          (List.pairwise_cons.mpr sy)⟩
        intro z hz
        rcases List.mem_append.mp ((listMerge_perm comp xs (y :: ys)).mem_iff.mp hz) with h1 | h1
        · exact sx.1 z h1
        · rcases List.mem_cons.mp h1 with rfl | h2
          · exact hle
          · exact le_trans hle (sy.1 z h2)

theorem carryInto_perm (carry : List α) (bins : List (List α)) :
    (carryInto comp carry bins).flatten.Perm (carry ++ bins.flatten) := by
  induction bins generalizing carry with
  | nil => simp [carryInto]
  | cons b bs ih =>
    simp only [carryInto]
    split
    · rename_i hb
      have : b = [] := List.isEmpty_iff.mp hb
      simp [this]
    · simp only [List.flatten_cons, List.nil_append]
      refine (ih _).trans ?_
      rw [← List.append_assoc]
      exact List.Perm.append_right _
        ((listMerge_perm comp b carry).trans List.perm_append_comm)

theorem sortBins_perm (l : List α) (bins : List (List α)) :
    (sortBins comp l bins).flatten.Perm (l ++ bins.flatten) := by
  induction l generalizing bins with
  | nil => simp [sortBins]
  | cons x xs ih =>
    simp only [sortBins]
    refine (ih _).trans ?_
    refine (List.Perm.append_left xs (carryInto_perm comp [x] bins)).trans ?_
    simp only [List.singleton_append, List.cons_append]
    exact List.perm_middle

theorem collapseBins_perm (acc : List α) (bins : List (List α)) :
    (collapseBins comp acc bins).Perm (acc ++ bins.flatten) := by
  induction bins generalizing acc with
  | nil => simp [collapseBins]
  | cons b bs ih =>
    simp only [collapseBins, List.flatten_cons]
    refine (ih _).trans ?_
    rw [← List.append_assoc]
    exact List.Perm.append_right _ ((listMerge_perm comp b acc).trans List.perm_append_comm)

theorem listSort_perm (l : List α) : (listSort comp l).Perm l := by
  unfold listSort
  split
  · exact List.Perm.refl _
  · exact List.Perm.refl _
  · have h := sortBins_perm comp l []
    split
    · rename_i hb
      rw [hb] at h
      simpa using h
    · rename_i b bs hb
      rw [hb] at h
      simp only [List.flatten_cons, List.flatten_nil, List.append_nil] at h
      exact (collapseBins_perm comp b bs).trans h

theorem carryInto_ok (hc : ∀ a b, P a → P b → (comp a b = true ↔ key a < key b))
    (carry : List α) (bins : List (List α)) (hp : ∀ a ∈ carry, P a)
    (hs : SortedBy key carry) (hb : BinsOk key P bins) :
    BinsOk key P (carryInto comp carry bins) := by
  induction bins generalizing carry with
  | nil =>
    intro b hb2
    simp only [carryInto, List.mem_singleton] at hb2
    subst hb2
    exact ⟨hp, hs⟩
  | cons b bs ih =>
    have hb1 := hb b (by simp)
    have hbs : BinsOk key P bs := fun c hc2 => hb c (by simp [hc2])
    simp only [carryInto]
    split
    · intro c hc2
      rcases List.mem_cons.mp hc2 with rfl | h2
      · exact ⟨hp, hs⟩
      · exact hbs c h2
    · intro c hc2
      rcases List.mem_cons.mp hc2 with rfl | h2
      · exact ⟨by simp, by simp [SortedBy]⟩
      · refine ih (listMerge comp b carry) ?_ ?_ hbs c h2
        · intro a ha
          rcases List.mem_append.mp ((listMerge_perm comp b carry).mem_iff.mp ha) with h | h
          · exact hb1.1 a h
          · exact hp a h
        · exact listMerge_sorted comp key P hc b carry hb1.1 hp hb1.2 hs

theorem sortBins_ok (hc : ∀ a b, P a → P b → (comp a b = true ↔ key a < key b))
    (l : List α) (bins : List (List α)) (hp : ∀ a ∈ l, P a) (hb : BinsOk key P bins) :
    BinsOk key P (sortBins comp l bins) := by
  induction l generalizing bins with
  | nil => simpa [sortBins] using hb
  | cons x xs ih =>
    simp only [sortBins]
    apply ih _ (fun a ha => hp a (by simp [ha]))
    apply carryInto_ok comp key P hc [x] bins _ _ hb
    · intro a ha
      simp only [List.mem_singleton] at ha
      subst ha
      exact hp a (by simp)
    · simp [SortedBy]

theorem collapseBins_sorted (hc : ∀ a b, P a → P b → (comp a b = true ↔ key a < key b))
    (acc : List α) (bins : List (List α)) (hp : ∀ a ∈ acc, P a) (hs : SortedBy key acc)
    (hb : BinsOk key P bins) : SortedBy key (collapseBins comp acc bins) := by
  induction bins generalizing acc with
  | nil => simpa [collapseBins] using hs
  | cons b bs ih =>
    have hb1 := hb b (by simp)
    simp only [collapseBins]
    apply ih
    · intro a ha
      rcases List.mem_append.mp ((listMerge_perm comp b acc).mem_iff.mp ha) with h | h
      · exact hb1.1 a h
      · exact hp a h
    · exact listMerge_sorted comp key P hc b acc hb1.1 hp hb1.2 hs
    · exact fun c hc2 => hb c (by simp [hc2])

theorem listSort_sorted (hc : ∀ a b, P a → P b → (comp a b = true ↔ key a < key b))
    (l : List α) (hp : ∀ a ∈ l, P a) : SortedBy key (listSort comp l) := by
  unfold listSort
  split
  · simp [SortedBy]
  · simp [SortedBy]
  · have h := sortBins_ok comp key P hc l [] hp (by intro b hb; simp at hb)
    split
    · simp [SortedBy]
    · rename_i b bs hb
      rw [hb] at h
      have hb1 := h b (by simp)
      exact collapseBins_sorted comp key P hc b bs hb1.1 hb1.2 (fun c hc2 => h c (by simp [hc2]))

theorem uniqueFrom_sublist (pred : α → α → Bool) (first : α) (l : List α) :
    (uniqueFrom pred first l).Sublist (first :: l) := by
  induction l generalizing first with
  | nil => simp [uniqueFrom]
  | cons b l ih =>
    simp only [uniqueFrom]
    split
    · exact (ih first).trans (List.Sublist.cons₂ _ (List.sublist_cons_self _ _))
    · exact List.Sublist.cons₂ _ (ih b)

theorem listUnique_sublist (pred : α → α → Bool) (l : List α) :
    (listUnique pred l).Sublist l := by
  cases l with
  | nil => simp [listUnique]
  | cons a l => exact uniqueFrom_sublist pred a l

theorem uniqueFrom_mem (pred : α → α → Bool) (first : α) (l : List α)
    (hp : ∀ a ∈ first :: l, ∀ b ∈ first :: l, pred a b = true → a = b) (x : α) :
    x ∈ uniqueFrom pred first l ↔ x ∈ first :: l := by
  induction l generalizing first with
  | nil => simp [uniqueFrom]
  | cons b l ih =>
    simp only [uniqueFrom]
    split
    · rename_i hpr
      have : first = b := hp first (by simp) b (by simp) hpr
      subst this
      rw [ih first (fun a ha c hc2 => hp a (by
        rcases List.mem_cons.mp ha with h | h <;> simp [h]) c (by
        rcases List.mem_cons.mp hc2 with h | h <;> simp [h]))]
      simp
    · rw [List.mem_cons, ih b (fun a ha c hc2 => hp a (by simp [ha]) c (by simp [hc2]))]
      simp

theorem listUnique_mem (pred : α → α → Bool) (l : List α)
    (hp : ∀ a ∈ l, ∀ b ∈ l, pred a b = true → a = b) (x : α) :
    x ∈ listUnique pred l ↔ x ∈ l := by
  cases l with
  | nil => simp [listUnique]
  | cons a l => exact uniqueFrom_mem pred a l hp x

theorem uniqueFrom_strict (pred : α → α → Bool) (first : α) (l : List α)
    (hp : ∀ a ∈ first :: l, ∀ b ∈ first :: l, (pred a b = true ↔ key a = key b))
    (hs : SortedBy key (first :: l)) :
    (uniqueFrom pred first l).Pairwise (fun a b => key a < key b) ∧
      ∀ x ∈ uniqueFrom pred first l, key first ≤ key x := by
  induction l generalizing first with
  | nil => simp [uniqueFrom]
  | cons b l ih =>
    unfold SortedBy at hs
    rw [List.pairwise_cons, List.pairwise_cons] at hs
    simp only [uniqueFrom]
    split
    · rename_i hpr
      apply ih first (fun a ha c hc2 => hp a (by
        rcases List.mem_cons.mp ha with h | h <;> simp [h]) c (by
        rcases List.mem_cons.mp hc2 with h | h <;> simp [h]))
      unfold SortedBy
      rw [List.pairwise_cons]
      exact ⟨fun z hz => hs.1 z (by simp [hz]), hs.2.2⟩
    · rename_i hpr
      have hne : key first ≠ key b := fun e => hpr ((hp first (by simp) b (by simp)).mpr e)
      have hlt : key first < key b := lt_of_le_of_ne (hs.1 b (by simp)) hne
      have ih2 := ih b (fun a ha c hc2 => hp a (by simp [ha]) c (by simp [hc2]))
        (List.pairwise_cons.mpr hs.2)
      refine ⟨List.pairwise_cons.mpr ⟨fun x hx => lt_of_lt_of_le hlt (ih2.2 x hx), ih2.1⟩, ?_⟩
      intro x hx
      rcases List.mem_cons.mp hx with rfl | h
      · exact le_refl _
      · exact le_of_lt (lt_of_lt_of_le hlt (ih2.2 x h))

theorem listUnique_strict (pred : α → α → Bool) (l : List α)
    (hp : ∀ a ∈ l, ∀ b ∈ l, (pred a b = true ↔ key a = key b))
    (hs : SortedBy key l) :
    (listUnique pred l).Pairwise (fun a b => key a < key b) := by
  cases l with
  | nil => simp [listUnique]
  | cons a l => exact (uniqueFrom_strict key pred a l hp hs).1

end ListLemmas

/-! ## Helper lemmas for the queries -/

section QueryLemmas

variable {N E : Type} [LinearOrder N] [LinearOrder E]

theorem connectedScan_false (g : Graph N E) (dst : N) (es : List (Cell × E))
    (h : ∀ e ∈ es, deref g e.1 ≠ some dst) : connectedScan g dst es = false := by
  induction es with
  | nil => rfl
  | cons e es ih =>
    have he := h e (by simp)
    have ih2 := ih (fun e he => h e (by simp [he]))
    simp only [connectedScan]
    split
    · exact ih2
    · rename_i v hv
      have : v ≠ dst := fun e2 => he (by rw [hv, e2])
      simp [this, ih2]

theorem weightScan_nil (g : Graph N E) (dst : N) (es : List (Cell × E))
    (h : ∀ e ∈ es, deref g e.1 ≠ some dst) : weightScan g dst es = [] := by
  induction es with
  | nil => rfl
  | cons e es ih =>
    have he := h e (by simp)
    have ih2 := ih (fun e he => h e (by simp [he]))
    simp only [weightScan]
    split
    · exact ih2
    · rename_i v hv
      have : v ≠ dst := fun e2 => he (by rw [hv, e2])
      simp [this, ih2]

theorem connectedCollect_stale (g : Graph N E) (es : List (Cell × E)) (vec : List N)
    (h : ∃ e ∈ es, deref g e.1 = none) : connectedCollect g es vec = .error .null_deref := by
  induction es generalizing vec with
  | nil => simp at h
  | cons e es ih =>
    simp only [connectedCollect]
    split
    · rfl
    · rename_i v hv
      obtain ⟨e2, he2, hd⟩ := h
      rcases List.mem_cons.mp he2 with rfl | hmem
      · rw [hd] at hv; simp at hv
      · exact ih _ ⟨e2, hmem, hd⟩

/-- After `DeleteNode d`, `GetConnected s` dereferences the expired edge of every node `s` that
had an edge to `d`. -/
theorem GetConnected_after_DeleteNode (g : Graph N E) (s d : N) (xs : Node N E) (e : Cell × E)
    (h : WF g) (hsd : s ≠ d) (hxs : mapFind g.nodes s = some xs) (he : e ∈ xs.edges)
    (hd : deref g e.1 = some d) :
    GetConnected (DeleteNode g d).1 s = .error .null_deref := by
  obtain ⟨hxsm, hxsv⟩ := (mapFind_some_iff g.nodes s xs h.1).mp hxs
  obtain ⟨xd, hxdm, hxdc, hxdv⟩ := (deref_some_iff g e.1 d h.2.1).mp hd
  have hnd : IsNode g d = true := (IsNode_iff g d h.1).mpr (hxdv ▸ List.mem_map_of_mem _ hxdm)
  have hwf := DeleteNode_WF g d h
  have hmem := (DeleteNode_mem g d h hnd xs).mpr ⟨hxsm, by rw [hxsv]; exact hsd⟩
  have hf := (mapFind_some_iff (DeleteNode g d).1.nodes s xs hwf.1).mpr ⟨hmem, hxsv⟩
  have hstale : deref (DeleteNode g d).1 e.1 = none := by
    rw [DeleteNode_deref g d xd h hxdm hxdv, hxdc]; simp
  unfold GetConnected
  simp only [IsNode_eq, hf, Option.isSome_some, Bool.not_true, Bool.false_eq_true, if_false,
    connectedCollect_stale (DeleteNode g d).1 xs.edges [] ⟨e, he, hstale⟩]

end QueryLemmas

/-! ## `MergeReplace`: the loops as updates of the stored edge lists -/

section MergeLemmas

variable {N E : Type} [LinearOrder N] [LinearOrder E]

theorem edgeComparator_congr (g g' : Graph N E) (h : ∀ c, deref g' c = deref g c) :
    edgeComparator g' = edgeComparator g := by
  funext a b
  simp only [edgeComparator, h]

theorem edgeEquals_congr (g g' : Graph N E) (h : ∀ c, deref g' c = deref g c) :
    edgeEquals g' = edgeEquals g := by
  funext a b
  simp only [edgeEquals, h]

theorem visible_congr_all (g g' : Graph N E) (h : ∀ c, deref g' c = deref g c)
    (es : List (Cell × E)) : visible g' es = visible g es :=
  visible_congr g g' es (fun e _ => h e.1)

theorem redirectList_congr (g g' : Graph N E) (h : ∀ c, deref g' c = deref g c)
    (o n : N) (cn : Cell) (cur copy : List (Cell × E)) :
    redirectList g' o n cn cur copy = redirectList g o n cn cur copy := by
  induction copy generalizing cur with
  | nil => rfl
  | cons e es ih =>
    simp only [redirectList, h, visible_congr_all g g' h, ih]

theorem processEdges_congr (g g' : Graph N E) (h : ∀ c, deref g' c = deref g c)
    (o n : N) (cn : Cell) (es : List (Cell × E)) :
    processEdges g' o n cn es = processEdges g o n cn es := by
  unfold processEdges
  rw [edgeComparator_congr g g' h, edgeEquals_congr g g' h, redirectList_congr g g' h]

theorem live_lt_fresh (g : Graph N E) (h : WF g) (e : Cell × E) (hl : Live g e) :
    e.1 < g.fresh := by
  unfold Live at hl
  obtain ⟨v, hv⟩ := Option.isSome_iff_exists.mp hl
  obtain ⟨x, hx, hxc, _⟩ := (deref_some_iff g e.1 v h.2.1).mp hv
  rw [← hxc]
  exact h.2.2.1 x hx

theorem setEdges_eq (g : Graph N E) (c : Cell) (es : List (Cell × E)) :
    setEdges g c es
      = mapNodes g (fun n => if n.cell = c then { n with edges := es } else n) := rfl

theorem setEdges_keeps (c : Cell) (es : List (Cell × E)) :
    KeepsKeys (fun n : Node N E => if n.cell = c then { n with edges := es } else n) :=
  keepsKeys_edges c (fun _ => es)

theorem setEdges_deref (g : Graph N E) (c : Cell) (es : List (Cell × E)) (c' : Cell) :
    deref (setEdges g c es) c' = deref g c' :=
  mapNodes_deref g _ (setEdges_keeps c es) c'

theorem setEdges_fresh (g : Graph N E) (c : Cell) (es : List (Cell × E)) :
    (setEdges g c es).fresh = g.fresh := rfl

theorem setEdges_mem (g : Graph N E) (c : Cell) (es : List (Cell × E)) (y : Node N E) :
    y ∈ (setEdges g c es).nodes.toList ↔
      ∃ x ∈ g.nodes.toList, y = if x.cell = c then { x with edges := es } else x := by
  rw [setEdges_eq, mapNodes_toList, List.mem_map]
  constructor
  · rintro ⟨x, hx, rfl⟩; exact ⟨x, hx, rfl⟩
  · rintro ⟨x, hx, rfl⟩; exact ⟨x, hx, rfl⟩

theorem setEdges_WF (g : Graph N E) (c : Cell) (es : List (Cell × E)) (h : WF g)
    (hes : ∀ e ∈ es, e.1 < g.fresh) : WF (setEdges g c es) := by
  rw [setEdges_eq]
  apply mapNodes_WF g _ (setEdges_keeps c es) h
  intro n hn e he
  by_cases hc : n.cell = c
  · simp only [hc, if_true] at he
    exact hes e he
  · simp only [hc, if_false] at he
    exact h.2.2.2 n hn e he

theorem setEdges_setEdges (g : Graph N E) (c : Cell) (es es' : List (Cell × E)) :
    setEdges (setEdges g c es) c es' = setEdges g c es' := by
  simp only [setEdges_eq, mapNodes]
  rw [tree_map_map]
  congr 1
  apply tree_map_congr
  intro x _
  by_cases hc : x.cell = c <;> simp [hc]

theorem setEdges_self (g : Graph N E) (x : Node N E)
    (h : (g.nodes.toList.map Node.cell).Nodup) (hx : x ∈ g.nodes.toList) :
    setEdges g x.cell x.edges = g := by
  simp only [setEdges_eq, mapNodes]
  have : g.nodes.map (fun n => if n.cell = x.cell then { n with edges := x.edges } else n)
      = g.nodes := by
    apply tree_map_id
    intro y hy
    by_cases hc : y.cell = x.cell
    · rw [node_eq_of_cell g y x h hy hx hc]; simp
    · simp [hc]
  rw [this]

theorem setEdges_record (g : Graph N E) (x : Node N E) (es : List (Cell × E))
    (hx : x ∈ g.nodes.toList) :
    ({ x with edges := es } : Node N E) ∈ (setEdges g x.cell es).nodes.toList :=
  (setEdges_mem g x.cell es _).mpr ⟨x, hx, by simp⟩

theorem setEdges_other (g : Graph N E) (c : Cell) (es : List (Cell × E)) (y : Node N E)
    (hy : y ∈ g.nodes.toList) :
    ∃ y' ∈ (setEdges g c es).nodes.toList, y'.cell = y.cell ∧ y'.value = y.value :=
  ⟨_, (setEdges_mem g c es _).mpr ⟨y, hy, rfl⟩, (setEdges_keeps c es y).1,
    (setEdges_keeps c es y).2⟩

theorem visible_append (g : Graph N E) (es es' : List (Cell × E)) :
    visible g (es ++ es') = visible g es ++ visible g es' := by
  unfold visible
  rw [List.filterMap_append]

theorem redirectEdges_eq (g : Graph N E) (o : N) (x xn : Node N E) (h : WF g)
    (hx : x ∈ g.nodes.toList) (hxn : xn ∈ g.nodes.toList)
    (cur copy : List (Cell × E)) (hcur : ∀ e ∈ cur, Live g e) :
    redirectEdges o xn.value x.value (setEdges g x.cell cur) copy
      = .ok (setEdges g x.cell (redirectList g o xn.value xn.cell cur copy)) := by
  induction copy generalizing cur with
  | nil => rfl
  | cons e es ih =>
    have hwf : WF (setEdges g x.cell cur) :=
      setEdges_WF g x.cell cur h (fun e he => live_lt_fresh g h e (hcur e he))
    have hrec := setEdges_record g x cur hx
    obtain ⟨xn', hxn', hxnc, hxnv⟩ := setEdges_other g x.cell cur xn hxn
    have hlive' : ∀ e ∈ ({ x with edges := cur } : Node N E).edges,
        (deref (setEdges g x.cell cur) e.1).isSome = true := by
      intro e he
      rw [setEdges_deref]
      exact hcur e he
    have hins := InsertEdge_eq (setEdges g x.cell cur) { x with edges := cur } xn' e.2 hwf
      hrec hxn' hlive'
    simp only [hxnv, hxnc] at hins
    simp only [redirectEdges, redirectEdge, redirectList, setEdges_deref]
    cases hd : deref g e.1 with
    | none =>
      have : ¬ ((none : Option N) = some o) := by simp
      simp only [this, if_false]
      exact ih cur hcur
    | some v =>
      by_cases hv : v = o
      · subst hv
        simp only [if_true, hins]
        rw [visible_congr_all g _ (fun c => setEdges_deref g x.cell cur c)]
        by_cases hm : (xn.value, e.2) ∈ visible g cur
        · simp only [hm, if_true]
          exact ih cur hcur
        · simp only [hm, if_false, setEdges_setEdges]
          apply ih
          intro e2 he2
          rcases List.mem_append.mp he2 with h1 | h1
          · exact hcur e2 h1
          · simp only [List.mem_singleton] at h1
            subst h1
            unfold Live
            rw [deref_of_mem g xn h.2.1 hxn]
            rfl
      · have : ¬ (some v = some o) := fun e2 => hv (Option.some.inj e2)
        simp only [hv, this, if_false]
        exact ih cur hcur

theorem ekey_lt (g : Graph N E) (a b : Cell × E) (ha : Live g a) (hb : Live g b) :
    edgeComparator g a b = true ↔ ekey g a < ekey g b := by
  unfold Live at ha hb
  obtain ⟨va, hva⟩ := Option.isSome_iff_exists.mp ha
  obtain ⟨vb, hvb⟩ := Option.isSome_iff_exists.mp hb
  unfold ekey edgeComparator
  rw [Prod.Lex.lt_iff]
  simp only [hva, hvb]
  show _ ↔ ((va : WithBot N) < (vb : WithBot N) ∨ (va : WithBot N) = (vb : WithBot N) ∧ a.2 < b.2)
  rw [WithBot.coe_lt_coe, WithBot.coe_inj]
  rcases lt_trichotomy va vb with h | h | h
  · simp [h]
  · subst h; simp
  · have h1 : ¬ va < vb := not_lt_of_lt h
    have h2 : ¬ va = vb := ne_of_gt h
    simp [h, h1, h2]

theorem ekey_eq (g : Graph N E) (a b : Cell × E) (ha : Live g a) (hb : Live g b) :
    edgeEquals g a b = true ↔ ekey g a = ekey g b := by
  unfold Live at ha hb
  obtain ⟨va, hva⟩ := Option.isSome_iff_exists.mp ha
  obtain ⟨vb, hvb⟩ := Option.isSome_iff_exists.mp hb
  unfold ekey edgeEquals
  simp only [hva, hvb, decide_eq_true_eq]
  show _ ↔ toLex ((va : WithBot N), a.2) = toLex ((vb : WithBot N), b.2)
  rw [toLex_inj, Prod.mk.injEq, WithBot.coe_inj]

theorem deref_inj (g : Graph N E) (h : WF g) (c c' : Cell) (v : N)
    (hc : deref g c = some v) (hc' : deref g c' = some v) : c = c' := by
  obtain ⟨x, hx, hxc, hxv⟩ := (deref_some_iff g c v h.2.1).mp hc
  obtain ⟨y, hy, hyc, hyv⟩ := (deref_some_iff g c' v h.2.1).mp hc'
  rw [← hxc, ← hyc]
  exact (cell_eq_iff_value_eq g h x y hx hy).mpr (hxv.trans hyv.symm)

theorem edgeEquals_eq (g : Graph N E) (h : WF g) (a b : Cell × E) (ha : Live g a)
    (hb : Live g b) (he : edgeEquals g a b = true) : a = b := by
  unfold Live at ha hb
  obtain ⟨va, hva⟩ := Option.isSome_iff_exists.mp ha
  obtain ⟨vb, hvb⟩ := Option.isSome_iff_exists.mp hb
  unfold edgeEquals at he
  simp only [hva, hvb, decide_eq_true_eq] at he
  have := deref_inj g h a.1 b.1 va hva (he.1 ▸ hvb)
  exact Prod.ext this he.2

theorem visible_mem (g : Graph N E) (es : List (Cell × E)) (v : N) (w : E) :
    (v, w) ∈ visible g es ↔ ∃ e ∈ es, deref g e.1 = some v ∧ e.2 = w := by
  unfold visible
  rw [List.mem_filterMap]
  constructor
  · rintro ⟨e, he, hm⟩
    cases hd : deref g e.1 with
    | none => rw [hd] at hm; simp at hm
    | some u =>
      rw [hd] at hm
      simp only [Option.map_some', Option.some.injEq, Prod.mk.injEq] at hm
      exact ⟨e, he, by rw [hd, hm.1], hm.2⟩
  · rintro ⟨e, he, hd, hw⟩
    exact ⟨e, he, by rw [hd, ← hw]; rfl⟩

theorem redirectList_mono (g : Graph N E) (o n : N) (cn : Cell) (cur copy : List (Cell × E))
    (e : Cell × E) (he : e ∈ cur) : e ∈ redirectList g o n cn cur copy := by
  induction copy generalizing cur with
  | nil => exact he
  | cons e0 es ih =>
    simp only [redirectList]
    split
    · split
      · exact ih cur he
      · exact ih _ (List.mem_append_left _ he)
    · exact ih cur he

theorem redirectList_mem (g : Graph N E) (o : N) (xn : Node N E) (h : WF g)
    (hxn : xn ∈ g.nodes.toList) (cur copy : List (Cell × E)) (e : Cell × E) :
    e ∈ redirectList g o xn.value xn.cell cur copy ↔
      e ∈ cur ∨ (e.1 = xn.cell ∧ ∃ e0 ∈ copy, deref g e0.1 = some o ∧ e0.2 = e.2) := by
  induction copy generalizing cur with
  | nil => simp [redirectList]
  | cons e0 es ih =>
    simp only [redirectList]
    by_cases hd : deref g e0.1 = some o
    · simp only [hd, if_true]
      by_cases hm : (xn.value, e0.2) ∈ visible g cur
      · simp only [hm, if_true]
        rw [ih cur]
        constructor
        · rintro (h1 | ⟨h1, e1, he1, h2⟩)
          · exact Or.inl h1
          · exact Or.inr ⟨h1, e1, List.mem_cons_of_mem _ he1, h2⟩
        · rintro (h1 | ⟨h1, e1, he1, h2, h3⟩)
          · exact Or.inl h1
          · rcases List.mem_cons.mp he1 with rfl | he1
            · left
              obtain ⟨e2, he2, hd2, hw2⟩ := (visible_mem g cur xn.value e1.2).mp hm
              have hc := deref_inj g h e2.1 xn.cell xn.value hd2 (deref_of_mem g xn h.2.1 hxn)
              have : e = e2 := Prod.ext (h1.trans hc.symm) (h3.symm.trans hw2.symm)
              rw [this]; exact he2
            · exact Or.inr ⟨h1, e1, he1, h2, h3⟩
      · simp only [hm, if_false]
        rw [ih (cur ++ [(xn.cell, e0.2)])]
        simp only [List.mem_append, List.mem_singleton]
        constructor
        · rintro ((h1 | h1) | ⟨h1, e1, he1, h2⟩)
          · exact Or.inl h1
          · exact Or.inr ⟨by rw [h1], e0, by simp, hd, by rw [h1]⟩
          · exact Or.inr ⟨h1, e1, List.mem_cons_of_mem _ he1, h2⟩
        · rintro (h1 | ⟨h1, e1, he1, h2, h3⟩)
          · exact Or.inl (Or.inl h1)
          · rcases List.mem_cons.mp he1 with rfl | he1
            · exact Or.inl (Or.inr (Prod.ext h1 h3.symm))
            · exact Or.inr ⟨h1, e1, he1, h2, h3⟩
    · simp only [hd, if_false]
      rw [ih cur]
      constructor
      · rintro (h1 | ⟨h1, e1, he1, h2⟩)
        · exact Or.inl h1
        · exact Or.inr ⟨h1, e1, List.mem_cons_of_mem _ he1, h2⟩
      · rintro (h1 | ⟨h1, e1, he1, h2, h3⟩)
        · exact Or.inl h1
        · rcases List.mem_cons.mp he1 with rfl | he1
          · exact absurd h2 hd
          · exact Or.inr ⟨h1, e1, he1, h2, h3⟩

theorem redirectList_live (g : Graph N E) (o : N) (xn : Node N E) (h : WF g)
    (hxn : xn ∈ g.nodes.toList) (cur copy : List (Cell × E)) (hcur : ∀ e ∈ cur, Live g e) :
    ∀ e ∈ redirectList g o xn.value xn.cell cur copy, Live g e := by
  intro e he
  rcases (redirectList_mem g o xn h hxn cur copy e).mp he with h1 | ⟨h1, _⟩
  · exact hcur e h1
  · unfold Live
    rw [h1, deref_of_mem g xn h.2.1 hxn]
    rfl

theorem processEdges_mem (g : Graph N E) (o : N) (xn : Node N E) (h : WF g)
    (hxn : xn ∈ g.nodes.toList) (es : List (Cell × E)) (hes : ∀ e ∈ es, Live g e)
    (e : Cell × E) :
    e ∈ processEdges g o xn.value xn.cell es ↔
      e ∈ es ∨ (e.1 = xn.cell ∧ ∃ e0 ∈ es, deref g e0.1 = some o ∧ e0.2 = e.2) := by
  unfold processEdges
  have hlive := redirectList_live g o xn h hxn es es hes
  have hperm := listSort_perm (edgeComparator g) (redirectList g o xn.value xn.cell es es)
  rw [listUnique_mem, hperm.mem_iff, redirectList_mem g o xn h hxn]
  intro a ha b hb hab
  exact edgeEquals_eq g h a b (hlive a (hperm.mem_iff.mp ha)) (hlive b (hperm.mem_iff.mp hb)) hab

theorem processEdges_live (g : Graph N E) (o : N) (xn : Node N E) (h : WF g)
    (hxn : xn ∈ g.nodes.toList) (es : List (Cell × E)) (hes : ∀ e ∈ es, Live g e) :
    ∀ e ∈ processEdges g o xn.value xn.cell es, Live g e := by
  intro e he
  rcases (processEdges_mem g o xn h hxn es hes e).mp he with h1 | ⟨h1, _⟩
  · exact hes e h1
  · unfold Live
    rw [h1, deref_of_mem g xn h.2.1 hxn]
    rfl

theorem processEdges_strict (g : Graph N E) (o : N) (xn : Node N E) (h : WF g)
    (hxn : xn ∈ g.nodes.toList) (es : List (Cell × E)) (hes : ∀ e ∈ es, Live g e) :
    (processEdges g o xn.value xn.cell es).Pairwise (fun a b => ekey g a < ekey g b) := by
  unfold processEdges
  have hlive := redirectList_live g o xn h hxn es es hes
  have hperm := listSort_perm (edgeComparator g) (redirectList g o xn.value xn.cell es es)
  apply listUnique_strict (ekey g)
  · intro a ha b hb
    exact ekey_eq g a b (hlive a (hperm.mem_iff.mp ha)) (hlive b (hperm.mem_iff.mp hb))
  · exact listSort_sorted (edgeComparator g) (ekey g) (Live g) (ekey_lt g) _ hlive

theorem mergeVisit_eq (g : Graph N E) (o : N) (x xn : Node N E) (h : WF g)
    (hx : x ∈ g.nodes.toList) (hxn : xn ∈ g.nodes.toList) (hlive : ∀ e ∈ x.edges, Live g e) :
    mergeVisit o xn.value g x.cell
      = .ok (setEdges g x.cell (processEdges g o xn.value xn.cell x.edges)) := by
  unfold mergeVisit
  rw [(nodeAt_some_iff g x.cell x h.2.1).mpr ⟨hx, rfl⟩]
  have hred := redirectEdges_eq g o x xn h hx hxn x.edges x.edges hlive
  rw [setEdges_self g x h.2.1 hx] at hred
  simp only [hred]
  have hR := redirectList_live g o xn h hxn x.edges x.edges hlive
  have hwf1 : WF (setEdges g x.cell (redirectList g o xn.value xn.cell x.edges x.edges)) :=
    setEdges_WF g x.cell _ h (fun e he => live_lt_fresh g h e (hR e he))
  have hd := fun c => setEdges_deref g x.cell
    (redirectList g o xn.value xn.cell x.edges x.edges) c
  rw [edgeComparator_congr g _ hd, edgeEquals_congr g _ hd]
  have hms := modifyNode_setEdges
    (setEdges g x.cell (redirectList g o xn.value xn.cell x.edges x.edges))
    { x with edges := redirectList g o xn.value xn.cell x.edges x.edges }
    (fun es => listUnique (edgeEquals g) (listSort (edgeComparator g) es)) hwf1.2.1
    (setEdges_record g x _ hx)
  simp only at hms
  rw [hms, setEdges_setEdges]
  rfl

theorem mergeLoop_eq (o n : N) (cn : Cell) (cs : List Cell) (hcs : cs.Nodup) (g : Graph N E)
    (h : WF g) (hns : NoStale g)
    (hxn : ∃ xn ∈ g.nodes.toList, xn.value = n ∧ xn.cell = cn)
    (hsub : ∀ c ∈ cs, c ∈ g.nodes.toList.map Node.cell) :
    mergeLoop o n g cs
      = .ok (mapNodes g (fun x =>
          if x.cell ∈ cs then { x with edges := processEdges g o n cn x.edges } else x)) := by
  induction cs generalizing g with
  | nil =>
    simp only [mergeLoop, List.not_mem_nil, if_false, mapNodes]
    rw [tree_map_id _ _ (fun _ _ => rfl)]
  | cons c cs ih =>
    obtain ⟨xn, hxnm, hxnv, hxnc⟩ := hxn
    subst hxnv hxnc
    obtain ⟨x, hx, hxc⟩ := List.mem_map.mp (hsub c (by simp))
    subst hxc
    have hlive : ∀ e ∈ x.edges, Live g e := fun e he => hns x hx e he
    have hP := processEdges_live g o xn h hxnm x.edges hlive
    simp only [mergeLoop, mergeVisit_eq g o x xn h hx hxnm hlive]
    have hd := fun c => setEdges_deref g x.cell (processEdges g o xn.value xn.cell x.edges) c
    have hwf1 : WF (setEdges g x.cell (processEdges g o xn.value xn.cell x.edges)) :=
      setEdges_WF g x.cell _ h (fun e he => live_lt_fresh g h e (hP e he))
    have hns1 : NoStale (setEdges g x.cell (processEdges g o xn.value xn.cell x.edges)) := by
      intro y hy e he
      rw [hd]
      obtain ⟨y0, hy0, rfl⟩ := (setEdges_mem g x.cell _ y).mp hy
      by_cases hc : y0.cell = x.cell
      · simp only [hc, if_true] at he
        exact hP e he
      · simp only [hc, if_false] at he
        exact hns y0 hy0 e he
    have hxn1 : ∃ xn' ∈ (setEdges g x.cell
        (processEdges g o xn.value xn.cell x.edges)).nodes.toList,
        xn'.value = xn.value ∧ xn'.cell = xn.cell := by
      obtain ⟨y, hy, hyc, hyv⟩ := setEdges_other g x.cell
        (processEdges g o xn.value xn.cell x.edges) xn hxnm
      exact ⟨y, hy, hyv, hyc⟩
    have hsub1 : ∀ c ∈ cs, c ∈ (setEdges g x.cell
        (processEdges g o xn.value xn.cell x.edges)).nodes.toList.map Node.cell := by
      intro c hc
      rw [setEdges_eq, mapNodes_cells g _ (setEdges_keeps _ _)]
      exact hsub c (by simp [hc])
    rw [ih (List.nodup_cons.mp hcs).2 _ hwf1 hns1 hxn1 hsub1]
    have hp : processEdges (setEdges g x.cell (processEdges g o xn.value xn.cell x.edges))
        o xn.value xn.cell = processEdges g o xn.value xn.cell :=
      funext (fun es => processEdges_congr g _ hd o xn.value xn.cell es)
    rw [hp]
    simp only [setEdges_eq, mapNodes]
    rw [tree_map_map]
    congr 2
    apply tree_map_congr
    intro y hy
    by_cases hc : y.cell = x.cell
    · have hyx := node_eq_of_cell g y x h.2.1 hy hx hc
      subst hyx
      have hnot : y.cell ∉ cs := (List.nodup_cons.mp hcs).1
      simp [hnot]
    · simp [hc]

theorem prelude_eq (g : Graph N E) (xo xn : Node N E) (h : WF g)
    (hxo : xo ∈ g.nodes.toList) (hxn : xn ∈ g.nodes.toList) (hne : xo.cell ≠ xn.cell) :
    spliceEdges (sortEdges (sortEdges g xn.cell) xo.cell) xo.cell xn.cell
        (match nodeAt (sortEdges (sortEdges g xn.cell) xo.cell) xo.cell with
          | some m => m.edges
          | none => [])
      = mapNodes g (fun x => { x with edges := preludeEdges g xo xn x }) := by
  have hne2 : xn.cell ≠ xo.cell := fun e => hne e.symm
  -- first sort
  have h1 : sortEdges g xn.cell = setEdges g xn.cell (listSort (edgeComparator g) xn.edges) :=
    modifyNode_setEdges g xn (fun es => listSort (edgeComparator g) es) h.2.1 hxn
  have hlt : ∀ (l : List (Cell × E)), (∀ e ∈ l, e.1 < g.fresh) →
      ∀ e ∈ listSort (edgeComparator g) l, e.1 < g.fresh :=
    fun l hl e he => hl e ((listSort_perm _ l).mem_iff.mp he)
  have hwf1 : WF (setEdges g xn.cell (listSort (edgeComparator g) xn.edges)) :=
    setEdges_WF g _ _ h (hlt _ (h.2.2.2 xn hxn))
  have hd1 := fun c => setEdges_deref g xn.cell (listSort (edgeComparator g) xn.edges) c
  have hxo1 : xo ∈ (setEdges g xn.cell (listSort (edgeComparator g) xn.edges)).nodes.toList :=
    (setEdges_mem g _ _ xo).mpr ⟨xo, hxo, by simp [hne]⟩
  -- second sort
  have h2 : sortEdges (setEdges g xn.cell (listSort (edgeComparator g) xn.edges)) xo.cell
      = setEdges (setEdges g xn.cell (listSort (edgeComparator g) xn.edges)) xo.cell
          (listSort (edgeComparator g) xo.edges) := by
    unfold sortEdges
    rw [edgeComparator_congr g _ hd1]
    exact modifyNode_setEdges _ xo (fun es => listSort (edgeComparator g) es) hwf1.2.1 hxo1
  have hwf2 : WF (setEdges (setEdges g xn.cell (listSort (edgeComparator g) xn.edges)) xo.cell
      (listSort (edgeComparator g) xo.edges)) :=
    setEdges_WF _ _ _ hwf1 (hlt _ (h.2.2.2 xo hxo))
  have hd2 : ∀ c, deref (setEdges (setEdges g xn.cell (listSort (edgeComparator g) xn.edges))
      xo.cell (listSort (edgeComparator g) xo.edges)) c = deref g c :=
    fun c => (setEdges_deref _ _ _ c).trans (hd1 c)
  have hxo2 := setEdges_record (setEdges g xn.cell (listSort (edgeComparator g) xn.edges)) xo
    (listSort (edgeComparator g) xo.edges) hxo1
  have hxn2 : ({ xn with edges := listSort (edgeComparator g) xn.edges } : Node N E) ∈
      (setEdges (setEdges g xn.cell (listSort (edgeComparator g) xn.edges)) xo.cell
        (listSort (edgeComparator g) xo.edges)).nodes.toList :=
    (setEdges_mem _ _ _ _).mpr ⟨_, setEdges_record g xn _ hxn, by simp [hne2]⟩
  rw [h1, h2, (nodeAt_some_iff _ xo.cell _ hwf2.2.1).mpr ⟨hxo2, rfl⟩]
  unfold spliceEdges
  rw [if_neg hne, edgeComparator_congr g _ hd2]
  have h3 := modifyNode_setEdges _ { xn with edges := listSort (edgeComparator g) xn.edges }
    (fun es => listMerge (edgeComparator g) es (listSort (edgeComparator g) xo.edges))
    hwf2.2.1 hxn2
  simp only at h3
  rw [h3]
  show setEdges _ xo.cell [] = _
  simp only [setEdges_eq, mapNodes]
  rw [tree_map_map, tree_map_map, tree_map_map]
  congr 1
  apply tree_map_congr
  intro y _
  unfold preludeEdges
  by_cases hyo : y.cell = xo.cell
  · have hyn : ¬ y.cell = xn.cell := fun e => hne (hyo.symm.trans e)
    simp [hyo, hyn, hne]
  · by_cases hyn : y.cell = xn.cell
    · simp [hyo, hyn, hne2]
    · simp [hyo, hyn]

theorem allEdges_mem (g : Graph N E) (s d : N) (w : E) :
    (s, d, w) ∈ allEdges g ↔
      ∃ x ∈ g.nodes.toList, x.value = s ∧ ∃ e ∈ x.edges, deref g e.1 = some d ∧ e.2 = w := by
  unfold allEdges
  rw [List.mem_flatMap]
  constructor
  · rintro ⟨x, hx, hm⟩
    obtain ⟨p, hp, hpe⟩ := List.mem_map.mp hm
    simp only [Prod.mk.injEq] at hpe
    obtain ⟨h1, h2, h3⟩ := hpe
    have : (d, w) ∈ visible g x.edges := by
      have hpp : p = (d, w) := Prod.ext h2 h3
      rw [← hpp]; exact hp
    exact ⟨x, hx, h1, (visible_mem g x.edges d w).mp this⟩
  · rintro ⟨x, hx, hv, he⟩
    refine ⟨x, hx, List.mem_map.mpr ⟨(d, w), (visible_mem g x.edges d w).mpr he, ?_⟩⟩
    rw [hv]

theorem preludeEdges_mem (g : Graph N E) (xo xn x : Node N E) (e : Cell × E) :
    e ∈ preludeEdges g xo xn x ↔
      x.cell ≠ xo.cell ∧
        ((x.cell = xn.cell ∧ (e ∈ xn.edges ∨ e ∈ xo.edges)) ∨
          (x.cell ≠ xn.cell ∧ e ∈ x.edges)) := by
  unfold preludeEdges
  by_cases h1 : x.cell = xo.cell
  · simp [h1]
  · by_cases h2 : x.cell = xn.cell
    · rw [if_neg h1, if_pos h2, (listMerge_perm _ _ _).mem_iff, List.mem_append,
        (listSort_perm _ _).mem_iff, (listSort_perm _ _).mem_iff]
      constructor
      · intro h3; exact ⟨h1, Or.inl ⟨h2, h3⟩⟩
      · rintro ⟨_, (⟨_, h3⟩ | ⟨h3, _⟩)⟩
        · exact h3
        · exact absurd h2 h3
    · simp [h1, h2]

theorem preludeEdges_live (g : Graph N E) (xo xn x : Node N E) (hns : NoStale g)
    (hxo : xo ∈ g.nodes.toList) (hxn : xn ∈ g.nodes.toList) (hx : x ∈ g.nodes.toList) :
    ∀ e ∈ preludeEdges g xo xn x, Live g e := by
  intro e he
  rcases (preludeEdges_mem g xo xn x e).mp he with ⟨_, (⟨_, h1 | h1⟩ | ⟨_, h1⟩)⟩
  · exact hns xn hxn e h1
  · exact hns xo hxo e h1
  · exact hns x hx e h1

theorem mergedNode_keeps (g : Graph N E) (o : N) (xo xn : Node N E) :
    KeepsKeys (mergedNode g o xo xn) := fun _ => ⟨rfl, rfl⟩

theorem prelude_keeps (g : Graph N E) (xo xn : Node N E) :
    KeepsKeys (fun x : Node N E => { x with edges := preludeEdges g xo xn x }) :=
  fun _ => ⟨rfl, rfl⟩

theorem MergeReplace_eq (g : Graph N E) (xo xn : Node N E) (h : WF g) (hns : NoStale g)
    (hxo : xo ∈ g.nodes.toList) (hxn : xn ∈ g.nodes.toList) (hne : xo.cell ≠ xn.cell) :
    MergeReplace g xo.value xn.value
      = .ok (DeleteNode (mapNodes g (mergedNode g xo.value xo xn)) xo.value).1 := by
  have hfo := (mapFind_some_iff g.nodes xo.value xo h.1).mpr ⟨hxo, rfl⟩
  have hfn := (mapFind_some_iff g.nodes xn.value xn h.1).mpr ⟨hxn, rfl⟩
  unfold MergeReplace
  simp only [IsNode_eq, hfo, hfn, Option.isSome_some, Bool.not_true, Bool.or_self,
    Bool.false_eq_true, if_false]
  rw [prelude_eq g xo xn h hxo hxn hne]
  have hk := prelude_keeps g xo xn
  have hd3 := fun c => mapNodes_deref g _ hk c
  have hwf3 : WF (mapNodes g (fun x => { x with edges := preludeEdges g xo xn x })) := by
    apply mapNodes_WF g _ hk h
    intro y hy e he
    exact live_lt_fresh g h e (preludeEdges_live g xo xn y hns hxo hxn hy e he)
  have hns3 : NoStale (mapNodes g (fun x => { x with edges := preludeEdges g xo xn x })) := by
    intro y hy e he
    rw [mapNodes_toList] at hy
    obtain ⟨y0, hy0, rfl⟩ := List.mem_map.mp hy
    rw [hd3]
    exact preludeEdges_live g xo xn y0 hns hxo hxn hy0 e he
  have hxn3 : ∃ xn' ∈ (mapNodes g (fun x =>
      { x with edges := preludeEdges g xo xn x })).nodes.toList,
      xn'.value = xn.value ∧ xn'.cell = xn.cell := by
    refine ⟨{ xn with edges := preludeEdges g xo xn xn }, ?_, rfl, rfl⟩
    rw [mapNodes_toList]
    exact List.mem_map.mpr ⟨xn, hxn, rfl⟩
  rw [mergeLoop_eq xo.value xn.value xn.cell _ hwf3.2.1 _ hwf3 hns3 hxn3 (fun c hc => hc)]
  have hp : processEdges (mapNodes g (fun x => { x with edges := preludeEdges g xo xn x }))
      xo.value xn.value xn.cell = processEdges g xo.value xn.value xn.cell :=
    funext (fun es => processEdges_congr g _ hd3 xo.value xn.value xn.cell es)
  rw [hp]
  simp only
  congr 3
  simp only [mapNodes]
  rw [tree_map_map]
  congr 1
  apply tree_map_congr
  intro y hy
  have hmem : y.cell ∈ List.map Node.cell
      (Tree.map (fun x => { x with edges := preludeEdges g xo xn x }) g.nodes).toList := by
    rw [toList_map, List.map_map]
    exact List.mem_map.mpr ⟨y, hy, rfl⟩
  simp only [hmem, if_true]
  rfl

theorem prelude_source (g : Graph N E) (xo xn x : Node N E) (h : WF g)
    (hxo : xo ∈ g.nodes.toList) (hxn : xn ∈ g.nodes.toList) (hx : x ∈ g.nodes.toList)
    (hne : xo.cell ≠ xn.cell) (e : Cell × E) (he : e ∈ preludeEdges g xo xn x) :
    ∃ x0 ∈ g.nodes.toList, e ∈ x0.edges ∧
      (if x0.value = xo.value then xn.value else x0.value) = x.value := by
  have hvne : xn.value ≠ xo.value := fun e2 =>
    hne ((cell_eq_iff_value_eq g h xo xn hxo hxn).mpr e2.symm)
  rcases (preludeEdges_mem g xo xn x e).mp he with ⟨hc, (⟨hxcn, h2 | h2⟩ | ⟨_, h2⟩)⟩
  · have := node_eq_of_cell g x xn h.2.1 hx hxn hxcn
    subst this
    exact ⟨x, hx, h2, by rw [if_neg hvne]⟩
  · have := node_eq_of_cell g x xn h.2.1 hx hxn hxcn
    subst this
    exact ⟨xo, hxo, h2, by rw [if_pos rfl]⟩
  · have hv : x.value ≠ xo.value := fun e2 =>
      hc ((cell_eq_iff_value_eq g h x xo hx hxo).mpr e2)
    exact ⟨x, hx, h2, by rw [if_neg hv]⟩

theorem prelude_target (g : Graph N E) (xo xn x0 : Node N E) (h : WF g)
    (hxo : xo ∈ g.nodes.toList) (hxn : xn ∈ g.nodes.toList) (hx0 : x0 ∈ g.nodes.toList)
    (hne : xo.cell ≠ xn.cell) (e : Cell × E) (he : e ∈ x0.edges) :
    ∃ x ∈ g.nodes.toList, x.cell ≠ xo.cell ∧
      x.value = (if x0.value = xo.value then xn.value else x0.value) ∧
      e ∈ preludeEdges g xo xn x := by
  have hne2 : xn.cell ≠ xo.cell := fun e2 => hne e2.symm
  by_cases hv : x0.value = xo.value
  · have hc := (cell_eq_iff_value_eq g h x0 xo hx0 hxo).mpr hv
    have := node_eq_of_cell g x0 xo h.2.1 hx0 hxo hc
    subst this
    refine ⟨xn, hxn, hne2, by rw [if_pos rfl], ?_⟩
    exact (preludeEdges_mem g x0 xn xn e).mpr ⟨hne2, Or.inl ⟨rfl, Or.inr he⟩⟩
  · have hc : x0.cell ≠ xo.cell := fun e2 =>
      hv ((cell_eq_iff_value_eq g h x0 xo hx0 hxo).mp e2)
    refine ⟨x0, hx0, hc, by rw [if_neg hv], ?_⟩
    by_cases hcn : x0.cell = xn.cell
    · have := node_eq_of_cell g x0 xn h.2.1 hx0 hxn hcn
      subst this
      exact (preludeEdges_mem g xo x0 x0 e).mpr ⟨hc, Or.inl ⟨rfl, Or.inl he⟩⟩
    · exact (preludeEdges_mem g xo xn x0 e).mpr ⟨hc, Or.inr ⟨hcn, he⟩⟩

end MergeLemmas

/-! ## `InsertEdge` on an edge list without expired entries -/

section InsertEdgeLemmas

variable {N E : Type} [LinearOrder N] [LinearOrder E]

/-- On a well-formed graph, when the edge list of the source holds no expired entry,
`InsertEdge` returns; the result is true exactly when the edge was not visible; a false result
leaves the graph as it is; a true result appends the edge to the visible edges of the source and
leaves the visible edges of every other node as they were. -/
theorem InsertEdge_live (g : Graph N E) (s d : Node N E) (w : E) (h : WF g)
    (hs : s ∈ g.nodes.toList) (hd : d ∈ g.nodes.toList)
    (hlive : ∀ e ∈ s.edges, Live g e) :
    ∃ g' b, InsertEdge g s.value d.value w = .ok (g', b) ∧
      (b = true ↔ (d.value, w) ∉ edgesFrom g s.value) ∧
      (b = false → g' = g) ∧
      (b = true → edgesFrom g' s.value = edgesFrom g s.value ++ [(d.value, w)]) ∧
      (∀ u, u ≠ s.value → edgesFrom g' u = edgesFrom g u) ∧
      (∀ u, IsNode g' u = IsNode g u) ∧
      WF g' := by
  have hfs := (mapFind_some_iff g.nodes s.value s h.1).mpr ⟨hs, rfl⟩
  have hef : edgesFrom g s.value = visible g s.edges := by
    unfold edgesFrom; rw [hfs]
  by_cases hm : (d.value, w) ∈ visible g s.edges
  · refine ⟨g, false, ?_, ?_, fun _ => rfl, ?_, fun _ _ => rfl, fun _ => rfl, h⟩
    · rw [InsertEdge_eq g s d w h hs hd hlive, if_pos hm]
    · rw [hef]; simp [hm]
    · intro hb; exact absurd hb (by simp)
  · have hk := setEdges_keeps (N := N) s.cell (s.edges ++ [(d.cell, w)])
    have hdr := fun c => setEdges_deref g s.cell (s.edges ++ [(d.cell, w)]) c
    have hwf : WF (setEdges g s.cell (s.edges ++ [(d.cell, w)])) := by
      apply setEdges_WF g _ _ h
      intro e he
      rcases List.mem_append.mp he with h1 | h1
      · exact h.2.2.2 s hs e h1
      · simp only [List.mem_singleton] at h1
        subst h1
        exact h.2.2.1 d hd
    have hfind : ∀ u, mapFind (setEdges g s.cell (s.edges ++ [(d.cell, w)])).nodes u
        = (mapFind g.nodes u).map
            (fun n => if n.cell = s.cell then { n with edges := s.edges ++ [(d.cell, w)] }
              else n) :=
      fun u => mapFind_map g.nodes _ hk u
    refine ⟨setEdges g s.cell (s.edges ++ [(d.cell, w)]), true, ?_, ?_, ?_, ?_, ?_, ?_, hwf⟩
    · rw [InsertEdge_eq g s d w h hs hd hlive, if_neg hm]
    · rw [hef]; simp [hm]
    · intro hb; exact absurd hb (by simp)
    · intro _
      unfold edgesFrom
      rw [hfind, hfs]
      simp only [Option.map_some', if_true]
      rw [visible_congr_all g _ hdr, visible_append]
      congr 1
      unfold visible
      simp [deref_of_mem g d h.2.1 hd]
    · intro u hu
      unfold edgesFrom
      rw [hfind]
      cases hf : mapFind g.nodes u with
      | none => rfl
      | some x =>
        obtain ⟨hx, hxv⟩ := (mapFind_some_iff g.nodes u x h.1).mp hf
        have hc : x.cell ≠ s.cell := fun e =>
          hu (hxv.symm.trans ((cell_eq_iff_value_eq g h x s hx hs).mp e))
        simp only [Option.map_some', hc, if_false]
        exact visible_congr_all g _ hdr x.edges
    · intro u
      exact mapNodes_IsNode g _ hk u

end InsertEdgeLemmas

/-! ## `erase(src, dst, w)` -/

section EraseLemmas

variable {N E : Type} [LinearOrder N] [LinearOrder E]

theorem eraseScan_visible (g : Graph N E) (dst : N) (w : E) (es : List (Cell × E)) :
    visible g (eraseScan g dst w es).1 = (visible g es).erase (dst, w) ∧
      ((eraseScan g dst w es).2 = true ↔ (dst, w) ∈ visible g es) := by
  induction es with
  | nil => simp [eraseScan, visible]
  | cons e es ih =>
    unfold visible at ih ⊢
    cases hd : deref g e.1 with
    | none => simpa [eraseScan, hd] using ih
    | some v =>
      by_cases hm : v = dst ∧ e.2 = w
      · obtain ⟨rfl, rfl⟩ := hm
        simp [eraseScan, hd]
      · have hne : ¬ ((v, e.2) = (dst, w)) := fun e2 => hm (by
          simp only [Prod.mk.injEq] at e2; exact e2)
        have hne2 : ¬ ((dst, w) = (v, e.2)) := fun e2 => hne e2.symm
        simp only [eraseScan, hd, hm, if_false, List.filterMap_cons, Option.map_some',
          List.mem_cons, hne2, false_or]
        rw [List.erase_cons_tail (by simpa using hne)]
        exact ⟨by rw [ih.1], ih.2⟩

theorem eraseScan_sublist (g : Graph N E) (dst : N) (w : E) (es : List (Cell × E)) :
    (eraseScan g dst w es).1.Sublist es := by
  induction es with
  | nil => simp [eraseScan]
  | cons e es ih =>
    simp only [eraseScan]
    split
    · exact ih.trans (List.sublist_cons_self _ _)
    · split
      · exact List.sublist_cons_self _ _
      · exact List.Sublist.cons₂ _ ih

theorem erase_absent (g : Graph N E) (src dst : N) (w : E)
    (h : IsNode g src = false ∨ IsNode g dst = false) : erase g src dst w = (g, false) := by
  unfold erase
  rcases h with h | h <;> simp [h]

theorem erase_eq (g : Graph N E) (s : Node N E) (dst : N) (w : E) (h : WF g)
    (hs : s ∈ g.nodes.toList) (hd : IsNode g dst = true) :
    erase g s.value dst w
      = (setEdges g s.cell (eraseScan g dst w s.edges).1, (eraseScan g dst w s.edges).2) := by
  have hfs := (mapFind_some_iff g.nodes s.value s h.1).mpr ⟨hs, rfl⟩
  unfold erase
  simp only [IsNode_eq, hfs, Option.isSome_some, Bool.not_true, Bool.false_or]
  rw [← IsNode_eq, hd]
  simp only [Bool.not_true, Bool.false_eq_true, if_false]
  rw [modifyNode_setEdges g s (fun es => (eraseScan g dst w es).1) h.2.1 hs]

theorem setEdges_edgesFrom_self (g : Graph N E) (s : Node N E) (es : List (Cell × E))
    (h : WF g) (hs : s ∈ g.nodes.toList) :
    edgesFrom (setEdges g s.cell es) s.value = visible g es := by
  unfold edgesFrom
  rw [setEdges_eq]
  show (match mapFind (g.nodes.map _) s.value with
    | some s => visible _ s.edges
    | none => []) = _
  rw [mapFind_map g.nodes _ (setEdges_keeps s.cell es) s.value,
    (mapFind_some_iff g.nodes s.value s h.1).mpr ⟨hs, rfl⟩]
  simp only [Option.map_some', if_true]
  exact visible_congr_all g _ (fun c => setEdges_deref g s.cell es c) es

theorem setEdges_edgesFrom_other (g : Graph N E) (s : Node N E) (es : List (Cell × E))
    (h : WF g) (hs : s ∈ g.nodes.toList) (u : N) (hu : u ≠ s.value) :
    edgesFrom (setEdges g s.cell es) u = edgesFrom g u := by
  unfold edgesFrom
  rw [setEdges_eq]
  show (match mapFind (g.nodes.map _) u with
    | some s => visible _ s.edges
    | none => []) = _
  rw [mapFind_map g.nodes _ (setEdges_keeps s.cell es) u]
  cases hf : mapFind g.nodes u with
  | none => rfl
  | some x =>
    obtain ⟨hx, hxv⟩ := (mapFind_some_iff g.nodes u x h.1).mp hf
    have hc : x.cell ≠ s.cell := fun e =>
      hu (hxv.symm.trans ((cell_eq_iff_value_eq g h x s hx hs).mp e))
    simp only [Option.map_some', hc, if_false]
    exact visible_congr_all g _ (fun c => setEdges_deref g s.cell es c) x.edges

theorem setEdges_IsNode (g : Graph N E) (c : Cell) (es : List (Cell × E)) (u : N) :
    IsNode (setEdges g c es) u = IsNode g u :=
  mapNodes_IsNode g _ (setEdges_keeps c es) u

theorem setEdges_GetNodes (g : Graph N E) (c : Cell) (es : List (Cell × E)) :
    GetNodes (setEdges g c es) = GetNodes g := by
  unfold GetNodes
  rw [setEdges_eq, mapNodes_values g _ (setEdges_keeps c es)]

theorem edgesFrom_of_mem (g : Graph N E) (s : Node N E) (h : WF g) (hs : s ∈ g.nodes.toList) :
    edgesFrom g s.value = visible g s.edges := by
  unfold edgesFrom
  rw [(mapFind_some_iff g.nodes s.value s h.1).mpr ⟨hs, rfl⟩]

theorem edgesFrom_absent (g : Graph N E) (u : N) (h : IsNode g u = false) :
    edgesFrom g u = [] := by
  unfold edgesFrom
  rw [IsNode_eq] at h
  cases hf : mapFind g.nodes u with
  | none => rfl
  | some x => rw [hf] at h; simp at h

end EraseLemmas

/-! ## Rendering -/

section RenderLemmas

variable {N E : Type} [LinearOrder N] [LinearOrder E] (showN : N → String) (showE : E → String)

theorem renderEdges_eq (g : Graph N E) (es : List (Cell × E)) :
    renderEdges showN showE g es = concatAll ((visible g es).map (edgeLine showN showE)) := by
  induction es with
  | nil => rfl
  | cons e es ih =>
    unfold visible at ih ⊢
    cases hd : deref g e.1 with
    | none => simpa [renderEdges, hd] using ih
    | some d =>
      simp only [renderEdges, hd, List.filterMap_cons, Option.map_some', List.map_cons, concatAll,
        ih, edgeLine]

theorem printedBlock_congr (g g1 : Graph N E) (h : ∀ c, deref g1 c = deref g c) (n : Node N E) :
    printedBlock showN showE g1 n = printedBlock showN showE g n := by
  unfold printedBlock
  rw [renderEdges_eq, renderEdges_eq, edgeComparator_congr g g1 h, visible_congr_all g g1 h]

theorem renderNode_eq (g : Graph N E) (n : Node N E) (h : WF g) (hn : n ∈ g.nodes.toList) :
    renderNode showN showE g n.cell
      = (setEdges g n.cell
          (List.filter (fun e => !expired g e.1) (listSort (edgeComparator g) n.edges)),
        printedBlock showN showE g n) := by
  unfold renderNode
  rw [(nodeAt_some_iff g n.cell n h.2.1).mpr ⟨hn, rfl⟩]
  simp only
  rw [modifyNode_setEdges g n
    (fun es => List.filter (fun e => !expired g e.1) (listSort (edgeComparator g) es)) h.2.1 hn]
  rfl

theorem renderLoop_eq (ns : List (Node N E)) :
    ∀ g : Graph N E, WF g → (∀ n ∈ ns, n ∈ g.nodes.toList) → (ns.map Node.cell).Nodup →
      (renderLoop showN showE g (ns.map Node.cell)).2
        = concatAll (ns.map (printedBlock showN showE g)) := by
  induction ns with
  | nil => intro g _ _ _; rfl
  | cons n ns ih =>
    intro g h hmem hnd
    have hn := hmem n (by simp)
    simp only [List.map_cons, List.nodup_cons] at hnd
    simp only [List.map_cons, renderLoop, concatAll]
    rw [renderNode_eq showN showE g n h hn]
    simp only
    have hwf : WF (setEdges g n.cell
        (List.filter (fun e => !expired g e.1) (listSort (edgeComparator g) n.edges))) := by
      apply setEdges_WF g _ _ h
      intro e he
      have he1 := (List.mem_filter.mp he).1
      exact h.2.2.2 n hn e ((listSort_perm (edgeComparator g) n.edges).mem_iff.mp he1)
    rw [ih _ hwf ?_ hnd.2]
    · congr 2
      apply List.map_congr_left
      intro m _
      exact printedBlock_congr showN showE g _ (fun c => setEdges_deref g _ _ c) m
    · intro m hm
      rw [setEdges_mem]
      refine ⟨m, hmem m (by simp [hm]), ?_⟩
      have : m.cell ≠ n.cell := fun e => hnd.1 (e ▸ List.mem_map_of_mem _ hm)
      simp [this]

theorem render_eq (g : Graph N E) (h : WF g) :
    (render showN showE g).2 = concatAll (g.nodes.toList.map (printedBlock showN showE g)) :=
  renderLoop_eq showN showE g.nodes.toList g h (fun _ hn => hn) h.2.1

theorem lexLE_total (a b : N × E) : lexLE a b ∨ lexLE b a := by
  unfold lexLE
  rcases lt_trichotomy a.1 b.1 with h | h | h
  · exact Or.inl (Or.inl h)
  · rcases le_total a.2 b.2 with h2 | h2
    · exact Or.inl (Or.inr ⟨h, h2⟩)
    · exact Or.inr (Or.inr ⟨h.symm, h2⟩)
  · exact Or.inr (Or.inl h)

theorem lexLE_trans (a b c : N × E) (h1 : lexLE a b) (h2 : lexLE b c) : lexLE a c := by
  unfold lexLE at *
  rcases h1 with h1 | ⟨h1, h1w⟩
  · rcases h2 with h2 | ⟨h2, _⟩
    · exact Or.inl (lt_trans h1 h2)
    · exact Or.inl (h2 ▸ h1)
  · rcases h2 with h2 | ⟨h2, h2w⟩
    · exact Or.inl (h1 ▸ h2)
    · exact Or.inr ⟨h1.trans h2, le_trans h1w h2w⟩

theorem lexLE_antisymm (a b : N × E) (h1 : lexLE a b) (h2 : lexLE b a) : a = b := by
  unfold lexLE at *
  rcases h1 with h1 | ⟨h1, h1w⟩
  · rcases h2 with h2 | ⟨h2, _⟩
    · exact absurd h2 (not_lt_of_lt h1)
    · exact absurd h1 (h2 ▸ lt_irrefl _)
  · rcases h2 with h2 | ⟨_, h2w⟩
    · exact absurd h2 (h1 ▸ lt_irrefl _)
    · exact Prod.ext h1 (le_antisymm h1w h2w)

theorem sorted_lexLE_unique (l1 l2 : List (N × E)) (hp : l1.Perm l2)
    (h1 : l1.Pairwise lexLE) (h2 : l2.Pairwise lexLE) : l1 = l2 := by
  haveI : IsAntisymm (N × E) lexLE := ⟨lexLE_antisymm⟩
  exact List.eq_of_perm_of_sorted hp h1 h2

theorem insertionSort_lexLE_sorted (l : List (N × E)) :
    (l.insertionSort lexLE).Pairwise lexLE := by
  haveI : IsTotal (N × E) lexLE := ⟨lexLE_total⟩
  haveI : IsTrans (N × E) lexLE := ⟨lexLE_trans⟩
  exact List.sorted_insertionSort lexLE l

theorem ekey_le (g : Graph N E) (a b : Cell × E) (va vb : N)
    (ha : deref g a.1 = some va) (hb : deref g b.1 = some vb) :
    ekey g a ≤ ekey g b ↔ lexLE (va, a.2) (vb, b.2) := by
  unfold ekey lexLE
  rw [Prod.Lex.le_iff]
  simp only [ha, hb]
  show ((va : WithBot N) < (vb : WithBot N) ∨ (va : WithBot N) = (vb : WithBot N) ∧ a.2 ≤ b.2) ↔ _
  rw [WithBot.coe_lt_coe, WithBot.coe_inj]

theorem visible_sortedBy (g : Graph N E) (es : List (Cell × E)) (hs : SortedBy (ekey g) es) :
    (visible g es).Pairwise lexLE := by
  unfold visible
  refine List.Pairwise.filterMap _ ?_ hs
  intro a b hab p hp q hq
  cases ha : deref g a.1 with
  | none => rw [ha] at hp; simp at hp
  | some va =>
    cases hb : deref g b.1 with
    | none => rw [hb] at hq; simp at hq
    | some vb =>
      rw [ha] at hp
      rw [hb] at hq
      simp only [Option.map_some', Option.mem_def, Option.some.injEq] at hp hq
      rw [← hp, ← hq]
      exact (ekey_le g a b va vb ha hb).mp hab

theorem listSort_live_sorted (g : Graph N E) (es : List (Cell × E)) (hl : ∀ e ∈ es, Live g e) :
    SortedBy (ekey g) (listSort (edgeComparator g) es) :=
  listSort_sorted (edgeComparator g) (ekey g) (Live g) (fun a b ha hb => ekey_lt g a b ha hb) es hl

theorem visible_listSort (g : Graph N E) (es : List (Cell × E)) (hl : ∀ e ∈ es, Live g e) :
    visible g (listSort (edgeComparator g) es) = (visible g es).insertionSort lexLE := by
  apply sorted_lexLE_unique
  · exact ((listSort_perm (edgeComparator g) es).filterMap _).trans
      (List.perm_insertionSort lexLE _).symm
  · exact visible_sortedBy g _ (listSort_live_sorted g es hl)
  · exact insertionSort_lexLE_sorted _

theorem printedBlock_eq (g : Graph N E) (h : WF g) (hs : NoStale g) (n : Node N E)
    (hn : n ∈ g.nodes.toList) :
    printedBlock showN showE g n = nodeBlock showN showE g n.value := by
  unfold printedBlock nodeBlock sortedEdgesFrom
  rw [renderEdges_eq, visible_listSort g n.edges (hs n hn), edgesFrom_of_mem g n h hn]

theorem render_canonical (g : Graph N E) (h : WF g) (hs : NoStale g) :
    (render showN showE g).2 = canonical showN showE g := by
  rw [render_eq showN showE g h]
  unfold canonical
  rw [GetNodes_eq g h.1, List.map_map]
  congr 1
  apply List.map_congr_left
  intro n hn
  exact printedBlock_eq showN showE g h hs n hn

end RenderLemmas

/-! ## Graphs built by insertions -/

section BuildLemmas

variable {N E : Type} [LinearOrder N] [LinearOrder E]

theorem clean_empty : Clean (emptyGraph : Graph N E) := by
  refine ⟨⟨?_, ?_, ?_, ?_⟩, ?_, ?_⟩ <;> simp [emptyGraph, Ascending, NoStale, Tree.toList]

theorem IsNode_empty (u : N) : IsNode (emptyGraph : Graph N E) u = false := rfl

theorem edgesFrom_empty (u : N) : edgesFrom (emptyGraph : Graph N E) u = [] := rfl

theorem InsertNode_old_deref (g : Graph N E) (v : N) (h : WF g) (c : Cell) (hc : c < g.fresh) :
    deref (InsertNode g v).1 c = deref g c := by
  cases hv : IsNode g v with
  | true => rw [InsertNode_old g v hv]
  | false =>
    rw [InsertNode_deref g v h hv c]
    have : c ≠ g.fresh := Nat.ne_of_lt hc
    simp [this]

theorem InsertNode_visible (g : Graph N E) (v : N) (h : WF g) (x : Node N E)
    (hx : x ∈ g.nodes.toList) : visible (InsertNode g v).1 x.edges = visible g x.edges :=
  visible_congr g _ x.edges (fun e he => InsertNode_old_deref g v h e.1 (h.2.2.2 x hx e he))

theorem InsertNode_edgesFrom (g : Graph N E) (v : N) (h : WF g) (u : N) :
    edgesFrom (InsertNode g v).1 u = edgesFrom g u := by
  cases hv : IsNode g v with
  | true => rw [InsertNode_old g v hv]
  | false =>
    unfold edgesFrom
    by_cases hu : u = v
    · subst hu
      have hnone : mapFind g.nodes u = none := by
        rw [IsNode_eq] at hv
        cases hf : mapFind g.nodes u with
        | none => rfl
        | some x => rw [hf] at hv; simp at hv
      rw [InsertNode_mapFind_new g u h hv, hnone]
      rfl
    · rw [InsertNode_mapFind_other g v h hv u hu]
      cases hf : mapFind g.nodes u with
      | none => rfl
      | some x =>
        exact InsertNode_visible g v h x ((mapFind_some_iff g.nodes u x h.1).mp hf).1

theorem InsertNode_IsNode (g : Graph N E) (v : N) (h : WF g) (u : N) :
    IsNode (InsertNode g v).1 u = true ↔ (IsNode g u = true ∨ u = v) := by
  cases hv : IsNode g v with
  | true =>
    rw [InsertNode_old g v hv]
    constructor
    · exact Or.inl
    · rintro (h1 | rfl)
      · exact h1
      · exact hv
  | false =>
    by_cases hu : u = v
    · subst hu
      rw [IsNode_eq, InsertNode_mapFind_new g u h hv]
      simp
    · rw [IsNode_eq, IsNode_eq, InsertNode_mapFind_other g v h hv u hu]
      simp [hu]

theorem InsertNode_clean (g : Graph N E) (v : N) (h : Clean g) : Clean (InsertNode g v).1 := by
  obtain ⟨hwf, hns, hnd⟩ := h
  cases hv : IsNode g v with
  | true => rw [InsertNode_old g v hv]; exact ⟨hwf, hns, hnd⟩
  | false =>
    have hmem := InsertNode_mem g v hv
    refine ⟨InsertNode_WF g v hwf, ?_, ?_⟩
    · intro n hn e he
      rcases (hmem n).mp hn with rfl | hn
      · simp [newNode] at he
      · rw [InsertNode_old_deref g v hwf e.1 (hwf.2.2.2 n hn e he)]
        exact hns n hn e he
    · intro n hn
      rcases (hmem n).mp hn with rfl | hn
      · simp [newNode, visible]
      · rw [InsertNode_visible g v hwf n hn]
        exact hnd n hn

theorem InsertEdge_clean (g : Graph N E) (s d : Node N E) (w : E) (h : Clean g)
    (hs : s ∈ g.nodes.toList) (hd : d ∈ g.nodes.toList) :
    ∃ r, InsertEdge g s.value d.value w = .ok r ∧ Clean r.1 ∧
      (∀ u, IsNode r.1 u = IsNode g u) ∧
      (∀ u p, p ∈ edgesFrom r.1 u ↔ (p ∈ edgesFrom g u ∨ (u = s.value ∧ p = (d.value, w)))) := by
  obtain ⟨hwf, hns, hnd⟩ := h
  have hef := edgesFrom_of_mem g s hwf hs
  rw [InsertEdge_eq g s d w hwf hs hd (hns s hs)]
  by_cases hm : (d.value, w) ∈ visible g s.edges
  · refine ⟨(g, false), by rw [if_pos hm], ⟨hwf, hns, hnd⟩, fun _ => rfl, ?_⟩
    intro u p
    constructor
    · exact Or.inl
    · rintro (h1 | ⟨rfl, rfl⟩)
      · exact h1
      · rw [hef]; exact hm
  · have hdr := fun c => setEdges_deref g s.cell (s.edges ++ [(d.cell, w)]) c
    have hvis : visible g (s.edges ++ [(d.cell, w)]) = visible g s.edges ++ [(d.value, w)] := by
      rw [visible_append]
      congr 1
      unfold visible
      simp [deref_of_mem g d hwf.2.1 hd]
    have hwf2 : WF (setEdges g s.cell (s.edges ++ [(d.cell, w)])) := by
      apply setEdges_WF g _ _ hwf
      intro e he
      rcases List.mem_append.mp he with h1 | h1
      · exact hwf.2.2.2 s hs e h1
      · simp only [List.mem_singleton] at h1
        subst h1
        exact hwf.2.2.1 d hd
    refine ⟨(setEdges g s.cell (s.edges ++ [(d.cell, w)]), true), by rw [if_neg hm],
      ⟨hwf2, ?_, ?_⟩, fun u => setEdges_IsNode g _ _ u, ?_⟩
    · intro y hy e he
      rw [hdr]
      obtain ⟨x, hx, rfl⟩ := (setEdges_mem g _ _ y).mp hy
      by_cases hc : x.cell = s.cell
      · simp only [hc, if_true] at he
        rcases List.mem_append.mp he with h1 | h1
        · exact hns s hs e h1
        · simp only [List.mem_singleton] at h1
          subst h1
          simp [deref_of_mem g d hwf.2.1 hd]
      · simp only [hc, if_false] at he
        exact hns x hx e he
    · intro y hy
      rw [visible_congr_all g _ hdr]
      obtain ⟨x, hx, rfl⟩ := (setEdges_mem g _ _ y).mp hy
      by_cases hc : x.cell = s.cell
      · simp only [hc, if_true]
        rw [hvis]
        exact List.Nodup.append (hnd s hs) (List.nodup_singleton _)
          (by simpa using hm)
      · simp only [hc, if_false]
        exact hnd x hx
    · intro u p
      by_cases hu : u = s.value
      · subst hu
        rw [setEdges_edgesFrom_self g s _ hwf hs, hvis, hef]
        simp
      · rw [setEdges_edgesFrom_other g s _ hwf hs u hu]
        simp [hu]

theorem InsertEdge_ok_nodes (g : Graph N E) (s d : N) (w : E) (r : Graph N E × Bool)
    (h : InsertEdge g s d w = .ok r) : IsNode g s = true ∧ IsNode g d = true := by
  unfold InsertEdge at h
  cases hs : IsNode g s <;> cases hd : IsNode g d <;> simp [hs, hd] at h ⊢

theorem exists_node (g : Graph N E) (h : WF g) (v : N) (hv : IsNode g v = true) :
    ∃ x ∈ g.nodes.toList, x.value = v := by
  obtain ⟨x, hx, hxv⟩ := List.mem_map.mp ((IsNode_iff g v h.1).mp hv)
  exact ⟨x, hx, hxv⟩

theorem applyOp_clean (g g1 : Graph N E) (op : BuildOp N E) (h : Clean g)
    (ha : applyOp g op = .ok g1) :
    Clean g1 ∧
      (∀ u, IsNode g1 u = true ↔ (IsNode g u = true ∨ op = BuildOp.node u)) ∧
      (∀ u d w, (d, w) ∈ edgesFrom g1 u ↔ ((d, w) ∈ edgesFrom g u ∨ op = BuildOp.edge u d w)) := by
  cases op with
  | node v =>
    simp only [applyOp, Except.ok.injEq] at ha
    subst ha
    refine ⟨InsertNode_clean g v h, ?_, ?_⟩
    · intro u
      rw [InsertNode_IsNode g v h.1 u, BuildOp.node.injEq]
      exact or_congr Iff.rfl eq_comm
    · intro u d w
      rw [InsertNode_edgesFrom g v h.1 u]
      simp
  | edge sv dv w =>
    simp only [applyOp] at ha
    cases hr : InsertEdge g sv dv w with
    | error f => rw [hr] at ha; simp at ha
    | ok r =>
      rw [hr] at ha
      simp only [Except.ok.injEq] at ha
      subst ha
      obtain ⟨hsn, hdn⟩ := InsertEdge_ok_nodes g sv dv w r hr
      obtain ⟨s, hs, rfl⟩ := exists_node g h.1 sv hsn
      obtain ⟨d, hd, rfl⟩ := exists_node g h.1 dv hdn
      obtain ⟨r2, hr2, hc, hnode, hedge⟩ := InsertEdge_clean g s d w h hs hd
      rw [hr] at hr2
      simp only [Except.ok.injEq] at hr2
      subst hr2
      refine ⟨hc, ?_, ?_⟩
      · intro u
        rw [hnode u]
        simp
      · intro u d2 w2
        rw [hedge u (d2, w2)]
        simp only [BuildOp.edge.injEq, Prod.mk.injEq]
        constructor
        · rintro (h1 | ⟨rfl, rfl, rfl⟩)
          · exact Or.inl h1
          · exact Or.inr ⟨rfl, rfl, rfl⟩
        · rintro (h1 | ⟨rfl, rfl, rfl⟩)
          · exact Or.inl h1
          · exact Or.inr ⟨rfl, rfl, rfl⟩

theorem applyOps_clean (ops : List (BuildOp N E)) :
    ∀ g g1 : Graph N E, Clean g → applyOps g ops = .ok g1 →
      Clean g1 ∧
        (∀ u, IsNode g1 u = true ↔ (IsNode g u = true ∨ BuildOp.node u ∈ ops)) ∧
        (∀ u d w, (d, w) ∈ edgesFrom g1 u ↔
          ((d, w) ∈ edgesFrom g u ∨ BuildOp.edge u d w ∈ ops)) := by
  induction ops with
  | nil =>
    intro g g1 h ha
    simp only [applyOps, Except.ok.injEq] at ha
    subst ha
    exact ⟨h, by simp, by simp⟩
  | cons op ops ih =>
    intro g g1 h ha
    simp only [applyOps] at ha
    cases hr : applyOp g op with
    | error f => rw [hr] at ha; simp at ha
    | ok g2 =>
      rw [hr] at ha
      simp only at ha
      obtain ⟨hc2, hn2, he2⟩ := applyOp_clean g g2 op h hr
      obtain ⟨hc1, hn1, he1⟩ := ih g2 g1 hc2 ha
      refine ⟨hc1, ?_, ?_⟩
      · intro u
        rw [hn1 u, hn2 u, List.mem_cons, or_assoc]
        exact or_congr Iff.rfl (or_congr eq_comm Iff.rfl)
      · intro u d w
        rw [he1 u d w, he2 u d w, List.mem_cons, or_assoc]
        exact or_congr Iff.rfl (or_congr eq_comm Iff.rfl)

theorem applyOps_append (a b : List (BuildOp N E)) :
    ∀ g : Graph N E, applyOps g (a ++ b)
      = (match applyOps g a with
         | .ok g1 => applyOps g1 b
         | .error f => .error f) := by
  induction a with
  | nil => intro g; rfl
  | cons op a ih =>
    intro g
    simp only [List.cons_append, applyOps]
    cases applyOp g op with
    | error f => rfl
    | ok g2 => exact ih g2

theorem applyOps_nodes (ns : List N) :
    ∀ g : Graph N E, ∃ g1, applyOps g (ns.map (fun v => BuildOp.node v)) = .ok g1 := by
  induction ns with
  | nil => intro g; exact ⟨g, rfl⟩
  | cons v ns ih =>
    intro g
    obtain ⟨g1, h1⟩ := ih (InsertNode g v).1
    exact ⟨g1, by simp only [List.map_cons, applyOps, applyOp]; exact h1⟩

theorem applyOps_edges (es : List (N × N × E)) :
    ∀ g : Graph N E, Clean g → (∀ t ∈ es, IsNode g t.1 = true ∧ IsNode g t.2.1 = true) →
      ∃ g1, applyOps g (es.map (fun t => BuildOp.edge t.1 t.2.1 t.2.2)) = .ok g1 := by
  induction es with
  | nil => intro g _ _; exact ⟨g, rfl⟩
  | cons t es ih =>
    intro g h hn
    obtain ⟨hsn, hdn⟩ := hn t (by simp)
    obtain ⟨s, hs, hsv⟩ := exists_node g h.1 t.1 hsn
    obtain ⟨d, hd, hdv⟩ := exists_node g h.1 t.2.1 hdn
    obtain ⟨r, hr, hc, hnode, _⟩ := InsertEdge_clean g s d t.2.2 h hs hd
    rw [hsv, hdv] at hr
    obtain ⟨g1, h1⟩ := ih r.1 hc (fun t2 ht2 => by
      rw [hnode, hnode]; exact hn t2 (by simp [ht2]))
    exact ⟨g1, by simp only [List.map_cons, applyOps, applyOp, hr]; exact h1⟩

theorem build_spec (ns : List N) (es : List (N × N × E))
    (hend : ∀ t ∈ es, t.1 ∈ ns ∧ t.2.1 ∈ ns) :
    ∃ g : Graph N E, build ns es = .ok g ∧ Clean g ∧
      (∀ u, IsNode g u = true ↔ u ∈ ns) ∧
      (∀ u d w, (d, w) ∈ edgesFrom g u ↔ (u, d, w) ∈ es) := by
  obtain ⟨g1, h1⟩ := applyOps_nodes ns (emptyGraph : Graph N E)
  obtain ⟨hc1, hn1, he1⟩ := applyOps_clean _ _ _ clean_empty h1
  have hnode : ∀ u, IsNode g1 u = true ↔ u ∈ ns := by
    intro u
    rw [hn1 u, IsNode_empty]
    simp
  obtain ⟨g2, h2⟩ := applyOps_edges es g1 hc1 (fun t ht =>
    ⟨(hnode _).mpr (hend t ht).1, (hnode _).mpr (hend t ht).2⟩)
  obtain ⟨hc2, hn2, he2⟩ := applyOps_clean _ _ _ hc1 h2
  refine ⟨g2, ?_, hc2, ?_, ?_⟩
  · unfold build
    rw [applyOps_append, h1]
    exact h2
  · intro u
    rw [hn2 u, hnode u]
    simp
  · intro u d w
    rw [he2 u d w, he1 u d w, edgesFrom_empty]
    simp only [List.not_mem_nil, List.mem_map, false_or, BuildOp.edge.injEq, reduceCtorEq,
      and_false, exists_false]
    constructor
    · rintro ⟨t, ht, rfl, rfl, rfl⟩; exact ht
    · intro ht; exact ⟨(u, d, w), ht, rfl, rfl, rfl⟩

theorem clean_edgesFrom_nodup (g : Graph N E) (h : Clean g) (u : N) :
    (edgesFrom g u).Nodup := by
  cases hu : IsNode g u with
  | false => rw [edgesFrom_absent g u hu]; exact List.nodup_nil
  | true =>
    obtain ⟨x, hx, rfl⟩ := exists_node g h.1 u hu
    rw [edgesFrom_of_mem g x h.1 hx]
    exact h.2.2 x hx

theorem canonical_congr (showN : N → String) (showE : E → String) (g1 g2 : Graph N E)
    (h1 : Clean g1) (h2 : Clean g2) (hn : ∀ u, IsNode g1 u = true ↔ IsNode g2 u = true)
    (he : ∀ u p, p ∈ edgesFrom g1 u ↔ p ∈ edgesFrom g2 u) :
    canonical showN showE g1 = canonical showN showE g2 := by
  have hnodes : GetNodes g1 = GetNodes g2 := by
    rw [GetNodes_eq g1 h1.1.1, GetNodes_eq g2 h2.1.1]
    have hs : ∀ g : Graph N E, Ascending g.nodes →
        (g.nodes.toList.map Node.value).Sorted (fun a b => a ≤ b) :=
      fun g hg => List.Pairwise.imp (fun hab => le_of_lt hab) hg
    apply List.eq_of_perm_of_sorted _ (hs g1 h1.1.1) (hs g2 h2.1.1)
    apply (List.perm_ext_iff_of_nodup (pairwise_lt_nodup _ h1.1.1)
      (pairwise_lt_nodup _ h2.1.1)).mpr
    intro v
    rw [← IsNode_iff g1 v h1.1.1, ← IsNode_iff g2 v h2.1.1]
    exact hn v
  have hedges : ∀ u, sortedEdgesFrom g1 u = sortedEdgesFrom g2 u := by
    intro u
    unfold sortedEdgesFrom
    apply sorted_lexLE_unique _ _ _ (insertionSort_lexLE_sorted _) (insertionSort_lexLE_sorted _)
    refine (List.perm_insertionSort lexLE _).trans (List.Perm.trans ?_
      (List.perm_insertionSort lexLE _).symm)
    exact (List.perm_ext_iff_of_nodup (clean_edgesFrom_nodup g1 h1 u)
      (clean_edgesFrom_nodup g2 h2 u)).mpr (he u)
  unfold canonical
  rw [hnodes]
  congr 1
  apply List.map_congr_left
  intro v _
  unfold nodeBlock
  rw [hedges v]

end BuildLemmas

/-! ## Cursors on graphs without expired edges -/

section CursorLemmas

variable {N E : Type} [LinearOrder N] [LinearOrder E]

theorem getElem?_mid {α : Type} (A : List α) (n : α) (B : List α) :
    (A ++ n :: B)[A.length]? = some n := by
  rw [List.getElem?_append_right (le_refl _)]
  simp

theorem drop_mid {α : Type} (A : List α) (n : α) (B : List α) :
    (A ++ n :: B).drop (A.length + 1) = B := by
  induction A with
  | nil => simp
  | cons a A ih => simp

theorem length_mid {α : Type} (A : List α) (n : α) (B : List α) :
    (A ++ n :: B).length = A.length + 1 + B.length := by
  simp only [List.length_append, List.length_cons]
  omega

theorem edgeSum_append (A B : List (Node N E)) : edgeSum (A ++ B) = edgeSum A + edgeSum B := by
  simp [edgeSum]

theorem edgeSum_cons (n : Node N E) (B : List (Node N E)) :
    edgeSum (n :: B) = n.edges.length + edgeSum B := by
  simp [edgeSum]

theorem edgeSum_empty (B : List (Node N E)) (h : ∀ n ∈ B, n.edges = []) : edgeSum B = 0 := by
  induction B with
  | nil => rfl
  | cons b B ih =>
    rw [edgeSum_cons, h b (by simp), ih (fun n hn => h n (by simp [hn]))]
    rfl

theorem edgeCount_eq (g : Graph N E) : edgeCount g = edgeSum g.nodes.toList := rfl

theorem skipEmpty_spec (ns : List (Node N E)) :
    ∀ i, ∃ pre post, ns = pre ++ post ∧ skipEmpty ns i = i + pre.length ∧
      (∀ n ∈ pre, n.edges = []) ∧ (∀ m rest, post = m :: rest → m.edges ≠ []) := by
  induction ns with
  | nil => intro i; exact ⟨[], [], rfl, rfl, by simp, by simp⟩
  | cons n ns ih =>
    intro i
    by_cases he : n.edges = []
    · obtain ⟨pre, post, h1, h2, h3, h4⟩ := ih (i + 1)
      refine ⟨n :: pre, post, by rw [h1]; rfl, ?_, ?_, h4⟩
      · simp only [skipEmpty, he, List.isEmpty_nil, if_true, h2, List.length_cons]
        omega
      · intro m hm
        rcases List.mem_cons.mp hm with rfl | hm
        · exact he
        · exact h3 m hm
    · refine ⟨[], n :: ns, rfl, ?_, by simp, ?_⟩
      · have : n.edges.isEmpty = false := by
          cases hn : n.edges with
          | nil => exact absurd hn he
          | cons _ _ => rfl
        simp [skipEmpty, this]
      · intro m rest hm
        simp only [List.cons.injEq] at hm
        rw [← hm.1]
        exact he

theorem skipEmpty_all (pre : List (Node N E)) (h : ∀ n ∈ pre, n.edges = []) :
    ∀ (post : List (Node N E)) (i : Nat),
      skipEmpty (pre ++ post) i = skipEmpty post (i + pre.length) := by
  induction pre with
  | nil => intro post i; rfl
  | cons p pre ih =>
    intro post i
    have hp := h p (by simp)
    show skipEmpty (p :: (pre ++ post)) i = _
    simp only [skipEmpty, hp, List.isEmpty_nil, if_true, List.length_cons]
    rw [ih (fun n hn => h n (by simp [hn]))]
    congr 1
    omega

theorem skipEmpty_stop (m : Node N E) (rest : List (Node N E)) (i : Nat) (h : m.edges ≠ []) :
    skipEmpty (m :: rest) i = i := by
  have : m.edges.isEmpty = false := by
    cases hn : m.edges with
    | nil => exact absurd hn h
    | cons _ _ => rfl
  simp [skipEmpty, this]

theorem firstNonEmpty_next (A : List (Node N E)) (n : Node N E) (pre : List (Node N E))
    (m : Node N E) (rest : List (Node N E)) (hp : ∀ x ∈ pre, x.edges = []) (hm : m.edges ≠ []) :
    firstNonEmpty (A ++ n :: (pre ++ m :: rest)) (A.length + 1) = A.length + 1 + pre.length := by
  unfold firstNonEmpty
  rw [drop_mid, skipEmpty_all pre hp, skipEmpty_stop m rest _ hm]

theorem firstNonEmpty_none (A : List (Node N E)) (n : Node N E) (B : List (Node N E))
    (hp : ∀ x ∈ B, x.edges = []) :
    firstNonEmpty (A ++ n :: B) (A.length + 1) = (A ++ n :: B).length := by
  unfold firstNonEmpty
  have := skipEmpty_all B hp [] (A.length + 1)
  rw [List.append_nil] at this
  rw [drop_mid, this, length_mid]
  rfl

theorem lastNonEmpty_spec (A : List (Node N E)) (m : Node N E) (hm : m.edges ≠ [])
    (P : List (Node N E)) :
    (∀ p ∈ P, p.edges = []) → ∀ R : List (Node N E),
      lastNonEmpty (A ++ m :: (P ++ R)) (A.length + 1 + P.length) = some A.length := by
  induction P using List.reverseRecOn with
  | nil =>
    intro _ R
    have hne : m.edges.isEmpty = false := by
      cases hn : m.edges with
      | nil => exact absurd hn hm
      | cons _ _ => rfl
    simp only [List.nil_append, List.length_nil, Nat.add_zero, lastNonEmpty, getElem?_mid, hne]
    rfl
  | append_singleton P p ih =>
    intro hP R
    have hp : p.edges = [] := hP p (by simp)
    have hidx : (A ++ m :: (P ++ [p] ++ R))[A.length + 1 + P.length]? = some p := by
      have e1 : A ++ m :: (P ++ [p] ++ R) = (A ++ m :: P) ++ p :: R := by simp
      have e2 : A.length + 1 + P.length = (A ++ m :: P).length := by
        simp only [List.length_append, List.length_cons]; omega
      rw [e1, e2, getElem?_mid]
    have hlen : A.length + 1 + (P ++ [p]).length = (A.length + 1 + P.length) + 1 := by
      simp only [List.length_append, List.length_singleton]; omega
    rw [hlen]
    simp only [lastNonEmpty, hidx, hp, List.isEmpty_nil, if_true]
    have := ih (fun q hq => hP q (by simp [hq])) ([p] ++ R)
    rw [← List.append_assoc] at this
    exact this

theorem exists_last_nonEmpty (A : List (Node N E)) :
    (∃ m ∈ A, m.edges ≠ []) →
      ∃ A1 m P, A = A1 ++ m :: P ∧ m.edges ≠ [] ∧ ∀ p ∈ P, p.edges = [] := by
  induction A with
  | nil => rintro ⟨m, hm, _⟩; simp at hm
  | cons a A ih =>
    intro h
    by_cases hA : ∃ m ∈ A, m.edges ≠ []
    · obtain ⟨A1, m, P, h1, h2, h3⟩ := ih hA
      exact ⟨a :: A1, m, P, by rw [h1]; rfl, h2, h3⟩
    · have hall : ∀ p ∈ A, p.edges = [] := by
        intro p hp
        by_contra hne
        exact hA ⟨p, hp, hne⟩
      obtain ⟨m, hm, hne⟩ := h
      rcases List.mem_cons.mp hm with rfl | hm
      · exact ⟨[], m, A, rfl, hne, hall⟩
      · exact absurd (hall m hm) hne

theorem setEdges_toList (g : Graph N E) (A : List (Node N E)) (n : Node N E)
    (B : List (Node N E)) (es : List (Cell × E)) (h : (g.nodes.toList.map Node.cell).Nodup)
    (hL : g.nodes.toList = A ++ n :: B) :
    (setEdges g n.cell es).nodes.toList = A ++ { n with edges := es } :: B := by
  rw [setEdges_eq, mapNodes_toList, hL]
  rw [hL, List.map_append, List.map_cons, List.nodup_append, List.nodup_cons] at h
  obtain ⟨_, ⟨hnB, _⟩, hdis⟩ := h
  rw [List.map_append, List.map_cons]
  congr 1
  · conv_rhs => rw [← List.map_id A]
    apply List.map_congr_left
    intro x hx
    have : x.cell ≠ n.cell := fun e =>
      hdis (List.mem_map_of_mem _ hx) (by rw [e]; simp)
    simp [this]
  · congr 1
    · simp
    · conv_rhs => rw [← List.map_id B]
      apply List.map_congr_left
      intro x hx
      have : x.cell ≠ n.cell := fun e => hnB (e ▸ List.mem_map_of_mem _ hx)
      simp [this]

theorem mem_mid {α : Type} (A : List α) (n : α) (B : List α) : n ∈ A ++ n :: B := by simp

theorem ekey_congr (g g1 : Graph N E) (h : ∀ c, deref g1 c = deref g c) : ekey g1 = ekey g := by
  funext e
  simp only [ekey, h]

theorem sortEdges_facts (g : Graph N E) (A : List (Node N E)) (m : Node N E)
    (B : List (Node N E)) (h : WF g) (hs : NoStale g) (hL : g.nodes.toList = A ++ m :: B) :
    sortEdges g m.cell = setEdges g m.cell (listSort (edgeComparator g) m.edges) ∧
    WF (sortEdges g m.cell) ∧ NoStale (sortEdges g m.cell) ∧
    (sortEdges g m.cell).nodes.toList
      = A ++ { m with edges := listSort (edgeComparator g) m.edges } :: B ∧
    (∀ c, deref (sortEdges g m.cell) c = deref g c) ∧
    SortedBy (ekey (sortEdges g m.cell)) (listSort (edgeComparator g) m.edges) ∧
    (listSort (edgeComparator g) m.edges).length = m.edges.length := by
  have hm : m ∈ g.nodes.toList := by rw [hL]; exact mem_mid A m B
  have heq : sortEdges g m.cell = setEdges g m.cell (listSort (edgeComparator g) m.edges) :=
    modifyNode_setEdges g m (fun es => listSort (edgeComparator g) es) h.2.1 hm
  have hperm := listSort_perm (edgeComparator g) m.edges
  have hdr : ∀ c, deref (sortEdges g m.cell) c = deref g c := by
    intro c; rw [heq]; exact setEdges_deref g _ _ c
  refine ⟨heq, ?_, ?_, ?_, hdr, ?_, hperm.length_eq⟩
  · rw [heq]
    exact setEdges_WF g _ _ h (fun e he => h.2.2.2 m hm e (hperm.mem_iff.mp he))
  · intro y hy e he
    rw [hdr]
    rw [heq] at hy
    obtain ⟨x, hx, rfl⟩ := (setEdges_mem g _ _ y).mp hy
    by_cases hc : x.cell = m.cell
    · simp only [hc, if_true] at he
      exact hs m hm e (hperm.mem_iff.mp he)
    · simp only [hc, if_false] at he
      exact hs x hx e he
  · rw [heq]
    exact setEdges_toList g A m B _ h.2.1 hL
  · rw [ekey_congr g _ hdr]
    exact listSort_live_sorted g m.edges (hs m hm)

theorem not_expired (g : Graph N E) (hs : NoStale g) (n : Node N E) (hn : n ∈ g.nodes.toList)
    (e : Cell × E) (he : e ∈ n.edges) : expired g e.1 = false := by
  have := hs n hn e he
  unfold expired
  cases hd : deref g e.1 with
  | none => rw [hd] at this; simp at this
  | some v => rfl

theorem incClean_live (g : Graph N E) (A : List (Node N E)) (n : Node N E)
    (B : List (Node N E)) (k : Nat) (hs : NoStale g) (hL : g.nodes.toList = A ++ n :: B)
    (hk : k < n.edges.length) :
    incClean g ⟨A.length, k⟩ = .ok (g, ⟨A.length, k⟩, false) := by
  have hn : n ∈ g.nodes.toList := by rw [hL]; exact mem_mid A n B
  unfold incClean
  simp only [hL, getElem?_mid, List.getElem?_eq_getElem hk]
  rw [not_expired g hs n hn _ (List.getElem_mem hk)]
  rfl

theorem increment_same (g : Graph N E) (A : List (Node N E)) (n : Node N E)
    (B : List (Node N E)) (k : Nat) (hs : NoStale g) (hL : g.nodes.toList = A ++ n :: B)
    (hk : k + 1 < n.edges.length) :
    increment g ⟨A.length, k⟩ = .ok (g, ⟨A.length, k + 1⟩) := by
  have hinc : listInc n.edges.length k = k + 1 := by
    unfold listInc; rw [if_pos (by omega)]
  have hne : ¬ (k + 1 = n.edges.length) := by omega
  simp only [increment, incLoop, incStep, hL, getElem?_mid, hinc, hne, if_false]
  rw [incClean_live g A n B (k + 1) hs hL hk]

theorem increment_end (g : Graph N E) (A : List (Node N E)) (n : Node N E)
    (B : List (Node N E)) (k : Nat) (hL : g.nodes.toList = A ++ n :: B)
    (hk : k + 1 = n.edges.length) (hB : ∀ x ∈ B, x.edges = []) :
    increment g ⟨A.length, k⟩ = .ok (g, ⟨g.nodes.toList.length, k + 1⟩) := by
  have hinc : listInc n.edges.length k = k + 1 := by
    unfold listInc; rw [if_pos (by omega)]
  simp only [increment, incLoop, incStep, hL, getElem?_mid, hinc, hk, if_true,
    firstNonEmpty_none A n B hB]
  rw [List.getElem?_eq_none (le_refl _)]

theorem increment_next (g : Graph N E) (A : List (Node N E)) (n : Node N E)
    (pre : List (Node N E)) (m : Node N E) (rest : List (Node N E)) (k : Nat)
    (h : WF g) (hs : NoStale g) (hL : g.nodes.toList = A ++ n :: (pre ++ m :: rest))
    (hk : k + 1 = n.edges.length) (hp : ∀ x ∈ pre, x.edges = []) (hm : m.edges ≠ []) :
    increment g ⟨A.length, k⟩
      = .ok (sortEdges g m.cell, ⟨(A ++ n :: pre).length, 0⟩) := by
  have hinc : listInc n.edges.length k = k + 1 := by
    unfold listInc; rw [if_pos (by omega)]
  have hL2 : g.nodes.toList = (A ++ n :: pre) ++ m :: rest := by rw [hL]; simp
  have hidx : A.length + 1 + pre.length = (A ++ n :: pre).length := by
    simp only [List.length_append, List.length_cons]; omega
  obtain ⟨_, _, hs1, hL1, _, _, hlen⟩ := sortEdges_facts g (A ++ n :: pre) m rest h hs hL2
  have hpos : 0 < (listSort (edgeComparator g) m.edges).length := by
    rw [hlen]; exact List.length_pos.mpr hm
  simp only [increment, incLoop, incStep, hL, getElem?_mid, hinc, hk, if_true,
    firstNonEmpty_next A n pre m rest hp hm]
  rw [hidx, ← hL, hL2, getElem?_mid]
  simp only
  rw [incClean_live (sortEdges g m.cell) (A ++ n :: pre) _ rest 0 hs1 hL1 hpos]

theorem cursorDeref_live (g : Graph N E) (A : List (Node N E)) (n : Node N E)
    (B : List (Node N E)) (k : Nat) (hs : NoStale g) (hL : g.nodes.toList = A ++ n :: B)
    (hk : k < n.edges.length) :
    ∃ d, deref g (n.edges[k]).1 = some d ∧
      cursorDeref g ⟨A.length, k⟩ = .ok (n.value, d, (n.edges[k]).2) := by
  have hn : n ∈ g.nodes.toList := by rw [hL]; exact mem_mid A n B
  obtain ⟨d, hd⟩ := Option.isSome_iff_exists.mp (hs n hn _ (List.getElem_mem hk))
  refine ⟨d, hd, ?_⟩
  unfold cursorDeref
  simp only [hL, getElem?_mid, List.getElem?_eq_getElem hk, hd]

theorem cursorEq_mid (g : Graph N E) (A : List (Node N E)) (n : Node N E)
    (B : List (Node N E)) (k : Nat) (hL : g.nodes.toList = A ++ n :: B) :
    cursorEq g ⟨A.length, k⟩ (cend g) = false := by
  have hne : ¬ (A.length = A.length + 1 + B.length) := by omega
  simp [cursorEq, cend, hL, length_mid, hne]

theorem cursorEq_end (g : Graph N E) (k : Nat) :
    cursorEq g ⟨g.nodes.toList.length, k⟩ (cend g) = true := by
  simp [cursorEq, cend]

theorem yieldOf_drop (g : Graph N E) (n : Node N E) (k : Nat) (hk : k < n.edges.length) (d : N)
    (hd : deref g (n.edges[k]).1 = some d) :
    yieldOf g n (n.edges.drop k)
      = (n.value, d, (n.edges[k]).2) :: yieldOf g n (n.edges.drop (k + 1)) := by
  rw [List.drop_eq_getElem_cons hk]
  unfold yieldOf visible
  simp only [List.filterMap_cons, hd, Option.map_some', List.map_cons]

theorem yieldOf_drop_all (g : Graph N E) (n : Node N E) (k : Nat) (hk : n.edges.length ≤ k) :
    yieldOf g n (n.edges.drop k) = [] := by
  rw [List.drop_eq_nil_of_le hk]
  rfl

theorem yieldOf_congr (g g1 : Graph N E) (h : ∀ c, deref g1 c = deref g c) (n n1 : Node N E)
    (hv : n1.value = n.value) (es : List (Cell × E)) : yieldOf g1 n1 es = yieldOf g n es := by
  unfold yieldOf
  rw [visible_congr_all g g1 h, hv]

theorem sortedYield_congr (g g1 : Graph N E) (h : ∀ c, deref g1 c = deref g c) (x : Node N E) :
    sortedYield g1 x = sortedYield g x := by
  unfold sortedYield
  rw [edgeComparator_congr g g1 h]
  exact yieldOf_congr g g1 h x x rfl _

theorem sortedYield_empty (g : Graph N E) (x : Node N E) (h : x.edges = []) :
    sortedYield g x = [] := by
  simp [sortedYield, h, listSort, yieldOf, visible]

theorem flatMap_empty (g : Graph N E) (B : List (Node N E)) (hB : ∀ x ∈ B, x.edges = []) :
    B.flatMap (sortedYield g) = [] := by
  rw [List.flatMap_eq_nil_iff]
  exact fun x hx => sortedYield_empty g x (hB x hx)

theorem yield_enter (g g1 : Graph N E) (h : ∀ c, deref g1 c = deref g c)
    (pre : List (Node N E)) (m : Node N E) (rest : List (Node N E))
    (hp : ∀ x ∈ pre, x.edges = []) :
    yieldOf g1 { m with edges := listSort (edgeComparator g) m.edges }
        (List.drop 0 (listSort (edgeComparator g) m.edges))
      ++ rest.flatMap (sortedYield g1)
      = (pre ++ m :: rest).flatMap (sortedYield g) := by
  rw [List.flatMap_append, flatMap_empty g pre hp, List.nil_append, List.flatMap_cons,
    List.drop_zero]
  congr 1
  · exact yieldOf_congr g g1 h m _ rfl _
  · apply List.flatMap_congr
    intro x _
    exact sortedYield_congr g g1 h x

theorem collectLoop_eq : ∀ (fuel : Nat) (g : Graph N E) (A : List (Node N E)) (n : Node N E)
    (B : List (Node N E)) (k : Nat), WF g → NoStale g → g.nodes.toList = A ++ n :: B →
    k < n.edges.length → (n.edges.length - k) + edgeSum B < fuel →
    ∃ g1, collectLoop fuel g ⟨A.length, k⟩
      = .ok (g1, yieldOf g n (n.edges.drop k) ++ B.flatMap (sortedYield g)) := by
  intro fuel
  induction fuel with
  | zero => intro g A n B k _ _ _ _ hf; omega
  | succ fuel ih =>
    intro g A n B k h hs hL hk hf
    obtain ⟨d, hd, hderef⟩ := cursorDeref_live g A n B k hs hL hk
    have hne := cursorEq_mid g A n B k hL
    have hy := yieldOf_drop g n k hk d hd
    by_cases hk1 : k + 1 < n.edges.length
    · obtain ⟨g1, h1⟩ := ih g A n B (k + 1) h hs hL hk1 (by omega)
      refine ⟨g1, ?_⟩
      simp only [collectLoop, hne, Bool.false_eq_true, if_false, hderef,
        increment_same g A n B k hs hL hk1, h1]
      rw [hy]
      rfl
    · have hk2 : k + 1 = n.edges.length := by omega
      obtain ⟨pre, post, hB, _, hpre, hpost⟩ := skipEmpty_spec B 0
      cases post with
      | nil =>
        rw [List.append_nil] at hB
        subst hB
        have hfuel : ∃ f, fuel = f + 1 := ⟨fuel - 1, by omega⟩
        obtain ⟨f, rfl⟩ := hfuel
        refine ⟨g, ?_⟩
        simp only [collectLoop, hne, Bool.false_eq_true, if_false, hderef,
          increment_end g A n B k hL hk2 hpre, cursorEq_end, if_true]
        rw [hy, yieldOf_drop_all g n (k + 1) (by omega), flatMap_empty g B hpre]
        rfl
      | cons m rest =>
        subst hB
        have hm := hpost m rest rfl
        have hL2 : g.nodes.toList = (A ++ n :: pre) ++ m :: rest := by rw [hL]; simp
        obtain ⟨_, hwf1, hs1, hL1, hdr, _, hlen⟩ :=
          sortEdges_facts g (A ++ n :: pre) m rest h hs hL2
        have hpos : 0 < (listSort (edgeComparator g) m.edges).length := by
          rw [hlen]; exact List.length_pos.mpr hm
        have hmeasure : ((listSort (edgeComparator g) m.edges).length - 0) + edgeSum rest
            < fuel := by
          rw [edgeSum_append, edgeSum_cons, edgeSum_empty pre hpre] at hf
          rw [hlen]
          omega
        obtain ⟨g1, h1⟩ := ih (sortEdges g m.cell) (A ++ n :: pre)
          { m with edges := listSort (edgeComparator g) m.edges } rest 0 hwf1 hs1 hL1 hpos
          hmeasure
        refine ⟨g1, ?_⟩
        simp only [collectLoop, hne, Bool.false_eq_true, if_false, hderef,
          increment_next g A n pre m rest k h hs hL hk2 hpre hm, h1]
        rw [hy, yieldOf_drop_all g n (k + 1) (by omega),
          yield_enter g (sortEdges g m.cell) hdr pre m rest hpre]
        rfl

theorem cbegin_none (g : Graph N E) (h : ∀ n ∈ g.nodes.toList, n.edges = []) :
    cbegin g = .ok (g, cend g) := by
  have hsk := skipEmpty_all g.nodes.toList h [] 0
  rw [List.append_nil] at hsk
  unfold cbegin firstNonEmpty
  rw [List.drop_zero, hsk]
  simp [skipEmpty]

theorem cbegin_first (g : Graph N E) (pre : List (Node N E)) (m : Node N E)
    (rest : List (Node N E)) (h : WF g) (hs : NoStale g)
    (hL : g.nodes.toList = pre ++ m :: rest) (hp : ∀ x ∈ pre, x.edges = [])
    (hm : m.edges ≠ []) :
    cbegin g = .ok (sortEdges g m.cell, ⟨pre.length, 0⟩) := by
  obtain ⟨_, _, hs1, hL1, _, _, hlen⟩ := sortEdges_facts g pre m rest h hs hL
  have hpos : 0 < (listSort (edgeComparator g) m.edges).length := by
    rw [hlen]; exact List.length_pos.mpr hm
  have hm1 : ({ m with edges := listSort (edgeComparator g) m.edges } : Node N E)
      ∈ (sortEdges g m.cell).nodes.toList := by rw [hL1]; exact mem_mid _ _ _
  have hfirst : firstNonEmpty g.nodes.toList 0 = pre.length := by
    unfold firstNonEmpty
    rw [List.drop_zero, hL, skipEmpty_all pre hp, skipEmpty_stop m rest _ hm]
    omega
  unfold cbegin
  rw [hfirst]
  simp only [hL, getElem?_mid, cbeginLoop]
  rw [hL1]
  simp only [getElem?_mid, List.getElem?_eq_getElem hpos]
  rw [not_expired _ hs1 _ hm1 _ (List.getElem_mem hpos)]
  rfl

theorem forwardRange_eq (g : Graph N E) (h : WF g) (hs : NoStale g) :
    ∃ g1, forwardRange g = .ok (g1, g.nodes.toList.flatMap (sortedYield g)) := by
  obtain ⟨pre, post, hL, _, hpre, hpost⟩ := skipEmpty_spec g.nodes.toList 0
  cases post with
  | nil =>
    rw [List.append_nil] at hL
    have hall : ∀ n ∈ g.nodes.toList, n.edges = [] := by rw [hL]; exact hpre
    refine ⟨g, ?_⟩
    unfold forwardRange
    rw [cbegin_none g hall]
    have hend : cursorEq g (cend g) (cend g) = true := cursorEq_end g 0
    simp only [collectLoop, hend, if_true]
    rw [flatMap_empty g _ hall]
  | cons m rest =>
    have hm := hpost m rest rfl
    obtain ⟨_, hwf1, hs1, hL1, hdr, _, hlen⟩ := sortEdges_facts g pre m rest h hs hL
    have hpos : 0 < (listSort (edgeComparator g) m.edges).length := by
      rw [hlen]; exact List.length_pos.mpr hm
    have hmeasure : ((listSort (edgeComparator g) m.edges).length - 0) + edgeSum rest
        < edgeCount (sortEdges g m.cell) + 1 := by
      rw [edgeCount_eq, hL1, edgeSum_append, edgeSum_cons]
      dsimp only
      omega
    obtain ⟨g1, h1⟩ := collectLoop_eq _ (sortEdges g m.cell) pre
      { m with edges := listSort (edgeComparator g) m.edges } rest 0 hwf1 hs1 hL1 hpos hmeasure
    refine ⟨g1, ?_⟩
    unfold forwardRange
    rw [cbegin_first g pre m rest h hs hL hpre hm]
    simp only
    rw [h1, yield_enter g (sortEdges g m.cell) hdr pre m rest hpre, hL]

theorem forward_perm (g : Graph N E) :
    (g.nodes.toList.flatMap (sortedYield g)).Perm (allEdges g) := by
  unfold allEdges
  apply List.Perm.flatMap_left
  intro a _
  exact ((listSort_perm (edgeComparator g) a.edges).filterMap _).map _

theorem forward_sorted (g : Graph N E) (h : Clean g) :
    (g.nodes.toList.flatMap (sortedYield g)).Pairwise tripleLt := by
  rw [List.pairwise_flatMap]
  constructor
  · intro a ha
    have hperm : (visible g (listSort (edgeComparator g) a.edges)).Perm (visible g a.edges) :=
      (listSort_perm (edgeComparator g) a.edges).filterMap _
    have hnd : (visible g (listSort (edgeComparator g) a.edges)).Nodup :=
      hperm.nodup_iff.mpr (h.2.2 a ha)
    have hsorted := visible_sortedBy g _ (listSort_live_sorted g a.edges (h.2.1 a ha))
    unfold sortedYield yieldOf
    rw [List.pairwise_map]
    refine List.Pairwise.imp ?_ (List.Pairwise.and hsorted hnd)
    rintro p q ⟨hle, hne⟩
    refine Or.inr ⟨rfl, ?_⟩
    rcases hle with h1 | ⟨h1, h2⟩
    · exact Or.inl h1
    · refine Or.inr ⟨h1, lt_of_le_of_ne h2 ?_⟩
      intro e
      exact hne (Prod.ext h1 e)
  · have hasc : g.nodes.toList.Pairwise (fun a b => a.value < b.value) :=
      List.pairwise_map.mp h.1.1
    refine List.Pairwise.imp ?_ hasc
    intro a b hab x hx y hy
    unfold sortedYield yieldOf at hx hy
    obtain ⟨p, _, rfl⟩ := List.mem_map.mp hx
    obtain ⟨q, _, rfl⟩ := List.mem_map.mp hy
    exact Or.inl hab

theorem tripleLt_irrefl (a : N × N × E) : ¬ tripleLt a a := by
  unfold tripleLt
  simp

theorem allEdges_iff_edgesFrom (g : Graph N E) (h : WF g) (s d : N) (w : E) :
    (s, d, w) ∈ allEdges g ↔ (d, w) ∈ edgesFrom g s := by
  rw [allEdges_mem]
  constructor
  · rintro ⟨x, hx, rfl, he⟩
    rw [edgesFrom_of_mem g x h hx]
    exact (visible_mem g x.edges d w).mpr he
  · intro hm
    unfold edgesFrom at hm
    cases hf : mapFind g.nodes s with
    | none => rw [hf] at hm; simp at hm
    | some x =>
      rw [hf] at hm
      obtain ⟨hx, hxv⟩ := (mapFind_some_iff g.nodes s x h.1).mp hf
      exact ⟨x, hx, hxv, (visible_mem g x.edges d w).mp hm⟩

theorem decrement_inside (g : Graph N E) (A : List (Node N E)) (n : Node N E)
    (B : List (Node N E)) (k : Nat) (hs : NoStale g) (hL : g.nodes.toList = A ++ n :: B)
    (hk : k < n.edges.length) :
    decrement g ⟨A.length, k + 1⟩ = .ok (g, ⟨A.length, k⟩) := by
  have hn : n ∈ g.nodes.toList := by rw [hL]; exact mem_mid A n B
  have hne : ¬ (A.length = (A ++ n :: B).length) := by rw [length_mid]; omega
  simp only [decrement, decLoop, decStep, hL, hne, if_false, Nat.add_one_ne_zero,
    getElem?_mid, Nat.add_sub_cancel, List.getElem?_eq_getElem hk]
  rw [not_expired g hs n hn _ (List.getElem_mem hk)]
  rfl

theorem decrement_from_end (g : Graph N E) (A : List (Node N E)) (n : Node N E)
    (B : List (Node N E)) (x : Nat) (hs : NoStale g) (hL : g.nodes.toList = A ++ n :: B)
    (hn : n.edges ≠ []) (hB : ∀ p ∈ B, p.edges = []) :
    decrement g ⟨g.nodes.toList.length, x⟩ = .ok (g, ⟨A.length, n.edges.length - 1⟩) := by
  have hmem : n ∈ g.nodes.toList := by rw [hL]; exact mem_mid A n B
  have hpos : 0 < n.edges.length := List.length_pos.mpr hn
  have hk : n.edges.length - 1 < n.edges.length := by omega
  have hne : ¬ (n.edges.length = 0) := by omega
  have hlast : lastNonEmpty (A ++ n :: B) (A ++ n :: B).length = some A.length := by
    have := lastNonEmpty_spec A n hn B hB []
    rw [List.append_nil] at this
    rw [length_mid]
    exact this
  simp only [decrement, decLoop, decStep, hL, if_true, hlast, getElem?_mid, hne, if_false,
    List.getElem?_eq_getElem hk]
  rw [not_expired g hs n hmem _ (List.getElem_mem hk)]
  rfl

theorem decrement_prev (g : Graph N E) (A1 : List (Node N E)) (m : Node N E)
    (P : List (Node N E)) (n : Node N E) (B : List (Node N E)) (h : WF g) (hs : NoStale g)
    (hL : g.nodes.toList = A1 ++ m :: (P ++ n :: B)) (hm : m.edges ≠ [])
    (hP : ∀ p ∈ P, p.edges = []) :
    decrement g ⟨(A1 ++ m :: P).length, 0⟩
      = .ok (sortEdges g m.cell, ⟨A1.length, m.edges.length - 1⟩) := by
  obtain ⟨_, _, hs1, hL1, _, _, hlen⟩ := sortEdges_facts g A1 m (P ++ n :: B) h hs hL
  have hm1 : ({ m with edges := listSort (edgeComparator g) m.edges } : Node N E)
      ∈ (sortEdges g m.cell).nodes.toList := by rw [hL1]; exact mem_mid _ _ _
  have hpos : 0 < m.edges.length := List.length_pos.mpr hm
  have hk : m.edges.length - 1 < (listSort (edgeComparator g) m.edges).length := by
    rw [hlen]; omega
  have hidx : (A1 ++ m :: P).length = A1.length + 1 + P.length := by
    simp only [List.length_append, List.length_cons]; omega
  have hne : ¬ (A1.length + 1 + P.length = (A1 ++ m :: (P ++ n :: B)).length) := by
    rw [length_mid]
    simp only [List.length_append, List.length_cons]
    omega
  have hlast := lastNonEmpty_spec A1 m hm P hP (n :: B)
  simp only [decrement, decLoop, decStep, hL, hidx, hne, if_false, if_true, hlast,
    getElem?_mid]
  rw [hL1]
  simp only [getElem?_mid, List.getElem?_eq_getElem hk]
  rw [not_expired _ hs1 _ hm1 _ (List.getElem_mem hk)]
  rfl

theorem map_inj_on {α β : Type} (f : α → β) : ∀ (l1 l2 : List α), l1.map f = l2.map f →
    (∀ a ∈ l1, ∀ b ∈ l2, f a = f b → a = b) → l1 = l2
  | [], [], _, _ => rfl
  | [], _ :: _, h, _ => by simp at h
  | _ :: _, [], h, _ => by simp at h
  | a :: l1, b :: l2, h, hi => by
    simp only [List.map_cons, List.cons.injEq] at h
    have hab := hi a (by simp) b (by simp) h.1
    subst hab
    rw [map_inj_on f l1 l2 h.2 (fun a ha b hb => hi a (by simp [ha]) b (by simp [hb]))]

theorem listSort_sorted_id (g : Graph N E) (h : WF g) (es : List (Cell × E))
    (hl : ∀ e ∈ es, Live g e) (hsorted : SortedBy (ekey g) es) :
    listSort (edgeComparator g) es = es := by
  have hperm := listSort_perm (edgeComparator g) es
  apply map_inj_on (ekey g)
  · apply List.eq_of_perm_of_sorted (r := fun a b => a ≤ b) (hperm.map _)
    · exact List.pairwise_map.mpr (listSort_live_sorted g es hl)
    · exact List.pairwise_map.mpr hsorted
  · intro a ha b hb hab
    have hla := hl a (hperm.mem_iff.mp ha)
    exact edgeEquals_eq g h a b hla (hl b hb) ((ekey_eq g a b hla (hl b hb)).mpr hab)

theorem increment_at_end (g : Graph N E) (it : Cursor) (h : it.node = g.nodes.toList.length) :
    increment g it = .error .invalid_iterator := by
  simp only [increment, incLoop, incStep, h, List.getElem?_eq_none (le_refl _)]

theorem cursorEq_self (g : Graph N E) (it : Cursor) : cursorEq g it it = true := by
  simp [cursorEq]

theorem cursorEq_ends (g : Graph N E) (x y : Nat) :
    cursorEq g ⟨g.nodes.toList.length, x⟩ ⟨g.nodes.toList.length, y⟩ = true := by
  simp [cursorEq]

theorem cursorDeref_end (g : Graph N E) (x : Nat) :
    cursorDeref g ⟨g.nodes.toList.length, x⟩ = .error .invalid_iterator := by
  simp only [cursorDeref, List.getElem?_eq_none (le_refl _)]

theorem cbegin_inv (g0 g : Graph N E) (it : Cursor) (h : WF g0) (hs : NoStale g0)
    (hc : cbegin g0 = .ok (g, it)) : WF g ∧ NoStale g ∧ CursorOk g it := by
  obtain ⟨pre, post, hL, _, hpre, hpost⟩ := skipEmpty_spec g0.nodes.toList 0
  cases post with
  | nil =>
    rw [List.append_nil] at hL
    have hall : ∀ n ∈ g0.nodes.toList, n.edges = [] := by rw [hL]; exact hpre
    rw [cbegin_none g0 hall] at hc
    simp only [Except.ok.injEq, Prod.mk.injEq] at hc
    obtain ⟨rfl, rfl⟩ := hc
    exact ⟨h, hs, Or.inl rfl⟩
  | cons m rest =>
    have hm := hpost m rest rfl
    obtain ⟨_, hwf1, hs1, hL1, _, hsort, hlen⟩ := sortEdges_facts g0 pre m rest h hs hL
    rw [cbegin_first g0 pre m rest h hs hL hpre hm] at hc
    simp only [Except.ok.injEq, Prod.mk.injEq] at hc
    obtain ⟨rfl, rfl⟩ := hc
    refine ⟨hwf1, hs1, Or.inr ⟨pre, _, rest, hL1, rfl, ?_, hsort⟩⟩
    show 0 < (listSort (edgeComparator g0) m.edges).length
    rw [hlen]
    exact List.length_pos.mpr hm

theorem increment_inv (g g1 : Graph N E) (it it1 : Cursor) (h : WF g) (hs : NoStale g)
    (hok : CursorOk g it) (hi : increment g it = .ok (g1, it1)) :
    WF g1 ∧ NoStale g1 ∧ CursorOk g1 it1 := by
  rcases hok with hend | ⟨A, n, B, hL, hnode, hedge, hsort⟩
  · rw [increment_at_end g it hend] at hi
    simp at hi
  · obtain ⟨i, k⟩ := it
    simp only at hnode hedge
    subst hnode
    by_cases hk1 : k + 1 < n.edges.length
    · rw [increment_same g A n B k hs hL hk1] at hi
      simp only [Except.ok.injEq, Prod.mk.injEq] at hi
      obtain ⟨rfl, rfl⟩ := hi
      exact ⟨h, hs, Or.inr ⟨A, n, B, hL, rfl, hk1, hsort⟩⟩
    · have hk2 : k + 1 = n.edges.length := by omega
      obtain ⟨pre, post, hB, _, hpre, hpost⟩ := skipEmpty_spec B 0
      cases post with
      | nil =>
        rw [List.append_nil] at hB
        subst hB
        rw [increment_end g A n B k hL hk2 hpre] at hi
        simp only [Except.ok.injEq, Prod.mk.injEq] at hi
        obtain ⟨rfl, rfl⟩ := hi
        exact ⟨h, hs, Or.inl rfl⟩
      | cons m rest =>
        subst hB
        have hm := hpost m rest rfl
        have hL2 : g.nodes.toList = (A ++ n :: pre) ++ m :: rest := by rw [hL]; simp
        obtain ⟨_, hwf1, hs1, hL1, _, hsort1, hlen⟩ :=
          sortEdges_facts g (A ++ n :: pre) m rest h hs hL2
        rw [increment_next g A n pre m rest k h hs hL hk2 hpre hm] at hi
        simp only [Except.ok.injEq, Prod.mk.injEq] at hi
        obtain ⟨rfl, rfl⟩ := hi
        refine ⟨hwf1, hs1, Or.inr ⟨A ++ n :: pre, _, rest, hL1, rfl, ?_, hsort1⟩⟩
        show 0 < (listSort (edgeComparator g) m.edges).length
        rw [hlen]
        exact List.length_pos.mpr hm

theorem reached_inv (g0 g : Graph N E) (it : Cursor) (h : WF g0) (hs : NoStale g0)
    (hr : Reached g0 g it) : WF g ∧ NoStale g ∧ CursorOk g it := by
  induction hr with
  | start g it hc => exact cbegin_inv g0 g it h hs hc
  | step g g1 it it1 _ hi ih => exact increment_inv g g1 it it1 ih.1 ih.2.1 ih.2.2 hi

theorem advance_then_retreat (g : Graph N E) (A : List (Node N E)) (n : Node N E)
    (B : List (Node N E)) (k : Nat) (h : WF g) (hs : NoStale g)
    (hL : g.nodes.toList = A ++ n :: B) (hk : k < n.edges.length) :
    ∃ g1 it1 g2 it2, increment g ⟨A.length, k⟩ = .ok (g1, it1) ∧
      decrement g1 it1 = .ok (g2, it2) ∧ cursorEq g2 it2 ⟨A.length, k⟩ = true := by
  have hne : n.edges ≠ [] := List.length_pos.mp (by omega)
  by_cases hk1 : k + 1 < n.edges.length
  · exact ⟨g, _, g, _, increment_same g A n B k hs hL hk1,
      decrement_inside g A n B k hs hL hk, cursorEq_self _ _⟩
  · have hk2 : k + 1 = n.edges.length := by omega
    have hk3 : n.edges.length - 1 = k := by omega
    obtain ⟨pre, post, hB, _, hpre, hpost⟩ := skipEmpty_spec B 0
    cases post with
    | nil =>
      rw [List.append_nil] at hB
      subst hB
      refine ⟨g, _, g, _, increment_end g A n B k hL hk2 hpre,
        decrement_from_end g A n B (k + 1) hs hL hne hpre, ?_⟩
      rw [hk3]
      exact cursorEq_self _ _
    | cons m rest =>
      subst hB
      have hm := hpost m rest rfl
      have hL2 : g.nodes.toList = (A ++ n :: pre) ++ m :: rest := by rw [hL]; simp
      obtain ⟨_, hwf1, hs1, hL1, _, _, _⟩ := sortEdges_facts g (A ++ n :: pre) m rest h hs hL2
      have hL1b : (sortEdges g m.cell).nodes.toList
          = A ++ n :: (pre ++ { m with edges := listSort (edgeComparator g) m.edges } :: rest) := by
        rw [hL1]; simp
      refine ⟨_, _, _, _, increment_next g A n pre m rest k h hs hL hk2 hpre hm,
        decrement_prev (sortEdges g m.cell) A n pre _ rest hwf1 hs1 hL1b hne hpre, ?_⟩
      rw [hk3]
      exact cursorEq_self _ _

theorem retreat_then_advance_end (g : Graph N E) (x : Nat) (hs : NoStale g)
    (hex : ∃ m ∈ g.nodes.toList, m.edges ≠ []) :
    ∃ g1 it1 g2 it2, decrement g ⟨g.nodes.toList.length, x⟩ = .ok (g1, it1) ∧
      increment g1 it1 = .ok (g2, it2) ∧
      cursorEq g2 it2 ⟨g.nodes.toList.length, x⟩ = true ∧
      cursorDeref g2 it2 = cursorDeref g ⟨g.nodes.toList.length, x⟩ := by
  obtain ⟨A1, m, P, hL, hm, hP⟩ := exists_last_nonEmpty g.nodes.toList hex
  have hpos : 0 < m.edges.length := List.length_pos.mpr hm
  refine ⟨g, _, g, _, decrement_from_end g A1 m P x hs hL hm hP,
    increment_end g A1 m P (m.edges.length - 1) hL (by omega) hP, cursorEq_ends g _ _, ?_⟩
  rw [cursorDeref_end, cursorDeref_end]

theorem retreat_then_advance_first (g : Graph N E) (A1 : List (Node N E)) (m : Node N E)
    (P : List (Node N E)) (n : Node N E) (B : List (Node N E)) (h : WF g) (hs : NoStale g)
    (hL : g.nodes.toList = A1 ++ m :: (P ++ n :: B)) (hm : m.edges ≠ [])
    (hP : ∀ p ∈ P, p.edges = []) (hn : 0 < n.edges.length) (hsort : SortedBy (ekey g) n.edges) :
    ∃ g1 it1 g2 it2, decrement g ⟨(A1 ++ m :: P).length, 0⟩ = .ok (g1, it1) ∧
      increment g1 it1 = .ok (g2, it2) ∧
      cursorEq g2 it2 ⟨(A1 ++ m :: P).length, 0⟩ = true ∧
      cursorDeref g2 it2 = cursorDeref g ⟨(A1 ++ m :: P).length, 0⟩ := by
  have hnne : n.edges ≠ [] := List.length_pos.mp hn
  have hpos : 0 < m.edges.length := List.length_pos.mpr hm
  have hLc : g.nodes.toList = (A1 ++ m :: P) ++ n :: B := by rw [hL]; simp
  have hnmem : n ∈ g.nodes.toList := by rw [hLc]; exact mem_mid _ _ _
  obtain ⟨_, hwf1, hs1, hL1, hdr1, _, hlen1⟩ :=
    sortEdges_facts g A1 m (P ++ n :: B) h hs hL
  have hk : (m.edges.length - 1) + 1
      = ({ m with edges := listSort (edgeComparator g) m.edges } : Node N E).edges.length := by
    show (m.edges.length - 1) + 1 = (listSort (edgeComparator g) m.edges).length
    rw [hlen1]; omega
  have hinc := increment_next (sortEdges g m.cell) A1 _ P n B (m.edges.length - 1) hwf1 hs1 hL1
    hk hP hnne
  have hL1c : (sortEdges g m.cell).nodes.toList
      = (A1 ++ { m with edges := listSort (edgeComparator g) m.edges } :: P) ++ n :: B := by
    rw [hL1]; simp
  obtain ⟨_, _, hs2, hL2, hdr2, _, _⟩ :=
    sortEdges_facts (sortEdges g m.cell) _ n B hwf1 hs1 hL1c
  have hid : listSort (edgeComparator (sortEdges g m.cell)) n.edges = n.edges := by
    rw [edgeComparator_congr g _ hdr1]
    exact listSort_sorted_id g h n.edges (hs n hnmem) hsort
  rw [hid] at hL2
  have hL2b : (sortEdges (sortEdges g m.cell) n.cell).nodes.toList
      = (A1 ++ { m with edges := listSort (edgeComparator g) m.edges } :: P) ++ n :: B := hL2
  have hlenA : (A1 ++ ({ m with edges := listSort (edgeComparator g) m.edges } : Node N E)
      :: P).length = (A1 ++ m :: P).length := by simp
  obtain ⟨d2, hd2, hderef2⟩ := cursorDeref_live _ _ n B 0 hs2 hL2b hn
  obtain ⟨d, hd, hderef⟩ := cursorDeref_live g _ n B 0 hs hLc hn
  rw [hdr2, hdr1, hd] at hd2
  have hdd : d = d2 := Option.some.inj hd2
  subst hdd
  rw [hlenA] at hinc hderef2
  refine ⟨_, _, _, _, decrement_prev g A1 m P n B h hs hL hm hP, hinc, cursorEq_self _ _, ?_⟩
  rw [hderef2, hderef]

end CursorLemmas

/-! ## Queries -/

section QuerySpecLemmas

variable {N E : Type} [LinearOrder N] [LinearOrder E]

theorem mapFind_of_IsNode (g : Graph N E) (v : N) (h : IsNode g v = true) :
    ∃ s, mapFind g.nodes v = some s := by
  rw [IsNode_eq] at h
  exact Option.isSome_iff_exists.mp h

theorem edgesFrom_of_find (g : Graph N E) (v : N) (s : Node N E)
    (h : mapFind g.nodes v = some s) : edgesFrom g v = visible g s.edges := by
  unfold edgesFrom
  rw [h]

theorem weightScan_mem (g : Graph N E) (dst : N) (es : List (Cell × E)) (w : E) :
    w ∈ weightScan g dst es ↔ (dst, w) ∈ visible g es := by
  induction es with
  | nil => simp [weightScan, visible]
  | cons e es ih =>
    unfold visible at ih ⊢
    cases hd : deref g e.1 with
    | none => simpa [weightScan, hd] using ih
    | some v =>
      by_cases hv : v = dst
      · subst hv
        simp only [weightScan, hd, if_true, List.filterMap_cons, Option.map_some',
          List.mem_cons, Prod.mk.injEq, true_and, ih]
      · have hne : ¬ ((dst, w) = (v, e.2)) := fun e2 =>
          hv (by simp only [Prod.mk.injEq] at e2; exact e2.1.symm)
        simp only [weightScan, hd, hv, if_false, List.filterMap_cons, Option.map_some',
          List.mem_cons, hne, false_or]
        exact ih

theorem weightScan_nodup (g : Graph N E) (dst : N) (es : List (Cell × E))
    (h : (visible g es).Nodup) : (weightScan g dst es).Nodup := by
  induction es with
  | nil => simp [weightScan]
  | cons e es ih =>
    have hm := weightScan_mem g dst es
    unfold visible at h ih hm
    cases hd : deref g e.1 with
    | none =>
      simp only [List.filterMap_cons, hd, Option.map_none'] at h
      simpa [weightScan, hd] using ih h
    | some v =>
      simp only [List.filterMap_cons, hd, Option.map_some', List.nodup_cons] at h
      by_cases hv : v = dst
      · subst hv
        simp only [weightScan, hd, if_true, List.nodup_cons]
        exact ⟨fun hin => h.1 ((hm e.2).mp hin), ih h.2⟩
      · simp only [weightScan, hd, hv, if_false]
        exact ih h.2

theorem sorted_le_insertionSort (l : List E) :
    (l.insertionSort (fun a b => a ≤ b)).Pairwise (fun a b => a ≤ b) :=
  List.sorted_insertionSort (fun a b => a ≤ b) l

theorem strict_of_nodup (l : List E) (h : l.Pairwise (fun a b => a ≤ b)) (hn : l.Nodup) :
    l.Pairwise (fun a b => a < b) := by
  refine List.Pairwise.imp ?_ (List.Pairwise.and h hn)
  rintro a b ⟨hle, hne⟩
  exact lt_of_le_of_ne hle hne

theorem GetWeights_eq (g : Graph N E) (src dst : N) (s : Node N E)
    (hs : mapFind g.nodes src = some s) (hd : IsNode g dst = true) :
    GetWeights g src dst
      = .ok ((weightScan g dst s.edges).insertionSort (fun a b => a ≤ b)) := by
  have hsn : IsNode g src = true := by rw [IsNode_eq, hs]; rfl
  simp [GetWeights, hsn, hd, hs]

theorem GetWeights_ok (g : Graph N E) (src dst : N) (hs : IsNode g src = true)
    (hd : IsNode g dst = true) :
    ∃ l, GetWeights g src dst = .ok l ∧ l.Pairwise (fun a b => a ≤ b) ∧
      (∀ w, w ∈ l ↔ (dst, w) ∈ edgesFrom g src) ∧
      ((edgesFrom g src).Nodup → l.Pairwise (fun a b => a < b)) := by
  obtain ⟨s, hf⟩ := mapFind_of_IsNode g src hs
  have hperm := List.perm_insertionSort (fun a b : E => a ≤ b) (weightScan g dst s.edges)
  refine ⟨_, GetWeights_eq g src dst s hf hd, sorted_le_insertionSort _, ?_, ?_⟩
  · intro w
    rw [hperm.mem_iff, weightScan_mem, edgesFrom_of_find g src s hf]
  · intro hn
    rw [edgesFrom_of_find g src s hf] at hn
    exact strict_of_nodup _ (sorted_le_insertionSort _)
      (hperm.nodup_iff.mpr (weightScan_nodup g dst s.edges hn))

theorem connectedCollect_live (g : Graph N E) (es : List (Cell × E)) :
    (∀ e ∈ es, Live g e) → ∀ vec : List N, vec.Nodup →
      ∃ r, connectedCollect g es vec = .ok r ∧ r.Nodup ∧
        ∀ d, d ∈ r ↔ (d ∈ vec ∨ ∃ w, (d, w) ∈ visible g es) := by
  induction es with
  | nil =>
    intro _ vec hv
    exact ⟨vec, rfl, hv, by simp [visible]⟩
  | cons e es ih =>
    intro hl vec hv
    obtain ⟨v, hd⟩ := Option.isSome_iff_exists.mp (hl e (by simp))
    have hvis : ∀ d, (∃ w, (d, w) ∈ visible g (e :: es)) ↔
        (d = v ∨ ∃ w, (d, w) ∈ visible g es) := by
      intro d
      unfold visible
      simp only [List.filterMap_cons, hd, Option.map_some', List.mem_cons, Prod.mk.injEq]
      constructor
      · rintro ⟨w, h1 | h1⟩
        · exact Or.inl h1.1
        · exact Or.inr ⟨w, h1⟩
      · rintro (h1 | ⟨w, h1⟩)
        · exact ⟨e.2, Or.inl ⟨h1, rfl⟩⟩
        · exact ⟨w, Or.inr h1⟩
    by_cases hc : vec.count v < 1
    · have hnot : v ∉ vec := by
        intro hin
        have := List.one_le_count_iff.mpr hin
        omega
      have hv2 : (vec ++ [v]).Nodup := by
        rw [List.nodup_append]
        refine ⟨hv, List.nodup_singleton v, ?_⟩
        intro a ha hb
        rw [List.mem_singleton] at hb
        exact hnot (hb ▸ ha)
      obtain ⟨r, hr, hrn, hrm⟩ := ih (fun e he => hl e (by simp [he])) (vec ++ [v]) hv2
      refine ⟨r, by simp only [connectedCollect, hd, hc, if_true]; exact hr, hrn, ?_⟩
      intro d
      rw [hrm d, hvis d, List.mem_append, List.mem_singleton, or_assoc]
    · have hin : v ∈ vec := by
        by_contra hnot
        rw [List.count_eq_zero_of_not_mem hnot] at hc
        exact hc (by omega)
      obtain ⟨r, hr, hrn, hrm⟩ := ih (fun e he => hl e (by simp [he])) vec hv
      refine ⟨r, by simp only [connectedCollect, hd, hc, if_false]; exact hr, hrn, ?_⟩
      intro d
      rw [hrm d, hvis d]
      constructor
      · rintro (h1 | h1)
        · exact Or.inl h1
        · exact Or.inr (Or.inr h1)
      · rintro (h1 | h1 | h1)
        · exact Or.inl h1
        · exact Or.inl (h1 ▸ hin)
        · exact Or.inr h1

theorem uniqueFrom_id {α : Type} [DecidableEq α] (l : List α) :
    ∀ first : α, (first :: l).Nodup →
      uniqueFrom (fun a b => decide (a = b)) first l = first :: l := by
  induction l with
  | nil => intro first _; rfl
  | cons b l ih =>
    intro first h
    have hne : first ≠ b := by
      intro e
      rw [List.nodup_cons] at h
      exact h.1 (by rw [e]; simp)
    have h2 : (b :: l).Nodup := (List.nodup_cons.mp h).2
    simp only [uniqueFrom, hne, decide_False, Bool.false_eq_true, if_false, ih b h2]

theorem uniqueInPlace_id {α : Type} [DecidableEq α] (l : List α) (h : l.Nodup) :
    uniqueInPlace l = l := by
  cases l with
  | nil => rfl
  | cons a l =>
    simp only [uniqueInPlace, listUnique, uniqueFrom_id l a h, List.drop_length,
      List.append_nil]

theorem GetConnected_live (g : Graph N E) (src : N) (s : Node N E)
    (hs : mapFind g.nodes src = some s) (hl : ∀ e ∈ s.edges, Live g e) :
    ∃ l, GetConnected g src = .ok l ∧ l.Pairwise (fun a b => a < b) ∧
      ∀ d, d ∈ l ↔ ∃ w, (d, w) ∈ edgesFrom g src := by
  have hsn : IsNode g src = true := by rw [IsNode_eq, hs]; rfl
  obtain ⟨r, hr, hrn, hrm⟩ := connectedCollect_live g s.edges hl [] List.nodup_nil
  have hperm := List.perm_insertionSort (fun a b : N => a ≤ b) r
  have hsorted : (r.insertionSort (fun a b => a ≤ b)).Pairwise (fun a b => a ≤ b) :=
    List.sorted_insertionSort (fun a b => a ≤ b) r
  have hnd : (r.insertionSort (fun a b => a ≤ b)).Nodup := hperm.nodup_iff.mpr hrn
  have hstrict : (r.insertionSort (fun a b => a ≤ b)).Pairwise (fun a b => a < b) := by
    refine List.Pairwise.imp ?_ (List.Pairwise.and hsorted hnd)
    rintro a b ⟨hle, hne⟩
    exact lt_of_le_of_ne hle hne
  refine ⟨r.insertionSort (fun a b => a ≤ b), ?_, hstrict, ?_⟩
  · simp only [GetConnected, hsn, Bool.not_true, Bool.false_eq_true, if_false, hs, hr,
      uniqueInPlace_id _ hnd]
  · intro d
    rw [hperm.mem_iff, hrm d, edgesFrom_of_find g src s hs]
    simp

end QuerySpecLemmas

/-! ## Constructors -/

section ConstructorLemmas

variable {N E : Type} [LinearOrder N] [LinearOrder E]

theorem insertRange_eq (ns : List N) :
    ∀ g : Graph N E, applyOps g (ns.map (fun v => BuildOp.node v)) = .ok (insertRange g ns) := by
  induction ns with
  | nil => intro g; rfl
  | cons v ns ih =>
    intro g
    simp only [List.map_cons, applyOps, applyOp, insertRange]
    exact ih _

theorem insertMissing_eq (g : Graph N E) (v : N) :
    insertMissing g v = (InsertNode g v).1 := by
  unfold insertMissing
  cases h : IsNode g v with
  | true => rw [InsertNode_old g v h]; rfl
  | false => rfl

theorem tupleStep_eq (g : Graph N E) (t : N × N × E) :
    tupleStep g t = applyOps g (tupleOps t) := by
  unfold tupleStep tupleOps
  rw [insertMissing_eq, insertMissing_eq]
  show _ = (match applyOp g (BuildOp.node t.1) with
    | .ok g1 => applyOps g1 [BuildOp.node t.2.1, BuildOp.edge t.1 t.2.1 t.2.2]
    | .error f => .error f)
  show _ = (match applyOp (InsertNode g t.1).1 (BuildOp.node t.2.1) with
    | .ok g1 => applyOps g1 [BuildOp.edge t.1 t.2.1 t.2.2]
    | .error f => .error f)
  show _ = (match applyOp (InsertNode (InsertNode g t.1).1 t.2.1).1
      (BuildOp.edge t.1 t.2.1 t.2.2) with
    | .ok g1 => applyOps g1 []
    | .error f => .error f)
  simp only [applyOp]
  cases InsertEdge (InsertNode (InsertNode g t.1).1 t.2.1).1 t.1 t.2.1 t.2.2 <;> rfl

theorem tupleLoop_cons (g : Graph N E) (t : N × N × E) (ts : List (N × N × E)) :
    tupleLoop g (t :: ts) = (match tupleStep g t with
      | .ok g1 => tupleLoop g1 ts
      | .error f => .error f) := rfl

theorem tupleLoop_eq (ts : List (N × N × E)) :
    ∀ g : Graph N E, tupleLoop g ts = applyOps g (ts.flatMap tupleOps) := by
  induction ts with
  | nil => intro g; rfl
  | cons t ts ih =>
    intro g
    rw [tupleLoop_cons, List.flatMap_cons, applyOps_append (tupleOps t) (ts.flatMap tupleOps) g,
      ← tupleStep_eq g t]
    cases tupleStep g t with
    | error f => rfl
    | ok g1 => exact ih g1

theorem tupleStep_ok (g : Graph N E) (t : N × N × E) (h : Clean g) :
    ∃ g1, tupleStep g t = .ok g1 ∧ Clean g1 := by
  have hc2 := InsertNode_clean _ t.2.1 (InsertNode_clean g t.1 h)
  have hs : IsNode (InsertNode (InsertNode g t.1).1 t.2.1).1 t.1 = true :=
    (InsertNode_IsNode _ t.2.1 (InsertNode_clean g t.1 h).1 t.1).mpr
      (Or.inl ((InsertNode_IsNode g t.1 h.1 t.1).mpr (Or.inr rfl)))
  have hd : IsNode (InsertNode (InsertNode g t.1).1 t.2.1).1 t.2.1 = true :=
    (InsertNode_IsNode _ t.2.1 (InsertNode_clean g t.1 h).1 t.2.1).mpr (Or.inr rfl)
  obtain ⟨s, hsm, hsv⟩ := exists_node _ hc2.1 t.1 hs
  obtain ⟨d, hdm, hdv⟩ := exists_node _ hc2.1 t.2.1 hd
  obtain ⟨r, hr, hc, _, _⟩ := InsertEdge_clean _ s d t.2.2 hc2 hsm hdm
  rw [hsv, hdv] at hr
  refine ⟨r.1, ?_, hc⟩
  unfold tupleStep
  rw [insertMissing_eq, insertMissing_eq, hr]

theorem tupleLoop_ok (ts : List (N × N × E)) :
    ∀ g : Graph N E, Clean g → ∃ g1, tupleLoop g ts = .ok g1 := by
  induction ts with
  | nil => intro g _; exact ⟨g, rfl⟩
  | cons t ts ih =>
    intro g h
    obtain ⟨g1, h1, hc1⟩ := tupleStep_ok g t h
    obtain ⟨g2, h2⟩ := ih g1 hc1
    exact ⟨g2, by rw [tupleLoop_cons, h1]; exact h2⟩

theorem tupleOps_node (ts : List (N × N × E)) (u : N) :
    (BuildOp.node u : BuildOp N E) ∈ ts.flatMap tupleOps ↔ ∃ t ∈ ts, u = t.1 ∨ u = t.2.1 := by
  simp only [List.mem_flatMap, tupleOps, List.mem_cons, BuildOp.node.injEq, reduceCtorEq,
    List.mem_singleton, or_false, List.not_mem_nil]

theorem tupleOps_edge (ts : List (N × N × E)) (u d : N) (w : E) :
    BuildOp.edge u d w ∈ ts.flatMap tupleOps ↔ (u, d, w) ∈ ts := by
  simp only [List.mem_flatMap, tupleOps, List.mem_cons, reduceCtorEq, BuildOp.edge.injEq,
    List.mem_singleton, false_or, List.not_mem_nil, or_false]
  constructor
  · rintro ⟨t, ht, rfl, rfl, rfl⟩; exact ht
  · intro ht; exact ⟨(u, d, w), ht, rfl, rfl, rfl⟩

theorem GetNodes_strict (g : Graph N E) (h : Ascending g.nodes) :
    (GetNodes g).Pairwise (fun a b => a < b) := by
  rw [GetNodes_eq g h]; exact h

theorem GetNodes_mem (g : Graph N E) (h : Ascending g.nodes) (v : N) :
    v ∈ GetNodes g ↔ IsNode g v = true := by
  rw [GetNodes_eq g h, IsNode_iff g v h]

theorem clean_allEdges_nodup (g : Graph N E) (h : Clean g) : (allEdges g).Nodup := by
  rw [← (forward_perm g).nodup_iff]
  refine List.Pairwise.imp ?_ (forward_sorted g h)
  intro a b hab e
  exact tripleLt_irrefl a (e ▸ hab)

theorem allEdges_nil (g : Graph N E) (h : WF g) (he : ∀ u, edgesFrom g u = []) :
    allEdges g = [] := by
  rw [List.eq_nil_iff_forall_not_mem]
  rintro ⟨s, d, w⟩ hm
  rw [allEdges_iff_edgesFrom g h, he s] at hm
  simp at hm

theorem sorted_nodup_unique (l1 l2 : List N) (h1 : l1.Pairwise (fun a b => a < b))
    (h2 : l2.Pairwise (fun a b => a ≤ b)) (hn : l2.Nodup) (hm : ∀ v, v ∈ l1 ↔ v ∈ l2) :
    l1 = l2 := by
  have hn1 : l1.Nodup := List.Pairwise.imp (fun hab => ne_of_lt hab) h1
  exact List.eq_of_perm_of_sorted (r := fun a b => a ≤ b)
    ((List.perm_ext_iff_of_nodup hn1 hn).mpr hm)
    (List.Pairwise.imp (fun hab => le_of_lt hab) h1) h2

theorem insertRange_noEdges (ns : List N) :
    ∀ g : Graph N E, (∀ n ∈ g.nodes.toList, n.edges = []) →
      ∀ n ∈ (insertRange g ns).nodes.toList, n.edges = [] := by
  induction ns with
  | nil => intro g h; exact h
  | cons v ns ih =>
    intro g h
    apply ih
    intro n hn
    cases hv : IsNode g v with
    | true =>
      rw [InsertNode_old g v hv] at hn
      exact h n hn
    | false =>
      rcases (InsertNode_mem g v hv n).mp hn with rfl | hn
      · rfl
      · exact h n hn

theorem allEdges_noEdges (g : Graph N E) (h : ∀ n ∈ g.nodes.toList, n.edges = []) :
    allEdges g = [] := by
  unfold allEdges
  rw [List.flatMap_eq_nil_iff]
  intro n hn
  rw [h n hn]
  rfl

end ConstructorLemmas

/-! ## The graph left by `MergeReplace` -/

section AftermathLemmas

variable {N E : Type} [LinearOrder N] [LinearOrder E]

theorem redirectEdgesAfter_agrees (o n src : N) (es : List (Cell × E)) :
    ∀ g : Graph N E,
      redirectEdges o n src g es = settle (redirectEdgesAfter o n src g es) := by
  induction es with
  | nil => intro g; rfl
  | cons e es ih =>
    intro g
    simp only [redirectEdges, redirectEdgesAfter]
    cases redirectEdge o n src g e with
    | error f => rfl
    | ok g1 => exact ih g1

theorem mergeVisitAfter_agrees (o n : N) (g : Graph N E) (c : Cell) :
    mergeVisit o n g c = settle (mergeVisitAfter o n g c) := by
  simp only [mergeVisit, mergeVisitAfter]
  cases nodeAt g c with
  | none => rfl
  | some x =>
    simp only [redirectEdgesAfter_agrees]
    rcases redirectEdgesAfter o n x.value g x.edges with ⟨g1, _ | f⟩ <;> rfl

theorem mergeLoopAfter_agrees (o n : N) (cs : List Cell) :
    ∀ g : Graph N E, mergeLoop o n g cs = settle (mergeLoopAfter o n g cs) := by
  induction cs with
  | nil => intro g; rfl
  | cons c cs ih =>
    intro g
    simp only [mergeLoop, mergeLoopAfter, mergeVisitAfter_agrees]
    rcases mergeVisitAfter o n g c with ⟨g1, _ | f⟩
    · exact ih g1
    · rfl

theorem MergeReplaceAfter_agrees (g : Graph N E) (o n : N) :
    MergeReplace g o n = settle (MergeReplaceAfter g o n) := by
  unfold MergeReplace MergeReplaceAfter
  split
  · rfl
  · cases mapFind g.nodes o with
    | none => rfl
    | some xo =>
      cases mapFind g.nodes n with
      | none => rfl
      | some xn =>
        simp only [mergeLoopAfter_agrees]
        rcases mergeLoopAfter o n _ _ with ⟨g4, _ | f⟩ <;> rfl

end AftermathLemmas

/-! ## Insertion followed by erasure -/

section RoundTripLemmas

variable {N E : Type} [LinearOrder N] [LinearOrder E]

end RoundTripLemmas

/-! ## Termination of the advance -/

section TerminationLemmas

variable {N E : Type} [LinearOrder N] [LinearOrder E]

theorem modifyNode_toList (g : Graph N E) (c : Cell) (f : Node N E → Node N E) :
    (modifyNode g c f).nodes.toList
      = g.nodes.toList.map (fun n => if n.cell = c then f n else n) :=
  toList_map _ g.nodes

theorem edgeCount_sortEdges (g : Graph N E) (c : Cell) :
    edgeCount (sortEdges g c) = edgeCount g := by
  unfold edgeCount sortEdges
  rw [modifyNode_toList, List.map_map]
  congr 1
  apply List.map_congr_left
  intro n _
  simp only [Function.comp]
  split
  · exact (listSort_perm _ _).length_eq
  · rfl

theorem edgeCount_eraseIdx (g : Graph N E) (i k : Nat) (n : Node N E)
    (hn : g.nodes.toList[i]? = some n) (hk : k < n.edges.length) :
    edgeCount (modifyNode g n.cell (fun m => { m with edges := m.edges.eraseIdx k }))
      < edgeCount g := by
  unfold edgeCount
  rw [modifyNode_toList, List.map_map]
  apply List.sum_lt_sum
  · intro x _
    simp only [Function.comp]
    split
    · simp only [List.length_eraseIdx]
      split <;> omega
    · exact le_refl _
  · refine ⟨n, List.mem_iff_getElem?.mpr ⟨i, hn⟩, ?_⟩
    simp only [Function.comp, if_true, List.length_eraseIdx, hk, if_true]
    omega

theorem firstNonEmpty_nonEmpty (L : List (Node N E)) (i : Nat) (m : Node N E)
    (h : L[firstNonEmpty L i]? = some m) : m.edges ≠ [] := by
  unfold firstNonEmpty at h
  obtain ⟨pre, post, hd, hsk, _, hpost⟩ := skipEmpty_spec (L.drop i) i
  rw [hsk, ← List.getElem?_drop, hd, List.getElem?_append_right (le_refl _), Nat.sub_self] at h
  cases post with
  | nil => simp at h
  | cons p rest =>
    simp only [List.getElem?_cons_zero, Option.some.injEq] at h
    subst h
    exact hpost p rest rfl

theorem incClean_progress (g : Graph N E) (i k : Nat) (n : Node N E)
    (hn : g.nodes.toList[i]? = some n) (hk : k < n.edges.length) :
    incClean g ⟨i, k⟩ = .ok (g, ⟨i, k⟩, false) ∨
      ∃ g1 it1 n1, incClean g ⟨i, k⟩ = .ok (g1, it1, true) ∧ edgeCount g1 < edgeCount g ∧
        g1.nodes.toList[it1.node]? = some n1 ∧ it1.edge ≤ n1.edges.length := by
  have he : n.edges[k]? = some (n.edges[k]) := List.getElem?_eq_getElem hk
  unfold incClean
  simp only [hn, he]
  by_cases hx : expired g (n.edges[k]).1 = true
  · right
    rw [if_pos hx]
    refine ⟨_, _, { n with edges := n.edges.eraseIdx k }, rfl,
      edgeCount_eraseIdx g i k n hn hk, ?_, ?_⟩
    · rw [modifyNode_toList, List.getElem?_map, hn]
      simp
    · simp only [List.length_eraseIdx, hk, if_true, listDec]
      split <;> omega
  · left
    rw [if_neg hx]

theorem listInc_le (len p : Nat) : listInc len p ≤ len := by
  unfold listInc
  split <;> omega

theorem incLoop_ok : ∀ (fuel : Nat) (g : Graph N E) (it : Cursor) (n : Node N E),
    edgeCount g < fuel → g.nodes.toList[it.node]? = some n →
    ∃ r, incLoop fuel g it = .ok r := by
  intro fuel
  induction fuel with
  | zero => intro g it n h; omega
  | succ fuel ih =>
    intro g it n hf hn
    have key : (∃ g1 it1, incStep g it = .ok (g1, it1, false)) ∨
        ∃ g1 it1 n1, incStep g it = .ok (g1, it1, true) ∧ edgeCount g1 < edgeCount g ∧
          g1.nodes.toList[it1.node]? = some n1 := by
      unfold incStep
      simp only [hn]
      by_cases hlast : listInc n.edges.length it.edge = n.edges.length
      · rw [if_pos hlast]
        cases hm : g.nodes.toList[firstNonEmpty g.nodes.toList (it.node + 1)]? with
        | none => exact Or.inl ⟨_, _, rfl⟩
        | some m =>
          simp only []
          have hne := firstNonEmpty_nonEmpty _ _ m hm
          have hm1 : (sortEdges g m.cell).nodes.toList[firstNonEmpty g.nodes.toList
              (it.node + 1)]? = some { m with edges := listSort (edgeComparator g) m.edges } := by
            unfold sortEdges
            rw [modifyNode_toList, List.getElem?_map, hm]
            simp
          have hlen : 0 < (listSort (edgeComparator g) m.edges).length := by
            rw [(listSort_perm _ _).length_eq]
            exact List.length_pos.mpr hne
          rcases incClean_progress (sortEdges g m.cell) _ 0 _ hm1 hlen with h1 | h1
          · exact Or.inl ⟨_, _, h1⟩
          · obtain ⟨g1, it1, n1, h1, h2, h3, _⟩ := h1
            rw [edgeCount_sortEdges] at h2
            exact Or.inr ⟨g1, it1, n1, h1, h2, h3⟩
      · rw [if_neg hlast]
        have hlt : listInc n.edges.length it.edge < n.edges.length :=
          lt_of_le_of_ne (listInc_le _ _) hlast
        rcases incClean_progress g it.node _ n hn hlt with h1 | h1
        · exact Or.inl ⟨_, _, h1⟩
        · obtain ⟨g1, it1, n1, h1, h2, h3, _⟩ := h1
          exact Or.inr ⟨g1, it1, n1, h1, h2, h3⟩
    rcases key with ⟨g1, it1, h1⟩ | ⟨g1, it1, n1, h1, h2, h3⟩
    · exact ⟨(g1, it1), by simp only [incLoop, h1]⟩
    · obtain ⟨r, hr⟩ := ih g1 it1 n1 (by omega) h3
      exact ⟨r, by simp only [incLoop, h1, hr]⟩

end TerminationLemmas

/-! ## The two forms of `erase` -/

section EraseFormsLemmas

variable {N E : Type} [LinearOrder N] [LinearOrder E]

theorem visible_perm (g : Graph N E) (es1 es2 : List (Cell × E)) (h : es1.Perm es2) :
    (visible g es1).Perm (visible g es2) :=
  h.filterMap _

theorem setEdges_sub (g : Graph N E) (s : Node N E) (es : List (Cell × E)) (h : WF g)
    (hs : NoStale g) (hm : s ∈ g.nodes.toList) (hsub : ∀ e ∈ es, e ∈ s.edges) :
    WF (setEdges g s.cell es) ∧ NoStale (setEdges g s.cell es) := by
  refine ⟨setEdges_WF g _ _ h (fun e he => h.2.2.2 s hm e (hsub e he)), ?_⟩
  intro y hy e he
  rw [setEdges_deref]
  obtain ⟨x, hx, rfl⟩ := (setEdges_mem g _ _ y).mp hy
  by_cases hc : x.cell = s.cell
  · simp only [hc, if_true] at he
    exact hs s hm e (hsub e he)
  · simp only [hc, if_false] at he
    exact hs x hx e he

theorem setEdges_same (g : Graph N E) (s : Node N E) (es : List (Cell × E)) (h : WF g)
    (hm : s ∈ g.nodes.toList) (hp : es.Perm s.edges) (u : N) :
    (edgesFrom (setEdges g s.cell es) u).Perm (edgesFrom g u) := by
  by_cases hu : u = s.value
  · subst hu
    rw [setEdges_edgesFrom_self g s es h hm, edgesFrom_of_mem g s h hm]
    exact visible_perm g _ _ hp
  · rw [setEdges_edgesFrom_other g s es h hm u hu]

theorem sortEdges_same (g : Graph N E) (A : List (Node N E)) (m : Node N E)
    (B : List (Node N E)) (h : WF g) (hs : NoStale g) (hL : g.nodes.toList = A ++ m :: B) :
    GetNodes (sortEdges g m.cell) = GetNodes g ∧
      ∀ u, (edgesFrom (sortEdges g m.cell) u).Perm (edgesFrom g u) := by
  have hm : m ∈ g.nodes.toList := by rw [hL]; exact mem_mid A m B
  obtain ⟨heq, _⟩ := sortEdges_facts g A m B h hs hL
  rw [heq]
  exact ⟨setEdges_GetNodes g _ _,
    setEdges_same g m _ h hm (listSort_perm (edgeComparator g) m.edges)⟩

theorem increment_wrap_end (g : Graph N E) (A : List (Node N E)) (n : Node N E)
    (B : List (Node N E)) (k : Nat) (hL : g.nodes.toList = A ++ n :: B)
    (hk : listInc n.edges.length k = n.edges.length) (hB : ∀ x ∈ B, x.edges = []) :
    increment g ⟨A.length, k⟩ = .ok (g, ⟨g.nodes.toList.length, n.edges.length⟩) := by
  simp only [increment, incLoop, incStep, hL, getElem?_mid, hk, if_true,
    firstNonEmpty_none A n B hB]
  rw [List.getElem?_eq_none (le_refl _)]

theorem increment_wrap_next (g : Graph N E) (A : List (Node N E)) (n : Node N E)
    (pre : List (Node N E)) (m : Node N E) (rest : List (Node N E)) (k : Nat)
    (h : WF g) (hs : NoStale g) (hL : g.nodes.toList = A ++ n :: (pre ++ m :: rest))
    (hk : listInc n.edges.length k = n.edges.length) (hp : ∀ x ∈ pre, x.edges = [])
    (hm : m.edges ≠ []) :
    increment g ⟨A.length, k⟩
      = .ok (sortEdges g m.cell, ⟨(A ++ n :: pre).length, 0⟩) := by
  have hL2 : g.nodes.toList = (A ++ n :: pre) ++ m :: rest := by rw [hL]; simp
  have hidx : A.length + 1 + pre.length = (A ++ n :: pre).length := by
    simp only [List.length_append, List.length_cons]; omega
  obtain ⟨_, _, hs1, hL1, _, _, hlen⟩ := sortEdges_facts g (A ++ n :: pre) m rest h hs hL2
  have hpos : 0 < (listSort (edgeComparator g) m.edges).length := by
    rw [hlen]; exact List.length_pos.mpr hm
  simp only [increment, incLoop, incStep, hL, getElem?_mid, hk, if_true,
    firstNonEmpty_next A n pre m rest hp hm]
  rw [hidx, ← hL, hL2, getElem?_mid]
  simp only
  rw [incClean_live (sortEdges g m.cell) (A ++ n :: pre) _ rest 0 hs1 hL1 hpos]

theorem pair_perm_cons_erase (l : List (N × E)) (a : N × E) (h : a ∈ l) :
    l.Perm (a :: l.erase a) := by
  induction l with
  | nil => simp at h
  | cons b l ih =>
    by_cases hb : b = a
    · subst hb
      rw [List.erase_cons_head]
    · rw [List.erase_cons_tail (by simpa using hb)]
      rcases List.mem_cons.mp h with h1 | h1
      · exact absurd h1.symm hb
      · exact (List.Perm.cons b (ih h1)).trans (List.Perm.swap a b _)

theorem pair_perm_erase (l1 l2 : List (N × E)) (a : N × E) (h : l1.Perm l2) :
    (l1.erase a).Perm (l2.erase a) := by
  by_cases ha : a ∈ l1
  · exact (List.perm_cons a).mp (((pair_perm_cons_erase l1 a ha).symm.trans h).trans
      (pair_perm_cons_erase l2 a (h.mem_iff.mp ha)))
  · rw [List.erase_of_not_mem ha, List.erase_of_not_mem (fun h2 => ha (h.mem_iff.mpr h2))]
    exact h

theorem visible_eraseIdx (g : Graph N E) (es : List (Cell × E)) (k : Nat) (hk : k < es.length)
    (d : N) (hd : deref g (es[k]).1 = some d) :
    (visible g (es.eraseIdx k)).Perm ((visible g es).erase (d, (es[k]).2)) := by
  have hsplit : es = es.take k ++ es[k] :: es.drop (k + 1) := by
    rw [← List.drop_eq_getElem_cons hk, List.take_append_drop]
  have h0 : visible g (es[k] :: es.drop (k + 1))
      = (d, (es[k]).2) :: visible g (es.drop (k + 1)) := by
    unfold visible
    simp only [List.filterMap_cons, hd, Option.map_some']
  have h1 : visible g es
      = visible g (es.take k) ++ (d, (es[k]).2) :: visible g (es.drop (k + 1)) := by
    conv_lhs => rw [hsplit]
    rw [visible_append, h0]
  have h2 : visible g (es.eraseIdx k)
      = visible g (es.take k) ++ visible g (es.drop (k + 1)) := by
    rw [List.eraseIdx_eq_take_drop_succ, visible_append]
  have hmem : (d, (es[k]).2) ∈ visible g es := by rw [h1]; simp
  have h3 : (visible g es).Perm ((d, (es[k]).2) :: visible g (es.eraseIdx k)) := by
    rw [h1, h2]
    exact List.perm_middle
  exact (List.perm_cons _).mp (h3.symm.trans (pair_perm_cons_erase _ _ hmem))

theorem canonical_perm (showN : N → String) (showE : E → String) (g1 g2 : Graph N E)
    (hn : GetNodes g1 = GetNodes g2) (he : ∀ u, (edgesFrom g1 u).Perm (edgesFrom g2 u)) :
    canonical showN showE g1 = canonical showN showE g2 := by
  unfold canonical
  rw [hn]
  congr 1
  apply List.map_congr_left
  intro u _
  unfold nodeBlock sortedEdgesFrom
  have hsame : (edgesFrom g1 u).insertionSort lexLE = (edgesFrom g2 u).insertionSort lexLE :=
    sorted_lexLE_unique _ _
      (((List.perm_insertionSort lexLE _).trans (he u)).trans
        (List.perm_insertionSort lexLE _).symm)
      (insertionSort_lexLE_sorted _) (insertionSort_lexLE_sorted _)
  rw [hsame]

theorem erase_facts (g : Graph N E) (s : Node N E) (dst : N) (w : E) (h : WF g) (hs : NoStale g)
    (hm : s ∈ g.nodes.toList) (hd : IsNode g dst = true) :
    WF (erase g s.value dst w).1 ∧ NoStale (erase g s.value dst w).1 ∧
      GetNodes (erase g s.value dst w).1 = GetNodes g ∧
      ((erase g s.value dst w).2 = true ↔ (dst, w) ∈ visible g s.edges) ∧
      edgesFrom (erase g s.value dst w).1 s.value = (edgesFrom g s.value).erase (dst, w) ∧
      ∀ u, u ≠ s.value → edgesFrom (erase g s.value dst w).1 u = edgesFrom g u := by
  rw [erase_eq g s dst w h hm hd]
  simp only
  obtain ⟨h1, h2⟩ := setEdges_sub g s (eraseScan g dst w s.edges).1 h hs hm
    (fun e he => (eraseScan_sublist g dst w s.edges).subset he)
  refine ⟨h1, h2, setEdges_GetNodes g _ _, (eraseScan_visible g dst w s.edges).2, ?_, ?_⟩
  · rw [setEdges_edgesFrom_self g s _ h hm, edgesFrom_of_mem g s h hm]
    exact (eraseScan_visible g dst w s.edges).1
  · intro u hu
    exact setEdges_edgesFrom_other g s _ h hm u hu

theorem findLoop_step (src dst : N) (w : E) (fuel : Nat) (g g1 : Graph N E) (it1 : Cursor)
    (A : List (Node N E)) (n : Node N E) (B : List (Node N E)) (k : Nat) (d : N)
    (hL : g.nodes.toList = A ++ n :: B) (hk : k < n.edges.length)
    (hd : deref g (n.edges[k]).1 = some d)
    (hne : ¬ (n.value = src ∧ (n.edges[k]).2 = w ∧ d = dst))
    (hinc : increment g ⟨A.length, k⟩ = .ok (g1, it1)) :
    findLoop src dst w (fuel + 1) g ⟨A.length, k⟩ = findLoop src dst w fuel g1 it1 := by
  rw [findLoop, cursorEq_mid g A n B k hL]
  simp only [Bool.false_eq_true, if_false, hL, getElem?_mid, List.getElem?_eq_getElem hk]
  by_cases h1 : n.value = src ∧ (n.edges[k]).2 = w
  · have h2 : ¬ d = dst := fun h3 => hne ⟨h1.1, h1.2, h3⟩
    rw [if_pos h1]
    simp only [hd, h2, if_false]
    rw [hinc]
  · rw [if_neg h1, hinc]

theorem findLoop_found (src dst : N) (w : E) (fuel : Nat) (g : Graph N E)
    (A : List (Node N E)) (n : Node N E) (B : List (Node N E)) (k : Nat)
    (hL : g.nodes.toList = A ++ n :: B) (hk : k < n.edges.length)
    (hd : deref g (n.edges[k]).1 = some dst) (hv : n.value = src) (hw : (n.edges[k]).2 = w) :
    findLoop src dst w (fuel + 1) g ⟨A.length, k⟩ = .ok (g, ⟨A.length, k⟩) := by
  rw [findLoop, cursorEq_mid g A n B k hL]
  simp only [Bool.false_eq_true, if_false, hL, getElem?_mid, List.getElem?_eq_getElem hk, hv, hw,
    and_self, if_true, hd]

theorem findLoop_spec (src dst : N) (w : E) : ∀ (fuel : Nat) (g : Graph N E)
    (A : List (Node N E)) (n : Node N E) (B : List (Node N E)) (k : Nat),
    WF g → NoStale g → g.nodes.toList = A ++ n :: B → k < n.edges.length →
    (n.edges.length - k) + edgeSum B < fuel →
    ((n.value = src ∧ ∃ e ∈ n.edges.drop k, deref g e.1 = some dst ∧ e.2 = w) ∨
      ∃ s ∈ B, s.value = src ∧ ∃ e ∈ s.edges, deref g e.1 = some dst ∧ e.2 = w) →
    ∃ g1 A1 n1 B1 k1, findLoop src dst w fuel g ⟨A.length, k⟩ = .ok (g1, ⟨A1.length, k1⟩) ∧
      WF g1 ∧ NoStale g1 ∧ GetNodes g1 = GetNodes g ∧
      (∀ u, (edgesFrom g1 u).Perm (edgesFrom g u)) ∧
      g1.nodes.toList = A1 ++ n1 :: B1 ∧ n1.value = src ∧
      ∃ hk1 : k1 < n1.edges.length,
        deref g1 (n1.edges[k1]).1 = some dst ∧ (n1.edges[k1]).2 = w := by
  intro fuel
  induction fuel with
  | zero => intro g A n B k _ _ _ _ hf; omega
  | succ fuel ih =>
    intro g A n B k h hs hL hk hf hahead
    have hn : n ∈ g.nodes.toList := by rw [hL]; exact mem_mid A n B
    obtain ⟨d, hd⟩ := Option.isSome_iff_exists.mp (hs n hn _ (List.getElem_mem hk))
    by_cases hfound : n.value = src ∧ (n.edges[k]).2 = w ∧ d = dst
    · obtain ⟨hv, hw, rfl⟩ := hfound
      exact ⟨g, A, n, B, k, findLoop_found src d w fuel g A n B k hL hk hd hv hw, h, hs, rfl,
        fun _ => List.Perm.refl _, hL, hv, hk, hd, hw⟩
    · have hnot : ¬ (n.value = src ∧ deref g (n.edges[k]).1 = some dst ∧ (n.edges[k]).2 = w) := by
        rintro ⟨h1, h2, h3⟩
        rw [hd] at h2
        exact hfound ⟨h1, h3, Option.some.inj h2⟩
      by_cases hlast : k + 1 < n.edges.length
      · rw [findLoop_step src dst w fuel g _ _ A n B k d hL hk hd hfound
          (increment_same g A n B k hs hL hlast)]
        refine ih g A n B (k + 1) h hs hL hlast (by omega) ?_
        rcases hahead with ⟨hv, e, he, hed, hew⟩ | hB
        · rw [List.drop_eq_getElem_cons hk] at he
          rcases List.mem_cons.mp he with rfl | he
          · exact absurd ⟨hv, hed, hew⟩ hnot
          · exact Or.inl ⟨hv, e, he, hed, hew⟩
        · exact Or.inr hB
      · have hk1 : k + 1 = n.edges.length := by omega
        have hB : ∃ s ∈ B, s.value = src ∧ ∃ e ∈ s.edges, deref g e.1 = some dst ∧ e.2 = w := by
          rcases hahead with ⟨hv, e, he, hed, hew⟩ | hB
          · rw [List.drop_eq_getElem_cons hk, List.drop_eq_nil_of_le (by omega)] at he
            rw [List.mem_singleton] at he
            subst he
            exact absurd ⟨hv, hed, hew⟩ hnot
          · exact hB
        obtain ⟨s, hsB, hsv, e, he, hed, hew⟩ := hB
        obtain ⟨pre, post, hsplit, _, hpre, hpost⟩ := skipEmpty_spec B 0
        have hspost : s ∈ post := by
          rw [hsplit] at hsB
          rcases List.mem_append.mp hsB with h1 | h1
          · have := hpre s h1
            rw [this] at he
            simp at he
          · exact h1
        cases post with
        | nil => simp at hspost
        | cons m rest =>
          have hm := hpost m rest rfl
          subst hsplit
          have hL2 : g.nodes.toList = (A ++ n :: pre) ++ m :: rest := by rw [hL]; simp
          rw [findLoop_step src dst w fuel g _ _ A n (pre ++ m :: rest) k d hL hk hd hfound
            (increment_wrap_next g A n pre m rest k h hs hL
              (by unfold listInc; rw [if_pos hk]; exact hk1) hpre hm)]
          obtain ⟨_, hwf1, hs1, hL1, hdr, _, hlen⟩ :=
            sortEdges_facts g (A ++ n :: pre) m rest h hs hL2
          obtain ⟨hgn, hperm⟩ := sortEdges_same g (A ++ n :: pre) m rest h hs hL2
          have hpos : 0 < (listSort (edgeComparator g) m.edges).length := by
            rw [hlen]; exact List.length_pos.mpr hm
          have hmeasure : ((listSort (edgeComparator g) m.edges).length - 0) + edgeSum rest
              < fuel := by
            rw [edgeSum_append, edgeSum_cons] at hf
            rw [hlen]
            omega
          obtain ⟨g1, A1, n1, B1, k1, hfl, hw1, hs2, hg1, hp1, hrest⟩ :=
            ih (sortEdges g m.cell) (A ++ n :: pre)
              { m with edges := listSort (edgeComparator g) m.edges } rest 0 hwf1 hs1 hL1 hpos
              hmeasure (by
                rcases List.mem_cons.mp hspost with rfl | hr
                · refine Or.inl ⟨hsv, e, ?_, ?_, hew⟩
                  · rw [List.drop_zero]
                    exact (listSort_perm (edgeComparator g) s.edges).mem_iff.mpr he
                  · rw [hdr]; exact hed
                · exact Or.inr ⟨s, hr, hsv, e, he, by rw [hdr]; exact hed, hew⟩)
          exact ⟨g1, A1, n1, B1, k1, hfl, hw1, hs2, hg1.trans hgn,
            fun u => (hp1 u).trans (hperm u), hrest⟩

theorem find_spec (g : Graph N E) (src dst : N) (w : E) (h : WF g) (hs : NoStale g)
    (hp : (dst, w) ∈ edgesFrom g src) :
    IsNode g src = true ∧ IsNode g dst = true ∧
    ∃ g1 A1 n1 B1 k1, find g src dst w = .ok (g1, ⟨A1.length, k1⟩) ∧
      WF g1 ∧ NoStale g1 ∧ GetNodes g1 = GetNodes g ∧
      (∀ u, (edgesFrom g1 u).Perm (edgesFrom g u)) ∧
      g1.nodes.toList = A1 ++ n1 :: B1 ∧ n1.value = src ∧
      ∃ hk1 : k1 < n1.edges.length,
        deref g1 (n1.edges[k1]).1 = some dst ∧ (n1.edges[k1]).2 = w := by
  unfold edgesFrom at hp
  cases hf : mapFind g.nodes src with
  | none => rw [hf] at hp; simp at hp
  | some s =>
    rw [hf] at hp
    simp only at hp
    obtain ⟨hsm, hsv⟩ := (mapFind_some_iff g.nodes src s h.1).mp hf
    obtain ⟨e, he, hed, hew⟩ := (visible_mem g s.edges dst w).mp hp
    have hsrc : IsNode g src = true :=
      (IsNode_iff g src h.1).mpr (List.mem_map.mpr ⟨s, hsm, hsv⟩)
    have hdst : IsNode g dst = true := by
      obtain ⟨x, hx, _, hxv⟩ := (deref_some_iff g e.1 dst h.2.1).mp hed
      exact (IsNode_iff g dst h.1).mpr (List.mem_map.mpr ⟨x, hx, hxv⟩)
    refine ⟨hsrc, hdst, ?_⟩
    obtain ⟨pre, post, hsplit, _, hpre, hpost⟩ := skipEmpty_spec g.nodes.toList 0
    have hspost : s ∈ post := by
      rw [hsplit] at hsm
      rcases List.mem_append.mp hsm with h1 | h1
      · have := hpre s h1
        rw [this] at he
        simp at he
      · exact h1
    cases post with
    | nil => simp at hspost
    | cons m rest =>
      have hm := hpost m rest rfl
      obtain ⟨_, hwf1, hs1, hL1, hdr, _, hlen⟩ := sortEdges_facts g pre m rest h hs hsplit
      obtain ⟨hgn, hperm⟩ := sortEdges_same g pre m rest h hs hsplit
      have hpos : 0 < (listSort (edgeComparator g) m.edges).length := by
        rw [hlen]; exact List.length_pos.mpr hm
      have hmeasure : ((listSort (edgeComparator g) m.edges).length - 0) + edgeSum rest
          < edgeCount (sortEdges g m.cell) + 1 := by
        rw [edgeCount_eq, hL1, edgeSum_append, edgeSum_cons]
        simp only
        omega
      obtain ⟨g1, A1, n1, B1, k1, hfl, hw1, hs2, hg1, hp1, hrest⟩ :=
        findLoop_spec src dst w (edgeCount (sortEdges g m.cell) + 1) (sortEdges g m.cell) pre
          { m with edges := listSort (edgeComparator g) m.edges } rest 0 hwf1 hs1 hL1 hpos
          hmeasure (by
            rcases List.mem_cons.mp hspost with rfl | hr
            · refine Or.inl ⟨hsv, e, ?_, ?_, hew⟩
              · rw [List.drop_zero]
                exact (listSort_perm (edgeComparator g) s.edges).mem_iff.mpr he
              · rw [hdr]; exact hed
            · exact Or.inr ⟨s, hr, hsv, e, he, by rw [hdr]; exact hed, hew⟩)
      refine ⟨g1, A1, n1, B1, k1, ?_, hw1, hs2, hg1.trans hgn,
        fun u => (hp1 u).trans (hperm u), hrest⟩
      unfold find
      rw [hsrc, hdst, cbegin_first g pre m rest h hs hsplit hpre hm]
      simp only [Bool.and_self, if_true]
      exact hfl

theorem eraseAt_spec (g : Graph N E) (A : List (Node N E)) (n : Node N E)
    (B : List (Node N E)) (k : Nat) (h : WF g) (hs : NoStale g)
    (hL : g.nodes.toList = A ++ n :: B) (hk : k < n.edges.length) :
    ∃ g2 it2, eraseAt g ⟨A.length, k⟩ = .ok (g2, it2) ∧ WF g2 ∧ NoStale g2 ∧
      GetNodes g2 = GetNodes g ∧
      (edgesFrom g2 n.value).Perm (visible g (n.edges.eraseIdx k)) ∧
      ∀ u, u ≠ n.value → (edgesFrom g2 u).Perm (edgesFrom g u) := by
  have hn : n ∈ g.nodes.toList := by rw [hL]; exact mem_mid A n B
  have hmod : modifyNode g n.cell (fun m => { m with edges := m.edges.eraseIdx k })
      = setEdges g n.cell (n.edges.eraseIdx k) :=
    modifyNode_setEdges g n (fun es => es.eraseIdx k) h.2.1 hn
  obtain ⟨hwf1, hs1⟩ := setEdges_sub g n (n.edges.eraseIdx k) h hs hn
    (fun e he => List.mem_of_mem_eraseIdx he)
  have hL1 := setEdges_toList g A n B (n.edges.eraseIdx k) h.2.1 hL
  have hgn := setEdges_GetNodes g n.cell (n.edges.eraseIdx k)
  have hself := setEdges_edgesFrom_self g n (n.edges.eraseIdx k) h hn
  have hother := fun u hu => setEdges_edgesFrom_other g n (n.edges.eraseIdx k) h hn u hu
  unfold eraseAt
  rw [cursorEq_mid g A n B k hL]
  simp only [Bool.false_eq_true, if_false, hL, getElem?_mid, hk, if_true, hmod]
  by_cases hlast : k = n.edges.length - 1
  · rw [if_pos hlast]
    have hwrap : listInc ({ n with edges := n.edges.eraseIdx k } : Node N E).edges.length
        (listDec (n.edges.length - 1) k)
        = ({ n with edges := n.edges.eraseIdx k } : Node N E).edges.length := by
      simp only [List.length_eraseIdx, hk, if_true]
      unfold listInc listDec
      by_cases hk0 : k = 0
      · rw [if_pos hk0, if_neg (lt_irrefl _)]
        omega
      · rw [if_neg hk0, if_pos (by omega)]
        omega
    obtain ⟨pre, post, hsplit, _, hpre, hpost⟩ := skipEmpty_spec B 0
    cases post with
    | nil =>
      rw [List.append_nil] at hsplit
      subst hsplit
      rw [increment_wrap_end _ A _ B _ hL1 hwrap hpre]
      exact ⟨_, _, rfl, hwf1, hs1, hgn, by rw [hself], fun u hu => by rw [hother u hu]⟩
    | cons m rest =>
      have hm := hpost m rest rfl
      subst hsplit
      have hL2 : (setEdges g n.cell (n.edges.eraseIdx k)).nodes.toList
          = (A ++ { n with edges := n.edges.eraseIdx k } :: pre) ++ m :: rest := by
        rw [hL1]; simp
      rw [increment_wrap_next _ A _ pre m rest _ hwf1 hs1 hL1 hwrap hpre hm]
      obtain ⟨_, hwf2, hs2, _, _, _, _⟩ := sortEdges_facts _ _ m rest hwf1 hs1 hL2
      obtain ⟨hgn2, hperm2⟩ := sortEdges_same _ _ m rest hwf1 hs1 hL2
      refine ⟨_, _, rfl, hwf2, hs2, hgn2.trans hgn, ?_, ?_⟩
      · exact (hperm2 n.value).trans (by rw [hself])
      · intro u hu
        exact (hperm2 u).trans (by rw [hother u hu])
  · rw [if_neg hlast]
    exact ⟨_, _, rfl, hwf1, hs1, hgn, by rw [hself], fun u hu => by rw [hother u hu]⟩

theorem erase_forms_same (showN : N → String) (showE : E → String) (g : Graph N E)
    (src dst : N) (w : E) (h : WF g) (hs : NoStale g) (hp : (dst, w) ∈ edgesFrom g src) :
    ∃ g1 it g2 it2, find g src dst w = .ok (g1, it) ∧ eraseAt g1 it = .ok (g2, it2) ∧
      (erase g src dst w).2 = true ∧
      (render showN showE g2).2 = (render showN showE (erase g src dst w).1).2 := by
  obtain ⟨hsrc, hdst, g1, A1, n1, B1, k1, hfind, hwf1, hs1, hgn1, hperm1, hL1, hv1, hk1, hd1,
    hw1⟩ := find_spec g src dst w h hs hp
  obtain ⟨g2, it2, herase, hwf2, hs2, hgn2, hself2, hother2⟩ :=
    eraseAt_spec g1 A1 n1 B1 k1 hwf1 hs1 hL1 hk1
  obtain ⟨s, hsm, rfl⟩ := exists_node g h src hsrc
  obtain ⟨hwf3, hs3, hgn3, hres3, hself3, hother3⟩ := erase_facts g s dst w h hs hsm hdst
  have hn1 : n1 ∈ g1.nodes.toList := by rw [hL1]; exact mem_mid A1 n1 B1
  refine ⟨g1, _, g2, it2, hfind, herase, ?_, ?_⟩
  · rw [hres3, ← edgesFrom_of_mem g s h hsm]
    exact hp
  · rw [render_canonical showN showE g2 hwf2 hs2, render_canonical showN showE _ hwf3 hs3]
    apply canonical_perm
    · rw [hgn2, hgn1, hgn3]
    · intro u
      by_cases hu : u = s.value
      · subst hu
        rw [hself3, ← hv1]
        refine hself2.trans ?_
        have h4 := visible_eraseIdx g1 n1.edges k1 hk1 dst hd1
        rw [hw1, ← edgesFrom_of_mem g1 n1 hwf1 hn1, hv1] at h4
        rw [hv1]
        exact h4.trans (pair_perm_erase _ _ _ (hperm1 s.value))
      · rw [hother3 u hu]
        exact (hother2 u (by rw [hv1]; exact hu)).trans (hperm1 u)

end EraseFormsLemmas

/-! ## The claims -/

section Claims

variable {N E : Type} [LinearOrder N] [LinearOrder E]

/-- C1 (evaluation at the failing input): the graph with the single node 2 whose edge list still
stores the edge to the deleted node 1 is produced by `InsertNode 1`, `InsertNode 2`,
`InsertEdge 2 1 5`, `DeleteNode 1`; on it both endpoints of `InsertEdge 2 2 7` are nodes and no
edge (2, 2, 7) is present, yet the call does not return true: the scan dereferences the expired
entry. -/
theorem InsertEdge_stale_entry :
    InsertEdge twoNodes 2 1 5 = .ok (edgeToOne, true) ∧
    DeleteNode edgeToOne 1 = (staleToOne, true) ∧
    IsNode staleToOne 2 = true ∧
    edgesFrom staleToOne 2 = [] ∧
    InsertEdge staleToOne 2 2 7 = .error .null_deref :=
  ⟨rfl, rfl, rfl, rfl, rfl⟩

/-- Member `InsertNode` on a well-formed graph, the graphs on which the statement of C3 holds:
`InsertNode v` returns true exactly when `v` was not a node;
afterwards `v` is a node, `GetNodes` is the previous list with `v` inserted at its place (the same
list when `v` was present), the new record has no edge, every other value has the record it had
(so it is a node exactly when it was one, with the same stored edges), the visible edges of every
node are the same, and the graph is unchanged when `v` was already a node. -/
theorem InsertNode_spec (g : Graph N E) (v : N) (h : WF g) :
    (InsertNode g v).2 = !IsNode g v ∧
    IsNode (InsertNode g v).1 v = true ∧
    GetNodes (InsertNode g v).1
      = (if IsNode g v = true then GetNodes g
         else (GetNodes g).orderedInsert (fun a b => a ≤ b) v) ∧
    (IsNode g v = false → mapFind (InsertNode g v).1.nodes v = some (newNode g v)) ∧
    (∀ u, u ≠ v → mapFind (InsertNode g v).1.nodes u = mapFind g.nodes u) ∧
    (∀ u, u ≠ v → IsNode (InsertNode g v).1 u = IsNode g u) ∧
    (∀ u, edgesFrom (InsertNode g v).1 u = edgesFrom g u) ∧
    (IsNode g v = true → (InsertNode g v).1 = g) := by
  cases hv : IsNode g v with
  | true =>
    rw [InsertNode_old g v hv]
    simp [hv]
  | false =>
    have hwf := InsertNode_WF g v h
    have hmem := InsertNode_mem g v hv
    have hnew := InsertNode_mapFind_new g v h hv
    have hother := InsertNode_mapFind_other g v h hv
    refine ⟨?_, ?_, ?_, fun _ => hnew, hother, ?_, ?_, ?_⟩
    · rw [InsertNode_new g v hv]; rfl
    · rw [IsNode_eq, hnew]; rfl
    · rw [GetNodes_eq _ hwf.1, GetNodes_eq g h.1]
      simp only [Bool.false_eq_true, if_false]
      have hsorted : ∀ t : Tree (Node N E), Ascending t →
          (t.toList.map Node.value).Sorted (fun a b => a ≤ b) :=
        fun t ht => List.Pairwise.imp (fun hab => le_of_lt hab) ht
      apply List.eq_of_perm_of_sorted _ (hsorted _ hwf.1)
        ((hsorted _ h.1).orderedInsert v _)
      rw [InsertNode_new g v hv]
      exact ((mapAttach_perm g.nodes (newNode g v)).map Node.value).trans
        (List.perm_orderedInsert _ v _).symm
    · intro u hu
      rw [IsNode_eq, IsNode_eq, hother u hu]
    · intro u
      unfold edgesFrom
      by_cases hu : u = v
      · subst hu
        have hnone : mapFind g.nodes u = none := by
          rw [IsNode_eq] at hv
          cases hf : mapFind g.nodes u with
          | none => rfl
          | some x => rw [hf] at hv; simp at hv
        rw [hnew, hnone]
        rfl
      · rw [hother u hu]
        cases hf : mapFind g.nodes u with
        | none => rfl
        | some x =>
          have hx := ((mapFind_some_iff g.nodes u x h.1).mp hf).1
          apply visible_congr
          intro e he
          rw [InsertNode_deref g v h hv e.1]
          have hlt : e.1 < g.fresh := h.2.2.2 x hx e he
          have : e.1 ≠ g.fresh := Nat.ne_of_lt hlt
          simp [this]
    · intro hc; simp at hc

/-- Instance of `InsertNode_spec`: `InsertNode 3` on the sample graph. -/
theorem InsertNode_spec_witness :
    WF sampleGraph ∧ (InsertNode sampleGraph 3).2 = !IsNode sampleGraph 3 ∧
      IsNode (InsertNode sampleGraph 3).1 3 = true :=
  ⟨by decide, (InsertNode_spec sampleGraph 3 (by decide)).1,
    (InsertNode_spec sampleGraph 3 (by decide)).2.1⟩

/-- Member `DeleteNode` on a well-formed graph, the graphs on which the statement of C4 holds:
`DeleteNode v` returns false and leaves the graph unchanged when
`v` is not a node; otherwise it returns true, `v` is no longer a node, `GetNodes` is the previous
list without `v`, and every other value keeps its record (so every other node is still a
node). -/
theorem DeleteNode_spec (g : Graph N E) (v : N) (h : WF g) :
    (IsNode g v = false → DeleteNode g v = (g, false)) ∧
    (IsNode g v = true →
      (DeleteNode g v).2 = true ∧
      IsNode (DeleteNode g v).1 v = false ∧
      GetNodes (DeleteNode g v).1 = (GetNodes g).filter (fun u => decide (u ≠ v)) ∧
      (∀ u, u ≠ v → mapFind (DeleteNode g v).1.nodes u = mapFind g.nodes u) ∧
      (∀ u, u ≠ v → IsNode (DeleteNode g v).1 u = IsNode g u)) := by
  refine ⟨DeleteNode_absent g v, fun hn => ?_⟩
  have hwf := DeleteNode_WF g v h
  have hother := DeleteNode_mapFind_other g v h hn
  refine ⟨?_, DeleteNode_not_node g v h hn, ?_, hother, ?_⟩
  · rw [DeleteNode_present g v hn]
  · obtain ⟨x, hx, hxv⟩ := List.mem_map.mp ((IsNode_iff g v h.1).mp hn)
    rw [GetNodes_eq _ hwf.1, GetNodes_eq g h.1, DeleteNode_toList g v x h hx hxv,
      List.filter_map]
    congr 1
    apply List.filter_congr
    intro y hy
    have := cell_eq_iff_value_eq g h y x hy hx
    simp only [Function.comp, ne_eq, decide_not, Bool.not_eq_eq_eq_not, Bool.not_not,
      decide_eq_decide]
    rw [this, hxv]
  · intro u hu
    rw [IsNode_eq, IsNode_eq, hother u hu]

/-- Instance of `DeleteNode_spec`: `DeleteNode 2` on the sample graph. -/
theorem DeleteNode_spec_witness :
    WF sampleGraph ∧ IsNode sampleGraph 2 = true ∧ (DeleteNode sampleGraph 2).2 = true ∧
      IsNode (DeleteNode sampleGraph 2).1 2 = false :=
  ⟨by decide, by decide,
    ((DeleteNode_spec sampleGraph 2 (by decide)).2 (by decide)).1,
    ((DeleteNode_spec sampleGraph 2 (by decide)).2 (by decide)).2.1⟩

/-- Deletion and re-insertion on a well-formed graph, the graphs on which the statement of C5
holds: with nodes `s` and `d`, `s ≠ d`, after `DeleteNode d` followed by
`InsertNode d` the call `IsConnected s d` returns false, `GetWeights s d` returns the empty list
and the re-inserted `d` has an empty edge list, whatever edges were stored before. -/
theorem deleted_edges_stay_deleted (g : Graph N E) (s d : N) (h : WF g) (hsd : s ≠ d)
    (hs : IsNode g s = true) (hd : IsNode g d = true) :
    IsConnected (InsertNode (DeleteNode g d).1 d).1 s d = .ok false ∧
    GetWeights (InsertNode (DeleteNode g d).1 d).1 s d = .ok [] ∧
    storedEdges (InsertNode (DeleteNode g d).1 d).1 d = some [] := by
  obtain ⟨xs, hxs, hxsv⟩ := List.mem_map.mp ((IsNode_iff g s h.1).mp hs)
  obtain ⟨xd, hxd, hxdv⟩ := List.mem_map.mp ((IsNode_iff g d h.1).mp hd)
  have hwf1 := DeleteNode_WF g d h
  have hnd1 : IsNode (DeleteNode g d).1 d = false := DeleteNode_not_node g d h hd
  have hfresh1 : (DeleteNode g d).1.fresh = g.fresh := by rw [DeleteNode_present g d hd]
  have hfd : mapFind (InsertNode (DeleteNode g d).1 d).1.nodes d
      = some (newNode (DeleteNode g d).1 d) := InsertNode_mapFind_new _ d hwf1 hnd1
  have hfs : mapFind (InsertNode (DeleteNode g d).1 d).1.nodes s = some xs := by
    rw [InsertNode_mapFind_other _ d hwf1 hnd1 s hsd, DeleteNode_mapFind_other g d h hd s hsd]
    exact (mapFind_some_iff g.nodes s xs h.1).mpr ⟨hxs, hxsv⟩
  have hedges : ∀ e ∈ xs.edges, deref (InsertNode (DeleteNode g d).1 d).1 e.1 ≠ some d := by
    intro e he
    have hlt : e.1 < g.fresh := h.2.2.2 xs hxs e he
    have hne : e.1 ≠ (DeleteNode g d).1.fresh := by rw [hfresh1]; exact Nat.ne_of_lt hlt
    rw [InsertNode_deref _ d hwf1 hnd1 e.1, if_neg hne, DeleteNode_deref g d xd h hxd hxdv e.1]
    by_cases hc : e.1 = xd.cell
    · simp [hc]
    · rw [if_neg hc]
      intro hder
      obtain ⟨y, hy, hyc, hyv⟩ := (deref_some_iff g e.1 d h.2.1).mp hder
      have := (cell_eq_iff_value_eq g h y xd hy hxd).mpr (hyv.trans hxdv.symm)
      exact hc (hyc.symm.trans this)
  refine ⟨?_, ?_, ?_⟩
  · unfold IsConnected
    simp only [IsNode_eq, hfs, hfd, Option.isSome_some, Bool.not_true, Bool.or_self,
      Bool.false_eq_true, if_false, connectedScan_false _ d xs.edges hedges]
  · unfold GetWeights
    simp only [IsNode_eq, hfs, hfd, Option.isSome_some, Bool.not_true, Bool.or_self,
      Bool.false_eq_true, if_false, weightScan_nil _ d xs.edges hedges, List.insertionSort]
  · unfold storedEdges
    rw [hfd]
    rfl

/-- Instance of `deleted_edges_stay_deleted`: nodes 4 and 1 of the sample graph, which has the
edge 4 -> 1 of weight 2. -/
theorem deleted_edges_stay_deleted_witness :
    WF sampleGraph ∧ (4 : Nat) ≠ 1 ∧ IsNode sampleGraph 4 = true ∧ IsNode sampleGraph 1 = true ∧
      GetWeights sampleGraph 4 1 = .ok [2] ∧
      IsConnected (InsertNode (DeleteNode sampleGraph 1).1 1).1 4 1 = .ok false :=
  ⟨by decide, by decide, by decide, by decide, rfl,
    (deleted_edges_stay_deleted sampleGraph 4 1 (by decide) (by decide) (by decide)
      (by decide)).1⟩

/-- C6 (evaluation at the failing input): in the graph with nodes 1 and 2 and the edge 2 -> 1,
after `DeleteNode 1` the call `GetConnected 2` does not return a list: the loop dereferences the
expired entry. -/
theorem GetConnected_stale_entry :
    IsNode edgeToOne 2 = true ∧ IsNode edgeToOne 1 = true ∧
    IsConnected edgeToOne 2 1 = .ok true ∧
    (DeleteNode edgeToOne 1).1 = staleToOne ∧
    GetConnected (DeleteNode edgeToOne 1).1 2 = .error .null_deref :=
  ⟨rfl, rfl, rfl, rfl, rfl⟩

/-- C7 (evaluation at the failing input): in the graph with nodes 1 and 2, inserted in this
order, and the edge 1 -> 2 of weight 0, `Replace 1 3` returns true; afterwards 3 is found and 1 is
not, but the lookup of 2 descends to the left of the root, which now holds 3, so that 2 is no
longer found and `GetWeights 3 2` throws instead of returning the former `GetWeights 1 2`. -/
theorem Replace_breaks_lookup :
    InsertEdge twoNodes 1 2 0 = .ok (edgeToTwo, true) ∧
    IsNode edgeToTwo 1 = true ∧ IsNode edgeToTwo 3 = false ∧ IsNode edgeToTwo 2 = true ∧
    GetWeights edgeToTwo 1 2 = .ok [0] ∧
    Replace edgeToTwo 1 3 = .ok (renamedToThree, true) ∧
    IsNode renamedToThree 3 = true ∧ IsNode renamedToThree 1 = false ∧
    IsNode renamedToThree 2 = false ∧
    GetNodes renamedToThree = [2, 3] ∧
    GetWeights renamedToThree 3 2 = .error (.out_of_range msgGetWeights) :=
  ⟨rfl, rfl, rfl, rfl, rfl, rfl, rfl, rfl, rfl, rfl, rfl⟩

/-- Member `MergeReplace` on the graphs on which the statement of C9 holds: on a well-formed
graph that stores no edge to a deleted node, for distinct nodes
`oldData` and `newData`, `MergeReplace oldData newData` returns; afterwards `oldData` is not a
node, every other value is a node exactly when it was one, the visible edges are exactly the
images of the former edges under the renaming of `oldData` to `newData` in source and
destination, and no (source, destination, weight) triple occurs twice. -/
theorem MergeReplace_spec (g : Graph N E) (oldData newData : N) (h : WF g) (hns : NoStale g)
    (ho : IsNode g oldData = true) (hn : IsNode g newData = true) (hne : oldData ≠ newData) :
    ∃ g', MergeReplace g oldData newData = .ok g' ∧
      IsNode g' oldData = false ∧
      (∀ u, u ≠ oldData → IsNode g' u = IsNode g u) ∧
      (∀ t, t ∈ allEdges g' ↔ ∃ t0 ∈ allEdges g, t = renameEdge oldData newData t0) ∧
      (allEdges g').Nodup := by
  obtain ⟨xo, hxo, hxov⟩ := List.mem_map.mp ((IsNode_iff g oldData h.1).mp ho)
  obtain ⟨xn, hxn, hxnv⟩ := List.mem_map.mp ((IsNode_iff g newData h.1).mp hn)
  subst hxov hxnv
  have hcne : xo.cell ≠ xn.cell := fun e =>
    hne ((cell_eq_iff_value_eq g h xo xn hxo hxn).mp e)
  have hk := mergedNode_keeps g xo.value xo xn
  have hd4 := fun c => mapNodes_deref g _ hk c
  have hpl := fun y (hy : y ∈ g.nodes.toList) => preludeEdges_live g xo xn y hns hxo hxn hy
  have hwf4 : WF (mapNodes g (mergedNode g xo.value xo xn)) := by
    apply mapNodes_WF g _ hk h
    intro y hy e he
    exact live_lt_fresh g h e (processEdges_live g xo.value xn h hxn _ (hpl y hy) e he)
  have hx4o : mergedNode g xo.value xo xn xo ∈
      (mapNodes g (mergedNode g xo.value xo xn)).nodes.toList := by
    rw [mapNodes_toList]; exact List.mem_map.mpr ⟨xo, hxo, rfl⟩
  have hn4 : IsNode (mapNodes g (mergedNode g xo.value xo xn)) xo.value = true := by
    rw [mapNodes_IsNode g _ hk]; exact ho
  have hwf5 := DeleteNode_WF _ xo.value hwf4
  have hL5 : ∀ y, y ∈ (DeleteNode (mapNodes g (mergedNode g xo.value xo xn))
      xo.value).1.nodes.toList ↔
      ∃ x ∈ g.nodes.toList, x.cell ≠ xo.cell ∧ y = mergedNode g xo.value xo xn x := by
    intro y
    rw [DeleteNode_toList _ xo.value _ hwf4 hx4o rfl, List.mem_filter, mapNodes_toList,
      List.mem_map]
    constructor
    · rintro ⟨⟨x, hx, rfl⟩, hc⟩
      refine ⟨x, hx, ?_, rfl⟩
      simpa [mergedNode] using hc
    · rintro ⟨x, hx, hc, rfl⟩
      refine ⟨⟨x, hx, rfl⟩, ?_⟩
      simpa [mergedNode] using hc
  have hd5 : ∀ c, deref (DeleteNode (mapNodes g (mergedNode g xo.value xo xn)) xo.value).1 c
      = if c = xo.cell then none else deref g c := by
    intro c
    rw [DeleteNode_deref _ xo.value _ hwf4 hx4o rfl c, hd4]
    rfl
  have hdo : ∀ c, deref g c = some xo.value → c = xo.cell := fun c hc =>
    deref_inj g h c xo.cell xo.value hc (deref_of_mem g xo h.2.1 hxo)
  have hdn : deref g xn.cell = some xn.value := deref_of_mem g xn h.2.1 hxn
  refine ⟨_, MergeReplace_eq g xo xn h hns hxo hxn hcne,
    DeleteNode_not_node _ xo.value hwf4 hn4, ?_, ?_, ?_⟩
  · intro u hu
    rw [IsNode_eq, DeleteNode_mapFind_other _ xo.value hwf4 hn4 u hu, ← IsNode_eq,
      mapNodes_IsNode g _ hk]
  · rintro ⟨s, d, w⟩
    rw [allEdges_mem]
    constructor
    · rintro ⟨y, hy, hyv, e, he, hde, hew⟩
      obtain ⟨x, hx, hxc, rfl⟩ := (hL5 y).mp hy
      rw [hd5] at hde
      by_cases hec : e.1 = xo.cell
      · rw [if_pos hec] at hde; exact absurd hde (by simp)
      rw [if_neg hec] at hde
      rcases (processEdges_mem g xo.value xn h hxn _ (hpl x hx) e).mp he with
        h1 | ⟨h1, e0, he0, hd0, hw0⟩
      · obtain ⟨x0, hx0, he0, hsrc⟩ := prelude_source g xo xn x h hxo hxn hx hcne e h1
        have hdne : d ≠ xo.value := fun e2 => hec (hdo e.1 (e2 ▸ hde))
        refine ⟨(x0.value, d, w), (allEdges_mem g x0.value d w).mpr
          ⟨x0, hx0, rfl, e, he0, hde, hew⟩, ?_⟩
        simp only [renameEdge, hsrc, if_neg hdne]
        rw [← hyv]
        rfl
      · obtain ⟨x0, hx0, he00, hsrc⟩ := prelude_source g xo xn x h hxo hxn hx hcne e0 he0
        have hdn2 : d = xn.value := by
          rw [h1, hdn] at hde
          exact (Option.some.inj hde).symm
        refine ⟨(x0.value, xo.value, w), (allEdges_mem g x0.value xo.value w).mpr
          ⟨x0, hx0, rfl, e0, he00, hd0, hw0.trans hew⟩, ?_⟩
        simp only [renameEdge, hsrc, if_true, hdn2]
        rw [← hyv]
        rfl
    · rintro ⟨⟨s0, d0, w0⟩, ht0, hren⟩
      obtain ⟨x0, hx0, hx0v, e0, he0, hd0, hw0⟩ := (allEdges_mem g s0 d0 w0).mp ht0
      obtain ⟨x, hx, hxc, hxv, hpre⟩ := prelude_target g xo xn x0 h hxo hxn hx0 hcne e0 he0
      simp only [renameEdge, Prod.mk.injEq] at hren
      obtain ⟨hs, hd, hw⟩ := hren
      refine ⟨mergedNode g xo.value xo xn x, (hL5 _).mpr ⟨x, hx, hxc, rfl⟩, ?_, ?_⟩
      · show x.value = s
        rw [hxv, hs, hx0v]
      · by_cases hdo2 : d0 = xo.value
        · refine ⟨(xn.cell, w0), ?_, ?_, ?_⟩
          · apply (processEdges_mem g xo.value xn h hxn _ (hpl x hx) _).mpr
            exact Or.inr ⟨rfl, e0, hpre, by rw [hd0, hdo2], hw0⟩
          · rw [hd5, if_neg (fun e2 => hcne e2.symm), hdn, hd, if_pos hdo2]
          · exact hw.symm
        · refine ⟨e0, ?_, ?_, ?_⟩
          · apply (processEdges_mem g xo.value xn h hxn _ (hpl x hx) _).mpr
            exact Or.inl hpre
          · have hec : e0.1 ≠ xo.cell := fun e2 => hdo2 (by
              rw [e2, deref_of_mem g xo h.2.1 hxo] at hd0
              exact (Option.some.inj hd0).symm)
            rw [hd5, if_neg hec, hd0, hd, if_neg hdo2]
          · rw [hw0, hw]
  · unfold allEdges
    rw [List.nodup_flatMap]
    constructor
    · intro y hy
      obtain ⟨x, hx, hxc, rfl⟩ := (hL5 y).mp hy
      apply List.Nodup.map
      · intro p q hpq
        simp only [Prod.mk.injEq, true_and] at hpq
        exact Prod.ext hpq.1 hpq.2
      · unfold visible
        apply List.Nodup.filterMap
        · intro a a' b hb hb'
          simp only [Option.mem_def, Option.map_eq_some'] at hb hb'
          obtain ⟨va, hva, hab⟩ := hb
          obtain ⟨va', hva', hab'⟩ := hb'
          have hv : va = va' := by
            have := hab.trans hab'.symm
            simp only [Prod.mk.injEq] at this
            exact this.1
          have hw : a.2 = a'.2 := by
            have := hab.trans hab'.symm
            simp only [Prod.mk.injEq] at this
            exact this.2
          exact Prod.ext (deref_inj _ hwf5 a.1 a'.1 va hva (hv ▸ hva')) hw
        · have := processEdges_strict g xo.value xn h hxn _ (hpl x hx)
          exact this.imp (fun hab e2 => absurd hab (by rw [e2]; exact lt_irrefl _))
    · have hasc : (DeleteNode (mapNodes g (mergedNode g xo.value xo xn))
          xo.value).1.nodes.toList.Pairwise (fun a b => a.value < b.value) :=
        List.pairwise_map.mp hwf5.1
      refine hasc.imp ?_
      intro a b hab
      simp only [Function.onFun]
      intro t hta htb
      obtain ⟨p, _, rfl⟩ := List.mem_map.mp hta
      obtain ⟨q, _, hq⟩ := List.mem_map.mp htb
      simp only [Prod.mk.injEq] at hq
      exact absurd hq.1 (ne_of_gt hab)

/-- Instance of `MergeReplace_spec`: `MergeReplace 1 3` on the graph of the repository test. -/
theorem MergeReplace_spec_witness :
    WF mergeSample ∧ NoStale mergeSample ∧ IsNode mergeSample 1 = true ∧
      IsNode mergeSample 3 = true ∧ (1 : Nat) ≠ 3 ∧
      ∃ g', MergeReplace mergeSample 1 3 = .ok g' ∧ IsNode g' 1 = false ∧
        (allEdges g').Nodup :=
  ⟨by decide, by decide, by decide, by decide, by decide,
    (MergeReplace_spec mergeSample 1 3 (by decide) (by decide) (by decide) (by decide)
      (by decide)).imp (fun _ hg => ⟨hg.1, hg.2.1, hg.2.2.2.2⟩)⟩

/-- The repository test of `MergeReplace`: afterwards 1 is not a node, 3 is, and the weights of
3 -> 3 are [2], those of 3 -> 2 are [0]. -/
theorem MergeReplace_test_scenario :
    ∃ g', MergeReplace mergeSample 1 3 = .ok g' ∧ IsNode g' 1 = false ∧ IsNode g' 3 = true ∧
      GetWeights g' 3 3 = .ok [2] ∧ GetWeights g' 3 2 = .ok [0] ∧
      allEdges g' = [(3, 2, 0), (3, 3, 2)] :=
  ⟨_, rfl, rfl, rfl, rfl, rfl, rfl⟩

/-- C11 (evaluation at the failing input): `InsertNode 1`, `InsertNode 2`, `Replace 1 3`,
`InsertNode 2`, from the empty graph.  After the renaming the lookup of 2 fails, so that
`InsertNode 2` returns true and stores a second node of value 2: `GetNodes` lists 2 twice. -/
theorem Replace_then_InsertNode_duplicates :
    twoNodes = (InsertNode (InsertNode (emptyGraph : Graph Nat Nat) 1).1 2).1 ∧
    Replace twoNodes 1 3 = .ok (renamedNoEdge, true) ∧
    InsertNode renamedNoEdge 2 = (twiceTwo, true) ∧
    GetNodes twiceTwo = [2, 2, 3] ∧
    ¬ (twiceTwo.nodes.toList.map Node.value).Nodup :=
  ⟨rfl, rfl, rfl, rfl, by decide⟩

/-- C12 (evaluation at the failing input): after `InsertNode 1`, `InsertNode 2`, `Replace 1 3`
the index holds the values in the order 3, 2, which is not ascending; the text written by
`operator<<` has the block of 3 before the block of 2, and `IsNode 2` is false although 2 is
stored. -/
theorem Replace_breaks_index_order :
    Replace twoNodes 1 3 = .ok (renamedNoEdge, true) ∧
    renamedNoEdge.nodes.toList.map Node.value = [3, 2] ∧
    ¬ Ascending renamedNoEdge.nodes ∧
    (render (fun n : Nat => toString n) (fun e : Nat => toString e) renamedNoEdge).2
      = "3 (\n)\n2 (\n)\n" ∧
    2 ∈ GetNodes renamedNoEdge ∧
    IsNode renamedNoEdge 2 = false :=
  ⟨rfl, rfl, by decide, by decide, by decide, rfl⟩

/-- C14 (evaluation at the failing input): nodes 1 and 2 with the edges 1 -> 1 (0), 2 -> 1 (5),
2 -> 1 (3) inserted in this order.  The forward traversal ends with (2, 1, 5), the greatest
triple, but on the graph as built the first `--` from `cend()` lands on (2, 1, 3), the edge
stored last, and the second on (2, 1, 5): the list of the last node is not sorted on the way
back from the end. -/
theorem decrement_from_end_unsorted :
    (∃ a b, InsertEdge twoNodes 1 1 0 = .ok (a, true) ∧ InsertEdge a 2 1 5 = .ok (b, true) ∧
      InsertEdge b 2 1 3 = .ok (unsortedLast, true)) ∧
    forwardRange unsortedLast
      = .ok (sortedLast, [(1, 1, 0), (2, 1, 3), (2, 1, 5)]) ∧
    decrement unsortedLast (cend unsortedLast) = .ok (unsortedLast, ⟨1, 1⟩) ∧
    cursorDeref unsortedLast ⟨1, 1⟩ = .ok (2, 1, 3) ∧
    decrement unsortedLast ⟨1, 1⟩ = .ok (unsortedLast, ⟨1, 0⟩) ∧
    cursorDeref unsortedLast ⟨1, 0⟩ = .ok (2, 1, 5) :=
  ⟨⟨_, _, rfl, rfl, rfl⟩, rfl, rfl, rfl, rfl, rfl⟩

/-- C16 (evaluation at the failing input): nodes 1, 2, 3 and the edge 1 -> 3 (5), then
`DeleteNode 3`.  Both 1 and 2 are nodes and there is no edge (1, 2, 5), but `find 1 2 5` does not
return `cend()`: `cbegin` steps over the expired edge to the end and dereferences the list
iterator there. -/
theorem find_on_stale_edges :
    (∃ a, InsertNode twoNodes 3 = (a, true) ∧ InsertEdge a 1 3 5 = .ok (edgeToThree, true)) ∧
    DeleteNode edgeToThree 3 = (onlyStale, true) ∧
    IsNode onlyStale 1 = true ∧ IsNode onlyStale 2 = true ∧
    allEdges onlyStale = [] ∧
    cbegin onlyStale = .error .invalid_iterator ∧
    find onlyStale 1 2 5 = .error .invalid_iterator :=
  ⟨⟨_, rfl, rfl⟩, rfl, rfl, rfl, rfl, rfl, rfl⟩

/-- C18 (evaluation at the failing input): nodes 1, 2, 3 with the edges 1 -> 3 (5) and
1 -> 2 (7), then `DeleteNode 3`.  `cbegin` designates (1, 2, 7), the only visible edge.
`erase` of this cursor removes the edge and returns a cursor that is not the end cursor: it
designates the expired edge, and dereferencing it dereferences an empty pointer. -/
theorem eraseAt_returns_stale :
    InsertEdge edgeToThree 1 2 7 = .ok (edgesToThreeTwo, true) ∧
    DeleteNode edgesToThreeTwo 3 = (staleThenLive, true) ∧
    cbegin staleThenLive = .ok (liveThenStale, ⟨0, 0⟩) ∧
    cursorDeref liveThenStale ⟨0, 0⟩ = .ok (1, 2, 7) ∧
    allEdges liveThenStale = [(1, 2, 7)] ∧
    eraseAt liveThenStale ⟨0, 0⟩ = .ok (onlyStale, ⟨0, 0⟩) ∧
    cursorEq onlyStale ⟨0, 0⟩ (cend onlyStale) = false ∧
    cursorDeref onlyStale ⟨0, 0⟩ = .error .null_deref :=
  ⟨rfl, rfl, rfl, rfl, rfl, rfl, rfl, rfl⟩

/-- The repository tests of the iterator: three `++` from `cbegin()` reach (3, 5, 0), three `--`
from `cend()` reach (3, 4, 1), and the forward traversal is in ascending order. -/
theorem iterator_test_scenarios :
    (∃ g1 c1 g2 c2 g3 c3 g4 c4, cbegin iterSample = .ok (g1, c1) ∧
      increment g1 c1 = .ok (g2, c2) ∧ increment g2 c2 = .ok (g3, c3) ∧
      increment g3 c3 = .ok (g4, c4) ∧ cursorDeref g4 c4 = .ok (3, 5, 0)) ∧
    (∃ g1 c1 g2 c2 g3 c3, decrement iterSample (cend iterSample) = .ok (g1, c1) ∧
      decrement g1 c1 = .ok (g2, c2) ∧ decrement g2 c2 = .ok (g3, c3) ∧
      cursorDeref g3 c3 = .ok (3, 4, 1)) ∧
    (∃ g1, forwardRange iterSample
      = .ok (g1, [(1, 2, 100), (3, 4, 0), (3, 4, 1), (3, 5, 0), (4, 3, 9)])) :=
  ⟨⟨_, _, _, _, _, _, _, _, rfl, rfl, rfl, rfl, rfl⟩, ⟨_, _, _, _, _, _, rfl, rfl, rfl, rfl⟩,
    ⟨_, rfl⟩⟩

/-- Member `erase(src, dst, w)` on a well-formed graph, where the statement of C17 holds up to
edges stored twice: `erase src dst w` returns true exactly when `src` and `dst` are
nodes and the edge is visible.  In every case the visible edges of `src` afterwards are the
former ones without the first occurrence of (dst, w) (so the same list after a false result, and
a list without the edge after a true result when no edge occurred twice), the visible edges of
every other node, the nodes and the index are unchanged, and the graph is still well formed. -/
theorem erase_spec (g : Graph N E) (src dst : N) (w : E) (h : WF g) :
    ((erase g src dst w).2 = true ↔
      (IsNode g src = true ∧ IsNode g dst = true ∧ (dst, w) ∈ edgesFrom g src)) ∧
    edgesFrom (erase g src dst w).1 src = (edgesFrom g src).erase (dst, w) ∧
    ((erase g src dst w).2 = false → ∀ u, edgesFrom (erase g src dst w).1 u = edgesFrom g u) ∧
    ((edgesFrom g src).Nodup → (dst, w) ∉ edgesFrom (erase g src dst w).1 src) ∧
    (∀ u, u ≠ src → edgesFrom (erase g src dst w).1 u = edgesFrom g u) ∧
    (∀ u, IsNode (erase g src dst w).1 u = IsNode g u) ∧
    GetNodes (erase g src dst w).1 = GetNodes g ∧
    WF (erase g src dst w).1 := by
  by_cases hn : IsNode g src = true ∧ IsNode g dst = true
  · obtain ⟨hs, hd⟩ := hn
    obtain ⟨s, hsm, rfl⟩ := List.mem_map.mp ((IsNode_iff g src h.1).mp hs)
    have hsc := eraseScan_visible g dst w s.edges
    have hef := edgesFrom_of_mem g s h hsm
    have hwf : WF (setEdges g s.cell (eraseScan g dst w s.edges).1) :=
      setEdges_WF g _ _ h (fun e he =>
        h.2.2.2 s hsm e ((eraseScan_sublist g dst w s.edges).subset he))
    have hself := setEdges_edgesFrom_self g s (eraseScan g dst w s.edges).1 h hsm
    rw [erase_eq g s dst w h hsm hd]
    simp only
    rw [hself, hsc.1, hef]
    refine ⟨?_, rfl, ?_, fun hn => hn.not_mem_erase, ?_, ?_, ?_, hwf⟩
    · rw [hsc.2]; simp [hs, hd]
    · intro hf u
      by_cases hu : u = s.value
      · subst hu
        rw [hself, hsc.1, hef]
        apply List.erase_of_not_mem
        intro hm
        rw [hsc.2.mpr hm] at hf
        exact absurd hf (by simp)
      · exact setEdges_edgesFrom_other g s _ h hsm u hu
    · exact fun u hu => setEdges_edgesFrom_other g s _ h hsm u hu
    · exact fun u => setEdges_IsNode g _ _ u
    · exact setEdges_GetNodes g _ _
  · have hor : IsNode g src = false ∨ IsNode g dst = false := by
      cases hs : IsNode g src <;> cases hd : IsNode g dst <;> simp_all
    have hnot : (dst, w) ∉ edgesFrom g src := by
      by_cases hs : IsNode g src = true
      · have hd : IsNode g dst = false := by
          rcases hor with h1 | h1
          · rw [h1] at hs; exact absurd hs (by simp)
          · exact h1
        intro hm
        obtain ⟨s, hsm, rfl⟩ := List.mem_map.mp ((IsNode_iff g src h.1).mp hs)
        rw [edgesFrom_of_mem g s h hsm] at hm
        obtain ⟨e, _, hde, _⟩ := (visible_mem g s.edges dst w).mp hm
        obtain ⟨y, hy, _, hyv⟩ := (deref_some_iff g e.1 dst h.2.1).mp hde
        have := (IsNode_iff g dst h.1).mpr (hyv ▸ List.mem_map_of_mem _ hy)
        rw [this] at hd
        exact absurd hd (by simp)
      · have hs2 : IsNode g src = false := by
          cases hs3 : IsNode g src
          · rfl
          · exact absurd hs3 hs
        rw [edgesFrom_absent g src hs2]
        simp
    rw [erase_absent g src dst w hor]
    refine ⟨?_, (List.erase_of_not_mem hnot).symm, fun _ _ => rfl, fun _ => hnot,
      fun _ _ => rfl, fun _ => rfl, rfl, h⟩
    constructor
    · intro hf; exact absurd hf (by simp)
    · rintro ⟨h1, h2, _⟩; exact absurd ⟨h1, h2⟩ hn

/-- Instance of `erase_spec`: `erase 4 1 2` on the sample graph removes the edge 4 -> 1 of
weight 2. -/
theorem erase_spec_witness :
    WF sampleGraph ∧ (erase sampleGraph 4 1 2).2 = true ∧
      edgesFrom (erase sampleGraph 4 1 2).1 4 = [(2, 0)] :=
  ⟨by decide, by decide,
    (erase_spec sampleGraph 4 1 2 (by decide)).2.1.trans (by decide)⟩

/-- C19: for every graph built from the empty graph by node and edge insertions, the text
written by `operator<<` is the rendering of the specification: the concatenation, over the nodes
in ascending value order, of the value followed by " (" and a line break, one line
"  destination | weight" for each edge of the node in ascending (destination, weight) order, and
")" with a line break.  The empty graph renders as the empty text and a lone node `a` as its
value followed by " (", a line break, ")" and a line break.  String nodes and integer weights are
the case where `showN` is the identity and `showE` the decimal notation. -/
theorem render_spec (showN : N → String) (showE : E → String) (ops : List (BuildOp N E))
    (g : Graph N E) (h : applyOps emptyGraph ops = .ok g) :
    (render showN showE g).2 = canonical showN showE g ∧
    (render showN showE (emptyGraph : Graph N E)).2 = "" ∧
    ∀ a : N, (render showN showE (InsertNode (emptyGraph : Graph N E) a).1).2
      = showN a ++ " (\n)\n" := by
  have hc := (applyOps_clean ops emptyGraph g clean_empty h).1
  refine ⟨render_canonical showN showE g hc.1 hc.2.1, rfl, ?_⟩
  intro a
  rw [InsertNode_new _ a (IsNode_empty a)]
  simp only [render, emptyGraph, mapAttach, Tree.toList, List.map, newNode, List.nil_append,
    renderLoop, renderNode, nodeAt, List.find?, decide_True, listSort, renderEdges]
  rw [String.append_empty, String.append_empty, String.append_assoc]
  rfl

/-- C19 (witness): the graph built by `renderOps`, with its text, and the lone string node. -/
theorem render_spec_witness :
    applyOps emptyGraph renderOps = .ok renderSample ∧
    (render (fun n : Nat => toString n) (fun e : Int => toString e) renderSample).2
      = "1 (\n  1 | 7\n  2 | -3\n  2 | 5\n)\n2 (\n  1 | 1\n)\n" ∧
    (render (fun n : String => n) (fun e : Int => toString e)
        (InsertNode (emptyGraph : Graph String Int) "A").1).2 = "A (\n)\n" :=
  ⟨rfl, (render_spec _ _ renderOps renderSample (by rfl)).1.trans (by decide), by decide⟩

/-- C20: two graphs obtained by inserting the same set of node values and then the same set of
edges (with endpoints among the nodes), each in an arbitrary order and possibly with repetitions,
exist and compare equal with `==`, and `!=` returns false on them. -/
theorem graphEq_insertion_order (showN : N → String) (showE : E → String)
    (ns1 ns2 : List N) (es1 es2 : List (N × N × E))
    (hn12 : ∀ v ∈ ns1, v ∈ ns2) (hn21 : ∀ v ∈ ns2, v ∈ ns1)
    (he12 : ∀ t ∈ es1, t ∈ es2) (he21 : ∀ t ∈ es2, t ∈ es1)
    (hend : ∀ t ∈ es1, t.1 ∈ ns1 ∧ t.2.1 ∈ ns1) :
    ∃ g1 g2 : Graph N E, build ns1 es1 = .ok g1 ∧ build ns2 es2 = .ok g2 ∧
      graphEq showN showE g1 g2 = true ∧ graphNe showN showE g1 g2 = false := by
  obtain ⟨g1, hb1, hc1, hnode1, hedge1⟩ := build_spec ns1 es1 hend
  obtain ⟨g2, hb2, hc2, hnode2, hedge2⟩ := build_spec ns2 es2 (E := E) (fun t ht =>
    ⟨hn12 _ (hend t (he21 t ht)).1, hn12 _ (hend t (he21 t ht)).2⟩)
  have heq : (render showN showE g1).2 = (render showN showE g2).2 := by
    rw [render_canonical showN showE g1 hc1.1 hc1.2.1,
      render_canonical showN showE g2 hc2.1 hc2.2.1]
    apply canonical_congr showN showE g1 g2 hc1 hc2
    · intro u
      rw [hnode1 u, hnode2 u]
      exact ⟨hn12 u, hn21 u⟩
    · rintro u ⟨d, w⟩
      rw [hedge1 u d w, hedge2 u d w]
      exact ⟨he12 _, he21 _⟩
  refine ⟨g1, g2, hb1, hb2, ?_, ?_⟩
  · unfold graphEq
    exact decide_eq_true heq
  · unfold graphNe graphEq
    rw [decide_eq_true heq]
    rfl

/-- C20 (witness): the nodes 1, 2, 3 and three edges, inserted in two different orders. -/
theorem graphEq_insertion_order_witness :
    ∃ g1 g2 : Graph Nat Nat,
      build [1, 2, 3] [(1, 2, 5), (1, 2, 3), (2, 1, 1)] = .ok g1 ∧
      build [3, 1, 2, 1] [(2, 1, 1), (1, 2, 3), (1, 2, 5)] = .ok g2 ∧
      graphEq (fun n : Nat => toString n) (fun e : Nat => toString e) g1 g2 = true ∧
      graphNe (fun n : Nat => toString n) (fun e : Nat => toString e) g1 g2 = false :=
  graphEq_insertion_order _ _ [1, 2, 3] [3, 1, 2, 1] _ _
    (by decide) (by decide) (by decide) (by decide) (by decide)

/-- C13: for every graph built from the empty graph by node and edge insertions in any order,
the loop that advances a cursor from `cbegin()` until it equals `cend()` returns, and the triples
it yields are the edges of the graph, each exactly once (a list without repetition, a
rearrangement of the visible edges, holding exactly the edges that were inserted), in strictly
ascending lexicographic order of (source, destination, weight). -/
theorem forwardRange_spec (ops : List (BuildOp N E)) (g : Graph N E)
    (h : applyOps emptyGraph ops = .ok g) :
    ∃ g1 l, forwardRange g = .ok (g1, l) ∧ l.Perm (allEdges g) ∧ l.Nodup ∧
      (∀ s d w, (s, d, w) ∈ l ↔ BuildOp.edge s d w ∈ ops) ∧ l.Pairwise tripleLt := by
  obtain ⟨hc, _, hedge⟩ := applyOps_clean ops emptyGraph g clean_empty h
  obtain ⟨g1, h1⟩ := forwardRange_eq g hc.1 hc.2.1
  have hsorted := forward_sorted g hc
  refine ⟨g1, _, h1, forward_perm g, ?_, ?_, hsorted⟩
  · refine List.Pairwise.imp ?_ hsorted
    intro a b hab e
    exact tripleLt_irrefl a (e ▸ hab)
  · intro s d w
    rw [(forward_perm g).mem_iff, allEdges_iff_edgesFrom g hc.1, hedge s d w, edgesFrom_empty]
    simp

/-- C13 (witness): the traversal of the graph built by `unsortedOps`. -/
theorem forwardRange_spec_witness :
    applyOps emptyGraph unsortedOps = .ok unsortedLast ∧
    forwardRange unsortedLast = .ok (sortedLast, [(1, 1, 0), (2, 1, 3), (2, 1, 5)]) ∧
    ∃ g1 l, forwardRange unsortedLast = .ok (g1, l) ∧ l.Perm (allEdges unsortedLast) ∧
      l.Nodup ∧ (∀ s d w, (s, d, w) ∈ l ↔ BuildOp.edge s d w ∈ unsortedOps) ∧
      l.Pairwise tripleLt :=
  ⟨rfl, rfl, forwardRange_spec unsortedOps unsortedLast (by rfl)⟩

/-- C15: in a well-formed graph without edges to deleted nodes, for every cursor reached from
`cbegin()` by advancing: if the cursor is not at the end, advancing it once and then retreating it
once both return and give a cursor equal to the original; if it is not equal to `cbegin()`,
retreating once and then advancing once both return and give a cursor equal to the original with
the same result of dereferencing, which is a triple unless the cursor is at the end. -/
theorem advance_retreat_round_trip (g0 g : Graph N E) (it : Cursor) (h : WF g0)
    (hs : NoStale g0) (hr : Reached g0 g it) :
    (cursorEq g it (cend g) = false →
      ∃ g1 it1 g2 it2, increment g it = .ok (g1, it1) ∧ decrement g1 it1 = .ok (g2, it2) ∧
        cursorEq g2 it2 it = true) ∧
    (∀ gb itb, cbegin g = .ok (gb, itb) → cursorEq g it itb = false →
      ∃ g1 it1 g2 it2, decrement g it = .ok (g1, it1) ∧ increment g1 it1 = .ok (g2, it2) ∧
        cursorEq g2 it2 it = true ∧ cursorDeref g2 it2 = cursorDeref g it ∧
        (cursorEq g it (cend g) = false → ∃ t, cursorDeref g it = .ok t)) := by
  obtain ⟨hwf, hns, hok⟩ := reached_inv g0 g it h hs hr
  obtain ⟨i, k⟩ := it
  constructor
  · intro hne
    rcases hok with hend | ⟨A, n, B, hL, hnode, hedge, _⟩
    · simp only at hend
      subst hend
      rw [cursorEq_end] at hne
      exact absurd hne (by simp)
    · simp only at hnode hedge
      subst hnode
      exact advance_then_retreat g A n B k hwf hns hL hedge
  · intro gb itb hcb hne
    rcases hok with hend | ⟨A, n, B, hL, hnode, hedge, hsort⟩
    · simp only at hend
      subst hend
      have hex : ∃ m ∈ g.nodes.toList, m.edges ≠ [] := by
        by_contra hno
        have hall : ∀ n ∈ g.nodes.toList, n.edges = [] := by
          intro n hn
          by_contra hne2
          exact hno ⟨n, hn, hne2⟩
        rw [cbegin_none g hall] at hcb
        simp only [Except.ok.injEq, Prod.mk.injEq] at hcb
        rw [← hcb.2, cursorEq_end] at hne
        exact absurd hne (by simp)
      obtain ⟨g1, it1, g2, it2, h1, h2, h3, h4⟩ := retreat_then_advance_end g k hns hex
      refine ⟨g1, it1, g2, it2, h1, h2, h3, h4, ?_⟩
      intro hc
      rw [cursorEq_end] at hc
      exact absurd hc (by simp)
    · simp only at hnode hedge
      subst hnode
      obtain ⟨d, _, hderef⟩ := cursorDeref_live g A n B k hns hL hedge
      cases k with
      | succ k =>
        exact ⟨g, _, g, _, decrement_inside g A n B k hns hL (by omega),
          increment_same g A n B k hns hL hedge, cursorEq_self _ _, rfl, fun _ => ⟨_, hderef⟩⟩
      | zero =>
        have hnmem : n ∈ g.nodes.toList := by rw [hL]; exact mem_mid A n B
        have hnne : n.edges ≠ [] := List.length_pos.mp hedge
        have hex : ∃ m ∈ A, m.edges ≠ [] := by
          obtain ⟨pre0, post, hL0, _, hpre0, hpost0⟩ := skipEmpty_spec g.nodes.toList 0
          cases post with
          | nil =>
            rw [List.append_nil] at hL0
            rw [hL0] at hnmem
            exact absurd (hpre0 n hnmem) hnne
          | cons m0 rest0 =>
            have hm0 := hpost0 m0 rest0 rfl
            rw [cbegin_first g pre0 m0 rest0 hwf hns hL0 hpre0 hm0] at hcb
            simp only [Except.ok.injEq, Prod.mk.injEq] at hcb
            rw [← hcb.2] at hne
            have hlen : A.length ≠ pre0.length := by
              intro e
              rw [e, cursorEq_self] at hne
              exact absurd hne (by simp)
            have heq : pre0 ++ m0 :: rest0 = A ++ n :: B := hL0.symm.trans hL
            rcases List.append_eq_append_iff.mp heq with ⟨a2, ha, hb⟩ | ⟨c2, hc, hd⟩
            · cases a2 with
              | nil =>
                rw [List.append_nil] at ha
                exact absurd (by rw [ha]) hlen
              | cons x a3 =>
                simp only [List.cons_append, List.cons.injEq] at hb
                exact ⟨m0, by rw [ha, hb.1]; simp, hm0⟩
            · cases c2 with
              | nil =>
                rw [List.append_nil] at hc
                exact absurd (by rw [hc]) hlen
              | cons x c3 =>
                simp only [List.cons_append, List.cons.injEq] at hd
                have hin : n ∈ pre0 := by rw [hc, hd.1]; simp
                exact absurd (hpre0 n hin) hnne
        obtain ⟨A1, m, P, rfl, hm, hP⟩ := exists_last_nonEmpty A hex
        have hL2 : g.nodes.toList = A1 ++ m :: (P ++ n :: B) := by rw [hL]; simp
        obtain ⟨g1, it1, g2, it2, h1, h2, h3, h4⟩ :=
          retreat_then_advance_first g A1 m P n B hwf hns hL2 hm hP hedge hsort
        exact ⟨g1, it1, g2, it2, h1, h2, h3, h4, fun _ => ⟨_, hderef⟩⟩

/-- C15 (witness): the cursor on the first edge of node 3 of the test graph, reached from
`cbegin()` by one step; back and forth in both orders. -/
theorem advance_retreat_round_trip_witness :
    WF iterSample ∧ NoStale iterSample ∧
    cbegin iterSample = .ok (iterSample, ⟨0, 0⟩) ∧
    increment iterSample ⟨0, 0⟩ = .ok (iterSample, ⟨2, 0⟩) ∧
    (∃ g1 it1 g2 it2, increment iterSample ⟨2, 0⟩ = .ok (g1, it1) ∧
      decrement g1 it1 = .ok (g2, it2) ∧ cursorEq g2 it2 ⟨2, 0⟩ = true) ∧
    (∃ g1 it1 g2 it2, decrement iterSample ⟨2, 0⟩ = .ok (g1, it1) ∧
      increment g1 it1 = .ok (g2, it2) ∧ cursorEq g2 it2 ⟨2, 0⟩ = true ∧
      cursorDeref g2 it2 = cursorDeref iterSample ⟨2, 0⟩ ∧
      (cursorEq iterSample ⟨2, 0⟩ (cend iterSample) = false →
        ∃ t, cursorDeref iterSample ⟨2, 0⟩ = .ok t)) :=
  ⟨by decide, by decide, rfl, rfl,
    (advance_retreat_round_trip iterSample iterSample ⟨2, 0⟩ (by decide) (by decide)
      (Reached.step _ _ _ _ (Reached.start _ _ (by rfl)) (by rfl))).1 (by decide),
    (advance_retreat_round_trip iterSample iterSample ⟨2, 0⟩ (by decide) (by decide)
      (Reached.step _ _ _ _ (Reached.start _ _ (by rfl)) (by rfl))).2
      iterSample ⟨0, 0⟩ (by rfl) (by decide)⟩

/-- C21 (counterexample): with string node values `==` is not structural.  The graph whose only
node is named by the text "A (", line break, ")", line break, "B" and the graph with the two nodes
A and B are written as the same text, so `==` is true, although their node values differ and B is
a node of the second graph only. -/
theorem graphEq_text_collision :
    InsertNode (emptyGraph : Graph String Int) "A (\n)\nB" = (oddName, true) ∧
    InsertNode (InsertNode (emptyGraph : Graph String Int) "A").1 "B" = (plainAB, true) ∧
    graphEq (fun n : String => n) (fun e : Int => toString e) oddName plainAB = true ∧
    graphNe (fun n : String => n) (fun e : Int => toString e) oddName plainAB = false ∧
    oddName.nodes.toList.map Node.value = ["A (\n)\nB"] ∧
    plainAB.nodes.toList.map Node.value = ["A", "B"] ∧
    IsNode plainAB "B" = true ∧ IsNode oddName "B" = false := by
  have hl : (['A'] : List Char) < ['B'] := by decide
  have hasc : Ascending plainAB.nodes := by
    simp [Ascending, plainAB, Tree.toList, hl]
  refine ⟨rfl, ?_, by decide, by decide, rfl, rfl, ?_, ?_⟩
  · have h1 : (InsertNode (emptyGraph : Graph String Int) "A").1
        = { nodes := .node .nil ⟨0, "A", []⟩ .nil, fresh := 1 } := rfl
    rw [h1]
    simp [InsertNode, IsNode, mapCount, mapFind, lowerBound, mapAttach, hl, plainAB]
  · exact (IsNode_iff plainAB "B" hasc).mpr (by simp [plainAB, Tree.toList])
  · exact (IsNode_false_iff oddName "B" (by simp [Ascending, oddName, Tree.toList])).mpr
      (by decide)

/-- C21 (amended): for two graphs built from the empty graph by node and edge insertions, `==`
holds exactly when the renderings of the specification of the two graphs are the same text, and
`!=` is its negation; `==` holds whenever the two graphs have the same node values and the same
edges.  That equal graphs have the same nodes and edges is not claimed. -/
theorem graphEq_same_text (showN : N → String) (showE : E → String)
    (ops1 ops2 : List (BuildOp N E)) (g1 g2 : Graph N E)
    (h1 : applyOps emptyGraph ops1 = .ok g1) (h2 : applyOps emptyGraph ops2 = .ok g2) :
    (graphEq showN showE g1 g2 = true ↔ canonical showN showE g1 = canonical showN showE g2) ∧
    graphNe showN showE g1 g2 = !graphEq showN showE g1 g2 ∧
    ((∀ u, IsNode g1 u = true ↔ IsNode g2 u = true) →
      (∀ u p, p ∈ edgesFrom g1 u ↔ p ∈ edgesFrom g2 u) → graphEq showN showE g1 g2 = true) := by
  have hc1 := (applyOps_clean ops1 emptyGraph g1 clean_empty h1).1
  have hc2 := (applyOps_clean ops2 emptyGraph g2 clean_empty h2).1
  have hiff : graphEq showN showE g1 g2 = true ↔
      canonical showN showE g1 = canonical showN showE g2 := by
    unfold graphEq
    rw [decide_eq_true_iff, render_canonical showN showE g1 hc1.1 hc1.2.1,
      render_canonical showN showE g2 hc2.1 hc2.2.1]
  exact ⟨hiff, rfl, fun hn he => hiff.mpr (canonical_congr showN showE g1 g2 hc1 hc2 hn he)⟩

/-- C21 (witness): the same nodes and edges inserted in two orders. -/
theorem graphEq_same_text_witness :
    applyOps emptyGraph unsortedOps = .ok unsortedLast ∧
    applyOps emptyGraph sortedOps = .ok sortedFirst ∧
    graphEq (fun n : Nat => toString n) (fun e : Nat => toString e) unsortedLast sortedFirst
      = true :=
  ⟨rfl, rfl,
    (graphEq_same_text _ _ unsortedOps sortedOps unsortedLast sortedFirst (by rfl) (by rfl)).1.mpr
      (by decide)⟩

/-- C22 (evaluation at the failing input): nodes 1, 2, 3 and the edge 1 -> 3 (5), then
`DeleteNode 3`.  The graph has the nodes 1 and 2 and no visible edge, but its copy cannot be
made: the copy constructor traverses the source from `cbegin()`, which steps over the expired
edge and then dereferences the end of the edge list. -/
theorem copy_on_stale_edges :
    (∃ a, InsertNode twoNodes 3 = (a, true) ∧ InsertEdge a 1 3 5 = .ok (edgeToThree, true)) ∧
    DeleteNode edgeToThree 3 = (onlyStale, true) ∧
    GetNodes onlyStale = [1, 2] ∧ allEdges onlyStale = [] ∧
    cbegin onlyStale = .error .invalid_iterator ∧
    Graph.copy onlyStale = .error .invalid_iterator :=
  ⟨⟨_, rfl, rfl⟩, rfl, by decide, rfl, rfl, rfl⟩

/-- The copy constructor on the graph of the repository test of the cursors and on a graph with
an expired edge that a live edge follows: the copy has the nodes and the visible edges. -/
theorem copy_scenarios :
    (∃ g1 c, Graph.copy iterSample = .ok (g1, c) ∧ GetNodes c = GetNodes iterSample ∧
      allEdges c = allEdges iterSample) ∧
    (∃ g1 c, Graph.copy staleThenLive = .ok (g1, c) ∧ GetNodes c = GetNodes staleThenLive ∧
      allEdges c = allEdges staleThenLive) :=
  ⟨⟨_, _, rfl, by decide, by decide⟩, ⟨_, _, rfl, by decide, by decide⟩⟩

/-- C24: in a graph built from the empty graph by node and edge insertions, `GetConnected src`
throws the out-of-range error exactly when `src` is not a node; otherwise it returns a strictly
ascending list (so every destination occurs once) that holds exactly the destinations of the
edges inserted from `src`, which are the destinations of the visible edges of `src`; it is empty
when `src` has no edge. -/
theorem GetConnected_spec (ops : List (BuildOp N E)) (g : Graph N E)
    (h : applyOps emptyGraph ops = .ok g) (src : N) :
    (GetConnected g src = .error (.out_of_range msgGetConnected) ↔ IsNode g src = false) ∧
    (IsNode g src = true →
      ∃ l, GetConnected g src = .ok l ∧ l.Pairwise (fun a b => a < b) ∧
        (∀ d, d ∈ l ↔ ∃ w, (d, w) ∈ edgesFrom g src) ∧
        (∀ d, d ∈ l ↔ ∃ w, BuildOp.edge src d w ∈ ops) ∧
        (edgesFrom g src = [] → l = [])) := by
  obtain ⟨hc, _, hedge⟩ := applyOps_clean ops emptyGraph g clean_empty h
  have hok : IsNode g src = true →
      ∃ l, GetConnected g src = .ok l ∧ l.Pairwise (fun a b => a < b) ∧
        (∀ d, d ∈ l ↔ ∃ w, (d, w) ∈ edgesFrom g src) ∧
        (∀ d, d ∈ l ↔ ∃ w, BuildOp.edge src d w ∈ ops) ∧
        (edgesFrom g src = [] → l = []) := by
    intro hs
    obtain ⟨s, hf⟩ := mapFind_of_IsNode g src hs
    have hsm := ((mapFind_some_iff g.nodes src s hc.1.1).mp hf).1
    obtain ⟨l, hl, hstrict, hmem⟩ := GetConnected_live g src s hf (hc.2.1 s hsm)
    refine ⟨l, hl, hstrict, hmem, ?_, ?_⟩
    · intro d
      rw [hmem d]
      constructor
      · rintro ⟨w, hw⟩
        exact ⟨w, by simpa [edgesFrom_empty] using (hedge src d w).mp hw⟩
      · rintro ⟨w, hw⟩
        exact ⟨w, (hedge src d w).mpr (Or.inr hw)⟩
    · intro he
      rw [List.eq_nil_iff_forall_not_mem]
      intro d hd
      obtain ⟨w, hw⟩ := (hmem d).mp hd
      rw [he] at hw
      simp at hw
  refine ⟨?_, hok⟩
  constructor
  · intro he
    cases hs : IsNode g src with
    | false => rfl
    | true =>
      obtain ⟨l, hl, _⟩ := hok hs
      rw [hl] at he
      exact absurd he (by simp)
  · intro hs
    simp [GetConnected, hs]

/-- C24 (witness): node 1 of the graph built by `renderOps` has two edges to 2 and one to
itself. -/
theorem GetConnected_spec_witness :
    applyOps emptyGraph renderOps = .ok renderSample ∧
    GetConnected renderSample 1 = .ok [1, 2] ∧
    ∃ l, GetConnected renderSample 1 = .ok l ∧ l.Pairwise (fun a b => a < b) ∧
      (∀ d, d ∈ l ↔ ∃ w, (d, w) ∈ edgesFrom renderSample 1) ∧
      (∀ d, d ∈ l ↔ ∃ w, BuildOp.edge 1 d w ∈ renderOps) ∧
      (edgesFrom renderSample 1 = [] → l = []) :=
  ⟨rfl, rfl, (GetConnected_spec renderOps renderSample (by rfl) 1).2 (by decide)⟩

/-- Member `GetWeights` on every graph, the part of C25 that holds without condition, and the
strict order under its condition: `GetWeights src dst` throws the out-of-range error exactly when
`src` or `dst` is not a
node; otherwise it returns an ascending list that holds exactly the weights `w` for which the
edge (src, dst, w) is visible, the empty list when there is none; the list is strictly ascending
when no edge of `src` is stored twice, as in every graph built by insertions. -/
theorem GetWeights_spec (g : Graph N E) (src dst : N) :
    (GetWeights g src dst = .error (.out_of_range msgGetWeights) ↔
      (IsNode g src = false ∨ IsNode g dst = false)) ∧
    (IsNode g src = true → IsNode g dst = true →
      ∃ l, GetWeights g src dst = .ok l ∧ l.Pairwise (fun a b => a ≤ b) ∧
        (∀ w, w ∈ l ↔ (dst, w) ∈ edgesFrom g src) ∧
        ((edgesFrom g src).Nodup → l.Pairwise (fun a b => a < b)) ∧
        ((∀ w, (dst, w) ∉ edgesFrom g src) → l = [])) ∧
    (∀ ops, applyOps emptyGraph ops = .ok g → (edgesFrom g src).Nodup) := by
  have hok : IsNode g src = true → IsNode g dst = true →
      ∃ l, GetWeights g src dst = .ok l ∧ l.Pairwise (fun a b => a ≤ b) ∧
        (∀ w, w ∈ l ↔ (dst, w) ∈ edgesFrom g src) ∧
        ((edgesFrom g src).Nodup → l.Pairwise (fun a b => a < b)) ∧
        ((∀ w, (dst, w) ∉ edgesFrom g src) → l = []) := by
    intro hs hd
    obtain ⟨l, hl, hsorted, hmem, hstrict⟩ := GetWeights_ok g src dst hs hd
    refine ⟨l, hl, hsorted, hmem, hstrict, ?_⟩
    intro hnone
    rw [List.eq_nil_iff_forall_not_mem]
    intro w hw
    exact hnone w ((hmem w).mp hw)
  refine ⟨?_, hok, ?_⟩
  · constructor
    · intro he
      by_contra hn
      have hs : IsNode g src = true := by
        cases h : IsNode g src
        · exact absurd (Or.inl h) hn
        · rfl
      have hd : IsNode g dst = true := by
        cases h : IsNode g dst
        · exact absurd (Or.inr h) hn
        · rfl
      obtain ⟨l, hl, _⟩ := hok hs hd
      rw [hl] at he
      exact absurd he (by simp)
    · intro h
      unfold GetWeights
      rcases h with h | h <;> simp [h]
  · intro ops hops
    exact clean_edgesFrom_nodup g (applyOps_clean ops emptyGraph g clean_empty hops).1 src

/-- Instance of `GetWeights_spec`: the weights of the edges 1 -> 2 of the graph built by
`renderOps`, inserted as 5 and -3. -/
theorem GetWeights_spec_witness :
    GetWeights renderSample 1 2 = .ok [-3, 5] ∧
    ∃ l, GetWeights renderSample 1 2 = .ok l ∧ l.Pairwise (fun a b => a ≤ b) ∧
      (∀ w, w ∈ l ↔ (2, w) ∈ edgesFrom renderSample 1) ∧
      ((edgesFrom renderSample 1).Nodup → l.Pairwise (fun a b => a < b)) ∧
      ((∀ w, (2, w) ∉ edgesFrom renderSample 1) → l = []) :=
  ⟨rfl, (GetWeights_spec renderSample 1 2).2.1 (by decide) (by decide)⟩

/-- C26: the constructor from a sequence of (source, destination, weight) triples returns a
graph whose nodes are exactly the values that occur as a source or a destination and whose
edges are exactly the triples of the sequence, each once: `GetNodes` is strictly ascending and
holds exactly those values, and for two of those values `GetWeights s d` is the strictly
ascending list of the weights given for (s, d). -/
theorem ofTuples_spec (ts : List (N × N × E)) :
    ∃ g : Graph N E, Graph.ofTuples ts = .ok g ∧
      (∀ v, IsNode g v = true ↔ ∃ t ∈ ts, v = t.1 ∨ v = t.2.1) ∧
      (∀ s d w, (s, d, w) ∈ allEdges g ↔ (s, d, w) ∈ ts) ∧ (allEdges g).Nodup ∧
      (GetNodes g).Pairwise (fun a b => a < b) ∧
      (∀ v, v ∈ GetNodes g ↔ ∃ t ∈ ts, v = t.1 ∨ v = t.2.1) ∧
      (∀ s d, (∃ t ∈ ts, s = t.1 ∨ s = t.2.1) → (∃ t ∈ ts, d = t.1 ∨ d = t.2.1) →
        ∃ l, GetWeights g s d = .ok l ∧ l.Pairwise (fun a b => a < b) ∧
          ∀ w, w ∈ l ↔ (s, d, w) ∈ ts) := by
  obtain ⟨g, hg⟩ := tupleLoop_ok ts (emptyGraph : Graph N E) clean_empty
  have hops : applyOps emptyGraph (ts.flatMap tupleOps) = .ok g := by
    rw [← tupleLoop_eq]; exact hg
  obtain ⟨hc, hnode, hedge⟩ := applyOps_clean _ emptyGraph g clean_empty hops
  have hn : ∀ v, IsNode g v = true ↔ ∃ t ∈ ts, v = t.1 ∨ v = t.2.1 := by
    intro v
    rw [hnode v, IsNode_empty, tupleOps_node]
    simp
  have he : ∀ s d w, (d, w) ∈ edgesFrom g s ↔ (s, d, w) ∈ ts := by
    intro s d w
    rw [hedge s d w, edgesFrom_empty, tupleOps_edge]
    simp
  refine ⟨g, hg, hn, ?_, clean_allEdges_nodup g hc, GetNodes_strict g hc.1.1, ?_, ?_⟩
  · intro s d w
    rw [allEdges_iff_edgesFrom g hc.1, he]
  · intro v
    rw [GetNodes_mem g hc.1.1, hn]
  · intro s d hs hd
    obtain ⟨l, hl, _, hmem, hstrict⟩ :=
      GetWeights_ok g s d ((hn s).mpr hs) ((hn d).mpr hd)
    refine ⟨l, hl, hstrict (clean_edgesFrom_nodup g hc s), ?_⟩
    intro w
    rw [hmem w, he]

/-- C26 (witness): five triples, one of them twice. -/
theorem ofTuples_spec_witness :
    (∃ g : Graph Nat Nat,
      Graph.ofTuples [(3, 1, 5), (1, 3, 2), (3, 1, 5), (3, 1, 4), (2, 2, 0)] = .ok g ∧
      GetNodes g = [1, 2, 3] ∧ GetWeights g 3 1 = .ok [4, 5] ∧
      allEdges g = [(1, 3, 2), (2, 2, 0), (3, 1, 5), (3, 1, 4)]) ∧
    ∃ g : Graph Nat Nat,
      Graph.ofTuples [(3, 1, 5), (1, 3, 2), (3, 1, 5), (3, 1, 4), (2, 2, 0)] = .ok g ∧
      (allEdges g).Nodup :=
  ⟨⟨_, rfl, by decide, rfl, rfl⟩,
    (ofTuples_spec [(3, 1, 5), (1, 3, 2), (3, 1, 5), (3, 1, 4), (2, 2, 0)]).imp
      (fun _ hg => ⟨hg.1, hg.2.2.2.1⟩)⟩

/-- C27: the graph constructed from a sequence of node values stores no edge, and `GetNodes`
returns the values of the sequence in strictly ascending order, each once: the sorted sequence
without its repetitions. -/
theorem ofNodes_spec (ns : List N) :
    (∀ n ∈ (Graph.ofNodes ns : Graph N E).nodes.toList, n.edges = []) ∧
    allEdges (Graph.ofNodes ns : Graph N E) = [] ∧
    (GetNodes (Graph.ofNodes ns : Graph N E)).Pairwise (fun a b => a < b) ∧
    (∀ v, v ∈ GetNodes (Graph.ofNodes ns : Graph N E) ↔ v ∈ ns) ∧
    GetNodes (Graph.ofNodes ns : Graph N E) = ns.dedup.insertionSort (fun a b => a ≤ b) := by
  have hops := insertRange_eq ns (emptyGraph : Graph N E)
  obtain ⟨hc, hnode, _⟩ := applyOps_clean _ emptyGraph _ clean_empty hops
  have hstored : ∀ n ∈ (Graph.ofNodes ns : Graph N E).nodes.toList, n.edges = [] :=
    insertRange_noEdges ns emptyGraph (by intro n hn; simp [emptyGraph, Tree.toList] at hn)
  have hmem : ∀ v, v ∈ GetNodes (Graph.ofNodes ns : Graph N E) ↔ v ∈ ns := by
    intro v
    show v ∈ GetNodes (insertRange emptyGraph ns) ↔ _
    rw [GetNodes_mem _ hc.1.1, hnode v, IsNode_empty]
    simp
  have hstrict : (GetNodes (Graph.ofNodes ns : Graph N E)).Pairwise (fun a b => a < b) :=
    GetNodes_strict _ hc.1.1
  refine ⟨hstored, allEdges_noEdges _ hstored, hstrict, hmem, ?_⟩
  apply sorted_nodup_unique _ _ hstrict (List.sorted_insertionSort (fun a b => a ≤ b) _)
    ((List.perm_insertionSort (fun a b => a ≤ b) _).nodup_iff.mpr (List.nodup_dedup ns))
  intro v
  rw [hmem v, (List.perm_insertionSort (fun a b => a ≤ b) _).mem_iff, List.mem_dedup]

/-- The repository test of the constructor from a range of node values, with 3, 1, 2 and two
repetitions. -/
theorem ofNodes_scenario :
    GetNodes (Graph.ofNodes [3, 1, 2, 3, 1] : Graph Nat Nat) = [1, 2, 3] ∧
    allEdges (Graph.ofNodes [3, 1, 2, 3, 1] : Graph Nat Nat) = [] :=
  ⟨by decide, rfl⟩

/-- C28: for every graph, after `Clear()` no value is a node, `GetNodes` is empty, the rendering
is the empty text, the graph compares equal to the empty graph, `cbegin()` returns a cursor equal
to `cend()`, and `InsertNode v` returns true for every `v` and makes `v` a node. -/
theorem Clear_spec (showN : N → String) (showE : E → String) (g : Graph N E) :
    (∀ v, IsNode (Clear g) v = false) ∧
    GetNodes (Clear g) = [] ∧ allEdges (Clear g) = [] ∧
    (render showN showE (Clear g)).2 = "" ∧
    graphEq showN showE (Clear g) emptyGraph = true ∧
    graphNe showN showE (Clear g) emptyGraph = false ∧
    (∃ it, cbegin (Clear g) = .ok (Clear g, it) ∧
      cursorEq (Clear g) it (cend (Clear g)) = true) ∧
    (∀ v, (InsertNode (Clear g) v).2 = true ∧ IsNode (InsertNode (Clear g) v).1 v = true ∧
      GetNodes (InsertNode (Clear g) v).1 = [v]) := by
  refine ⟨fun _ => rfl, rfl, rfl, rfl, rfl, rfl, ⟨_, rfl, rfl⟩, ?_⟩
  intro v
  have hins : InsertNode (Clear g) v
      = ({ nodes := .node .nil ⟨g.fresh, v, []⟩ .nil, fresh := g.fresh + 1 }, true) := rfl
  rw [hins]
  refine ⟨rfl, ?_, rfl⟩
  simp [IsNode, mapCount, mapFind, lowerBound]

/-- The repository test of `Clear`: the graph with two nodes and two edges is cleared, then a
node is inserted. -/
theorem Clear_scenario :
    GetNodes (Clear sampleGraph) = [] ∧ (InsertNode (Clear sampleGraph) 7).2 = true ∧
    IsNode (InsertNode (Clear sampleGraph) 7).1 7 = true :=
  ⟨rfl, rfl, rfl⟩

/-- C29 (evaluation at the failing input): nodes 2, 1, 3 with the edges 1 -> 2 (7) and
3 -> 1 (5), then `Replace 3 0`, which leaves the node 0 where the index does not find it.
`MergeReplace 1 2` passes its guard, moves the edge of node 1 into the list of node 2, and on
the edge 0 -> 1 calls `InsertEdge 0 2 5`, which throws its runtime error because 0 is not found.
The error leaves `MergeReplace` with the graph changed: the edge 1 -> 2 (7) has become
2 -> 2 (7). -/
theorem MergeReplace_not_atomic :
    applyOps emptyGraph threeNodesOps = .ok threeNodes ∧
    Replace threeNodes 3 0 = .ok (renamedZero, true) ∧
    IsNode renamedZero 1 = true ∧ IsNode renamedZero 2 = true ∧ IsNode renamedZero 0 = false ∧
    MergeReplace renamedZero 1 2 = .error (.runtime_error msgInsertEdge) ∧
    MergeReplaceAfter renamedZero 1 2 = (halfMerged, some (.runtime_error msgInsertEdge)) ∧
    allEdges renamedZero = [(1, 2, 7), (0, 1, 5)] ∧
    allEdges halfMerged = [(2, 2, 7), (0, 1, 5)] ∧
    (1, 2, 7) ∉ allEdges halfMerged :=
  ⟨rfl, rfl, rfl, rfl, rfl, rfl, rfl, rfl, rfl, by decide⟩

/-- C30 (counterexample): nodes A = 1 and B = 2 with the edges A -> B (0) and B -> A (2).  After
`MergeReplace A B` the weights of the edges B -> B are 0 and 2, not 2 alone: the edge A -> B (0)
of the old node has become the edge B -> B (0). -/
theorem MergeReplace_pair_weights :
    applyOps emptyGraph mergePairOps = .ok mergePair ∧
    MergeReplace mergePair 1 2 = .ok mergedPair ∧
    GetWeights mergedPair 2 2 = .ok [0, 2] ∧
    (2, 2, 0) ∈ allEdges mergedPair :=
  ⟨rfl, rfl, rfl, by decide⟩

/-- C30 (amended): for the graph with exactly the nodes A and B and the edges A -> B (0) and
B -> A (2), in either order of the two values: after `MergeReplace A B`, A is no longer a node,
B is the only node, and the weights of the edges B -> B are 0 and 2. -/
theorem MergeReplace_pair_spec :
    (∃ g, MergeReplace mergePair 1 2 = .ok g ∧ IsNode g 1 = false ∧ IsNode g 2 = true ∧
      GetNodes g = [2] ∧ GetWeights g 2 2 = .ok [0, 2] ∧
      allEdges g = [(2, 2, 0), (2, 2, 2)]) ∧
    (applyOps emptyGraph mergePairRevOps = .ok mergePairRev ∧
      ∃ g, MergeReplace mergePairRev 2 1 = .ok g ∧ IsNode g 2 = false ∧ IsNode g 1 = true ∧
        GetNodes g = [1] ∧ GetWeights g 1 1 = .ok [0, 2] ∧
        allEdges g = [(1, 1, 0), (1, 1, 2)]) :=
  ⟨⟨mergedPair, rfl, rfl, rfl, rfl, rfl, rfl⟩,
    rfl, ⟨mergedPairRev, rfl, rfl, rfl, rfl, rfl, rfl⟩⟩

/-- C31 (evaluation at the example of the claim): nodes 1 ("first") and 2 ("second"), the edge
2 -> 1 (1), then `DeleteNode 1` and `InsertNode 1`.  Both 2 and 1 are nodes and node 2 has no
visible edge, but `InsertEdge 2 1 1` does not return true: its scan of the edge list of node 2
dereferences the expired entry. -/
theorem InsertEdge_after_reinsertion :
    InsertEdge twoNodes 2 1 1 = .ok (edgeToFirst, true) ∧
    DeleteNode edgeToFirst 1 = (staleToFirst, true) ∧
    InsertNode staleToFirst 1 = (firstAgain, true) ∧
    IsNode firstAgain 2 = true ∧ IsNode firstAgain 1 = true ∧
    edgesFrom firstAgain 2 = [] ∧
    InsertEdge firstAgain 2 1 1 = .error .null_deref :=
  ⟨rfl, rfl, rfl, rfl, rfl, rfl, rfl⟩

/-- C32 (evaluation at the failing input): nodes 1, 2, 3, 4 with the edges 1 -> 2 (0),
1 -> 4 (0), 1 -> 3 (0), then `DeleteNode 4`.  The visible edges of node 1 lead to 2 and to 3, and
the rendering has no line for 4, but it writes the line of 3 before the line of 2: with the
expired entry between them the sort leaves the two live entries in descending order. -/
theorem render_with_stale_unsorted :
    applyOps emptyGraph fourNodesOps = .ok fourNodes ∧
    DeleteNode fourNodes 4 = (staleMiddle, true) ∧
    edgesFrom staleMiddle 1 = [(2, 0), (3, 0)] ∧
    render (fun n : Nat => toString n) (fun e : Nat => toString e) staleMiddle
      = (staleMiddlePrinted, "1 (\n  3 | 0\n  2 | 0\n)\n2 (\n)\n3 (\n)\n") ∧
    canonical (fun n : Nat => toString n) (fun e : Nat => toString e) staleMiddle
      = "1 (\n  2 | 0\n  3 | 0\n)\n2 (\n)\n3 (\n)\n" ∧
    listSort (edgeComparator staleMiddle) [(1, 0), (3, 0), (2, 0)] = [(2, 0), (3, 0), (1, 0)] := by
  refine ⟨rfl, rfl, rfl, ?_, by decide, rfl⟩
  decide

/-- C33 (evaluation at the example of the claim): nodes 1 (A) and 2 (B), the edge 1 -> 2, then
`DeleteNode 2`.  The graph has no visible edge, but `cbegin()` does not return a cursor equal to
`cend()`: it steps over the expired edge, which leaves the list position at the end of the only
edge list, and then dereferences that position; the traversal does not complete. -/
theorem cbegin_on_stale_edge :
    InsertEdge twoNodes 1 2 0 = .ok (edgeToTwo, true) ∧
    DeleteNode edgeToTwo 2 = (staleToTwo, true) ∧
    allEdges staleToTwo = [] ∧
    cbegin staleToTwo = .error .invalid_iterator ∧
    forwardRange staleToTwo = .error .invalid_iterator :=
  ⟨rfl, rfl, rfl, rfl, rfl⟩

/-- C34 (evaluation at the failing input): nodes 1, 2, 3, 4 with the edges 3 -> 3 (7) and
3 -> 4 (9), then `DeleteNode 4`.  Node 3 has no edge to 1, and `MergeReplace 1 2` returns, but
afterwards node 3 has lost its visible edge 3 -> 3 (7): the sort puts the expired entry first and
`unique` removes the entry that follows it, since `edgeEquals` is true whenever an operand is
expired. -/
theorem MergeReplace_drops_live_edge :
    applyOps emptyGraph loopAndFourOps = .ok loopAndFour ∧
    DeleteNode loopAndFour 4 = (loopAndStale, true) ∧
    edgesFrom loopAndStale 3 = [(3, 7)] ∧ (1, 7) ∉ edgesFrom loopAndStale 3 ∧
    MergeReplace loopAndStale 1 2 = .ok loopLost ∧
    IsNode loopLost 3 = true ∧ edgesFrom loopLost 3 = [] ∧
    listSort (edgeComparator loopAndStale) [(2, 7), (3, 9)] = [(3, 9), (2, 7)] ∧
    listUnique (edgeEquals loopAndStale) [(3, 9), (2, 7)] = [(3, 9)] :=
  ⟨rfl, rfl, rfl, by decide, rfl, rfl, rfl, rfl, rfl⟩

/-- C35 (evaluation at the failing input): the graph with the single node 2 that stores an edge
to the deleted node 1.  `IsConnected 2 2` and `GetWeights 2 2` return, and the graph they leave
still stores the expired edge: a following `GetConnected 2` or `InsertEdge 2 2 7` dereferences
it. -/
theorem queries_keep_stale_edges :
    InsertEdge twoNodes 2 1 5 = .ok (edgeToOne, true) ∧
    DeleteNode edgeToOne 1 = (staleToOne, true) ∧
    IsConnectedAfter staleToOne 2 2 = (staleToOne, .ok false) ∧
    GetWeightsAfter staleToOne 2 2 = (staleToOne, .ok []) ∧
    storedEdges (IsConnectedAfter staleToOne 2 2).1 2 = some [(0, 5)] ∧
    storedEdges (GetWeightsAfter staleToOne 2 2).1 2 = some [(0, 5)] ∧
    expired staleToOne 0 = true ∧
    GetConnected (IsConnectedAfter staleToOne 2 2).1 2 = .error .null_deref ∧
    InsertEdge (GetWeightsAfter staleToOne 2 2).1 2 2 7 = .error .null_deref :=
  ⟨rfl, rfl, rfl, rfl, rfl, rfl, rfl, rfl, rfl⟩

/-- C36 (evaluation at the failing input): on the graph `staleMiddle` of C32 the comparison
`g == g` is false.  The first rendering writes the line of 3 before the line of 2 and removes the
expired entry; the second rendering sorts a list without expired entries and writes the line of 2
first. -/
theorem graphEq_not_reflexive :
    applyOps emptyGraph fourNodesOps = .ok fourNodes ∧
    DeleteNode fourNodes 4 = (staleMiddle, true) ∧
    (render (fun n : Nat => toString n) (fun e : Nat => toString e) staleMiddle).2
      = "1 (\n  3 | 0\n  2 | 0\n)\n2 (\n)\n3 (\n)\n" ∧
    (render (fun n : Nat => toString n) (fun e : Nat => toString e)
        (render (fun n : Nat => toString n) (fun e : Nat => toString e) staleMiddle).1).2
      = "1 (\n  2 | 0\n  3 | 0\n)\n2 (\n)\n3 (\n)\n" ∧
    graphEqSame (fun n : Nat => toString n) (fun e : Nat => toString e) staleMiddle = false := by
  refine ⟨rfl, rfl, ?_, ?_, ?_⟩ <;> decide

/-- C37 (evaluation at the failing input): nodes 1 and 2.  `Replace 2 0` returns true and leaves
the value 0 in the right child of the root 1, where the index does not look for it: 0 is stored
but `IsNode 0` is false, and `Replace 0 2` throws the runtime error of a missing node. -/
theorem Replace_not_undone :
    twoNodes = (InsertNode (InsertNode (emptyGraph : Graph Nat Nat) 1).1 2).1 ∧
    IsNode twoNodes 2 = true ∧ IsNode twoNodes 0 = false ∧
    Replace twoNodes 2 0 = .ok (renamedTwoZero, true) ∧
    renamedTwoZero.nodes.toList.map Node.value = [1, 0] ∧
    IsNode renamedTwoZero 0 = false ∧
    Replace renamedTwoZero 0 2 = .error (.runtime_error msgReplace) :=
  ⟨rfl, rfl, rfl, rfl, rfl, rfl, rfl⟩

/-- The two forms of `erase` on the graphs on which the statement of C39 holds: in a well-formed
graph without edges to deleted nodes, for an edge (`src`, `dst`, `w`)
that is present, `find src dst w` returns a cursor, `erase` of that cursor returns, `erase src dst
w` on the original graph returns true, and the graph left by the first form compares equal with
`==` to the graph left by the second form. -/
theorem erase_forms_agree (showN : N → String) (showE : E → String) (g : Graph N E)
    (src dst : N) (w : E) (h : WF g) (hs : NoStale g) (hp : (dst, w) ∈ edgesFrom g src) :
    ∃ g1 it g2 it2, find g src dst w = .ok (g1, it) ∧ eraseAt g1 it = .ok (g2, it2) ∧
      (erase g src dst w).2 = true ∧
      graphEq showN showE g2 (erase g src dst w).1 = true := by
  obtain ⟨g1, it, g2, it2, h1, h2, h3, h4⟩ := erase_forms_same showN showE g src dst w h hs hp
  exact ⟨g1, it, g2, it2, h1, h2, h3, decide_eq_true h4⟩

/-- Instance of `erase_forms_agree`: the edge 2 -> 1 of weight 5 in the graph with the nodes 1
and 2. -/
theorem erase_forms_agree_witness :
    WF edgeToOne ∧ NoStale edgeToOne ∧ (1, 5) ∈ edgesFrom edgeToOne 2 ∧
    ∃ g1 it g2 it2, find edgeToOne 2 1 5 = .ok (g1, it) ∧ eraseAt g1 it = .ok (g2, it2) ∧
      (erase edgeToOne 2 1 5).2 = true ∧
      graphEq (fun n : Nat => toString n) (fun e : Nat => toString e) g2
        (erase edgeToOne 2 1 5).1 = true :=
  ⟨by decide, by decide, by decide,
    erase_forms_agree _ _ edgeToOne 2 1 5 (by decide) (by decide) (by decide)⟩

/-- C40: for every graph, well formed or not and with any number of edges to deleted nodes, and
every cursor that is not at the end (its node position is inside the index), `operator++` returns:
the recursion that follows the removal of an expired edge is entered at most once for every
stored edge, so the `edgeCount g + 1` calls granted by `increment` are enough and no call ends in
a fault. -/
theorem increment_terminates (g : Graph N E) (it : Cursor)
    (hn : it.node < g.nodes.toList.length) :
    ∃ g1 it1, increment g it = .ok (g1, it1) := by
  obtain ⟨r, hr⟩ := incLoop_ok (edgeCount g + 1) g it (g.nodes.toList[it.node])
    (Nat.lt_succ_self _) (List.getElem?_eq_getElem hn)
  exact ⟨r.1, r.2, hr⟩

/-- C40 (witness): the cursor on the first stored edge of node 1 in the graph `staleMiddle`,
whose next entry is expired. -/
theorem increment_terminates_witness :
    (⟨0, 0⟩ : Cursor).node < staleMiddle.nodes.toList.length ∧
    ∃ g1 it1, increment staleMiddle ⟨0, 0⟩ = .ok (g1, it1) :=
  ⟨by decide, increment_terminates staleMiddle ⟨0, 0⟩ (by decide)⟩

/-- C3 (evaluation at the failing input): nodes 1 and 2, then `Replace 2 0`, which leaves the
node 0 in the right child of the root 1.  The value 0 is a node: `GetNodes` lists it and
`operator<<` writes its block.  `InsertNode 0` does not find it, returns true and stores a second
node of value 0: the graph is changed and `GetNodes` lists 0 twice. -/
theorem InsertNode_of_renamed_value :
    twoNodes = (InsertNode (InsertNode (emptyGraph : Graph Nat Nat) 1).1 2).1 ∧
    Replace twoNodes 2 0 = .ok (renamedTwoZero, true) ∧
    GetNodes renamedTwoZero = [0, 1] ∧
    (render (fun n : Nat => toString n) (fun e : Nat => toString e) renamedTwoZero).2
      = "1 (\n)\n0 (\n)\n" ∧
    InsertNode renamedTwoZero 0 = (twiceZero, true) ∧
    twiceZero ≠ renamedTwoZero ∧
    GetNodes twiceZero = [0, 0, 1] ∧
    (render (fun n : Nat => toString n) (fun e : Nat => toString e) twiceZero).2
      = "0 (\n)\n1 (\n)\n0 (\n)\n" := by
  refine ⟨rfl, rfl, rfl, ?_, rfl, ?_, rfl, ?_⟩ <;> decide

/-- C4 (evaluation at the failing input): nodes 1 and 2, then `Replace 2 0`, which leaves the
node 0 in the right child of the root 1.  `DeleteNode 1` erases the range of the entries
equivalent to 1, which the descents of `equal_range` make the whole index: the call returns true
and the node 0 is removed as well, `GetNodes` goes from [0, 1] to the empty list. -/
theorem DeleteNode_clears_index :
    twoNodes = (InsertNode (InsertNode (emptyGraph : Graph Nat Nat) 1).1 2).1 ∧
    Replace twoNodes 2 0 = .ok (renamedTwoZero, true) ∧
    GetNodes renamedTwoZero = [0, 1] ∧
    IsNode renamedTwoZero 1 = true ∧
    DeleteNode renamedTwoZero 1 = (clearedByDelete, true) ∧
    GetNodes clearedByDelete = [] ∧
    clearedByDelete.nodes.toList = [] ∧
    (render (fun n : Nat => toString n) (fun e : Nat => toString e) clearedByDelete).2 = "" := by
  refine ⟨rfl, rfl, rfl, rfl, rfl, rfl, rfl, ?_⟩
  decide

/-- C5 (evaluation at the failing input): nodes 1 and 2 with the edge 1 -> 2 (0), then
`Replace 1 3` and `InsertNode 2`, which returns true and stores a second node of value 2 because
the first one is not found any more.  Now 3 and 2 are nodes.  `DeleteNode 2` removes the second
node of value 2 and `InsertNode 2` stores a new one; the edge of node 3 leads to the first node
of value 2, which was never deleted, so `IsConnected 3 2` is true and `GetWeights 3 2` is [0]. -/
theorem edge_to_homonym_survives :
    InsertEdge twoNodes 1 2 0 = .ok (edgeToTwo, true) ∧
    Replace edgeToTwo 1 3 = .ok (renamedToThree, true) ∧
    InsertNode renamedToThree 2 = (secondTwo, true) ∧
    IsNode secondTwo 3 = true ∧ IsNode secondTwo 2 = true ∧ (3 : Nat) ≠ 2 ∧
    DeleteNode secondTwo 2 = (secondTwoDeleted, true) ∧
    InsertNode secondTwoDeleted 2 = (secondTwoAgain, true) ∧
    IsConnected secondTwoAgain 3 2 = .ok true ∧
    GetWeights secondTwoAgain 3 2 = .ok [0] :=
  ⟨rfl, rfl, rfl, rfl, rfl, by decide, rfl, rfl, rfl, rfl⟩

/-- C9 (evaluation at the failing input): nodes 2, 1, 3 with the edges 1 -> 2 (7) and
3 -> 1 (5), then `Replace 3 0`.  The graph stores no edge to a deleted node, and 1 and 2 are
distinct nodes.  `MergeReplace 1 2` does not return: on the edge 0 -> 1 it calls
`InsertEdge 0 2 5`, which throws because 0 is not found.  In the graph left behind 1 is still a
node, the edge 0 -> 1 (5) is still there and its image 0 -> 2 (5) under the renaming is not. -/
theorem MergeReplace_on_renamed_index :
    applyOps emptyGraph threeNodesOps = .ok threeNodes ∧
    Replace threeNodes 3 0 = .ok (renamedZero, true) ∧
    NoStale renamedZero ∧
    IsNode renamedZero 1 = true ∧ IsNode renamedZero 2 = true ∧ (1 : Nat) ≠ 2 ∧
    MergeReplace renamedZero 1 2 = .error (.runtime_error msgInsertEdge) ∧
    IsNode (MergeReplaceAfter renamedZero 1 2).1 1 = true ∧
    (0, 1, 5) ∈ allEdges (MergeReplaceAfter renamedZero 1 2).1 ∧
    renameEdge 1 2 (0, 1, 5) = (0, 2, 5) ∧
    (0, 2, 5) ∉ allEdges (MergeReplaceAfter renamedZero 1 2).1 :=
  ⟨rfl, rfl, by decide, rfl, rfl, by decide, rfl, rfl, by decide, rfl, by decide⟩

/-- C17 (evaluation at the failing input): nodes 1 to 5 with the edges 1 -> 3 (0), 2 -> 3 (0),
2 -> 4 (0), 2 -> 5 (0), then `DeleteNode 5` and `MergeReplace 1 2`.  The merge leaves node 2 with
the edge to 3 of weight 0 stored twice: `sort` and `unique` work with predicates that are true
whenever an operand is expired.  `erase 2 3 0` returns true and removes one of the two entries;
the edge 2 -> 3 (0) is still there. -/
theorem erase_leaves_duplicate :
    applyOps emptyGraph fiveNodesOps = .ok fiveNodes ∧
    DeleteNode fiveNodes 5 = (fiveStale, true) ∧
    MergeReplace fiveStale 1 2 = .ok mergedTwice ∧
    IsNode mergedTwice 2 = true ∧ IsNode mergedTwice 3 = true ∧
    edgesFrom mergedTwice 2 = [(3, 0), (4, 0), (3, 0)] ∧
    erase mergedTwice 2 3 0 = (erasedOnce, true) ∧
    edgesFrom erasedOnce 2 = [(4, 0), (3, 0)] ∧
    (3, 0) ∈ edgesFrom erasedOnce 2 ∧
    IsConnected erasedOnce 2 3 = .ok true :=
  ⟨rfl, rfl, rfl, rfl, rfl, rfl, rfl, rfl, by decide, rfl⟩

/-- C25 (evaluation at the failing input): the graph `mergedTwice` of C17, in which node 2 stores
the edge to 3 of weight 0 twice after `DeleteNode 5` and `MergeReplace 1 2`.  The nodes 2 and 3
exist and `GetWeights 2 3` returns [0, 0], which is not strictly ascending. -/
theorem GetWeights_repeats_weight :
    applyOps emptyGraph fiveNodesOps = .ok fiveNodes ∧
    DeleteNode fiveNodes 5 = (fiveStale, true) ∧
    MergeReplace fiveStale 1 2 = .ok mergedTwice ∧
    IsNode mergedTwice 2 = true ∧ IsNode mergedTwice 3 = true ∧
    GetWeights mergedTwice 2 3 = .ok [0, 0] ∧
    ¬ ([0, 0] : List Nat).Pairwise (fun a b => a < b) ∧
    listSort (edgeComparator fiveStale) [(2, 0), (3, 0), (4, 0)] = [(4, 0), (2, 0), (3, 0)] :=
  ⟨rfl, rfl, rfl, rfl, rfl, rfl, by decide, rfl⟩

/-- C39 (evaluation at the failing input): nodes 2 and 1 with the edge 1 -> 1 (7), then
`Replace 1 9`, `InsertNode 9`, which returns true and stores a second node of value 9 because the
first one is not found, and `InsertEdge 9 9 7`, which gives the second node its loop.  The graph
stores no edge to a deleted node and 9 -> 9 (7) is an edge.  `find 9 9 7` returns the cursor on
the loop of the first node of value 9 and `erase` of that cursor removes it; `erase 9 9 7`
removes the loop of the second node.  The two graphs are written as different texts, so `==` is
false. -/
theorem erase_forms_differ :
    InsertEdge (InsertNode (InsertNode (emptyGraph : Graph Nat Nat) 2).1 1).1 1 1 7
      = .ok (loopOnOne, true) ∧
    Replace loopOnOne 1 9 = .ok (loopOnNine, true) ∧
    InsertNode loopOnNine 9 = (nineTwice, true) ∧
    InsertEdge nineTwice 9 9 7 = .ok (twoLoops, true) ∧
    NoStale twoLoops ∧
    edgesFrom twoLoops 9 = [(9, 7)] ∧
    find twoLoops 9 9 7 = .ok (twoLoops, ⟨0, 0⟩) ∧
    cursorDeref twoLoops ⟨0, 0⟩ = .ok (9, 9, 7) ∧
    eraseAt twoLoops ⟨0, 0⟩ = .ok (firstLoopErased, ⟨2, 0⟩) ∧
    erase twoLoops 9 9 7 = (secondLoopErased, true) ∧
    (render (fun n : Nat => toString n) (fun e : Nat => toString e) firstLoopErased).2
      = "9 (\n)\n2 (\n)\n9 (\n  9 | 7\n)\n" ∧
    (render (fun n : Nat => toString n) (fun e : Nat => toString e) secondLoopErased).2
      = "9 (\n  9 | 7\n)\n2 (\n)\n9 (\n)\n" ∧
    graphEq (fun n : Nat => toString n) (fun e : Nat => toString e) firstLoopErased
      secondLoopErased = false := by
  refine ⟨rfl, rfl, rfl, rfl, ?_, rfl, rfl, rfl, rfl, rfl, ?_, ?_, ?_⟩ <;> decide

end Claims

end gdwg
